import Mathlib

/-! # HeapManager: a shallow embedding of `heap.c`

The allocator of `src/heap.c` is embedded over a byte-addressed memory.

* Memory is a total map from addresses to bytes.  Addresses are natural
  numbers (an idealised flat address space: pointer arithmetic itself never
  wraps), while every `size_t` computation is reduced modulo `2 ^ 64`.
* A `BlockHeader` occupies 16 bytes: the `size_t size` field is stored
  little-endian in bytes `0 .. 7`, the `int is_used` field in bytes `8 .. 11`;
  bytes `12 .. 15` are padding that the code never writes.
* `sbrk` takes an `intptr_t`; a `size_t` argument is converted with the two's
  complement reading `toSigned`, which is what makes `sbrk(-(x))` retract the
  break in `try_release_memory`.
* Loops take a fuel argument; `none` stands for a run that does not finish
  within the fuel or that stops in a failed `ASSERT`.
-/

namespace HeapManager

/-! ## Machine model -/

/-- Byte-addressed memory. -/
abbrev Mem := Nat → Nat

/-- Process state seen by the allocator: memory, the program break and the
global `first_block` (`0` is `NULL`). -/
structure Heap where
  mem : Mem
  brk : Nat
  first_block : Nat

/-- Value of `sizeof(BlockHeader)` on an LP64 target. -/
def sizeof_BlockHeader : Nat := 16

/-- Constant `BLOCK_FREE`. -/
def BLOCK_FREE : Nat := 0

/-- Constant `BLOCK_USED`. -/
def BLOCK_USED : Nat := 1

/-- Constant `ALIGN_BYTES`. -/
def ALIGN_BYTES : Nat := 8

/-- Two's complement reading of a 64-bit value (`size_t` to `ssize_t` or
`intptr_t`). -/
def toSigned (v : Nat) : Int :=
  if v < 2 ^ 63 then (v : Int) else (v : Int) - 2 ^ 64

/-- Unsigned negation of a `size_t`. -/
def negU (v : Nat) : Nat := (2 ^ 64 - v % 2 ^ 64) % 2 ^ 64

/-- Little-endian load of `n` bytes at address `a`. -/
def load (m : Mem) (a : Nat) : Nat → Nat
  | 0 => 0
  | n + 1 => m a % 256 + 256 * load m (a + 1) n

/-- Little-endian store of the low `n` bytes of `v` at address `a`. -/
def store (m : Mem) (a n v : Nat) : Mem :=
  fun x => if a ≤ x ∧ x < a + n then v / 256 ^ (x - a) % 256 else m x

/-- Read of `b->size`. -/
def get_size (m : Mem) (b : Nat) : Nat := load m b 8

/-- Read of `b->is_used`. -/
def get_is_used (m : Mem) (b : Nat) : Nat := load m (b + 8) 4

/-- Write of `b->size`. -/
def set_size (m : Mem) (b v : Nat) : Mem := store m b 8 v

/-- Write of `b->is_used`. -/
def set_is_used (m : Mem) (b v : Nat) : Mem := store m (b + 8) 4 v

/-- Byte copy `memcpy(dst, src, n)`: every destination byte receives the
source byte as it was before the call.  The memory is a total map, so the copy
returns whatever the addresses are; whether the bytes read and written lie
below the break is stated separately, through `REALLOC_copy`. -/
def memcpy (m : Mem) (dst src n : Nat) : Mem :=
  fun x => if dst ≤ x ∧ x < dst + n then m (src + (x - dst)) else m x

/-- Byte fill `memset(s, c, n)`. -/
def memset (m : Mem) (s c n : Nat) : Mem :=
  fun x => if s ≤ x ∧ x < s + n then c % 256 else m x

/-- Break primitive `sbrk(increment)`: moves the break by a signed amount and
returns the old break. -/
def sbrk (h : Heap) (increment : Int) : Heap × Nat :=
  ({ h with brk := ((h.brk : Int) + increment).toNat }, h.brk)

/-! ## Helpers of `heap.c` -/

/-- Source `offset_ptr`: byte-based pointer arithmetic with a signed offset. -/
def offset_ptr (ptr : Nat) (offset : Int) : Nat := ((ptr : Int) + offset).toNat

/-- Source `round_up`, in `size_t` arithmetic. -/
def round_up (num sz : Nat) : Nat :=
  let remainder := num % sz
  if remainder = 0 then num else (num + sz - remainder) % 2 ^ 64

/-- Source `try_merge`: absorb the following blocks into `b` until one is
marked used. -/
def try_merge : Nat → Mem → Nat → Option Mem
  | 0, _, _ => none
  | fuel + 1, m, b =>
    let nb := offset_ptr b (toSigned (get_size m b))
    if get_is_used m nb = BLOCK_USED then some m
    else try_merge fuel (set_size m b ((get_size m b + get_size m nb) % 2 ^ 64)) b

/-- Loop of `try_merge_all`, from block `b`; `inner` is the fuel handed to
each `try_merge`. -/
def try_merge_all_loop (inner : Nat) : Nat → Mem → Nat → Option Mem
  | 0, _, _ => none
  | fuel + 1, m, b =>
    if get_size m b ≠ 0 then
      match (if get_is_used m b = BLOCK_FREE then try_merge inner m b else some m) with
      | none => none
      | some m1 => try_merge_all_loop inner fuel m1 (offset_ptr b (toSigned (get_size m1 b)))
    else some m

/-- Source `try_merge_all`. -/
def try_merge_all (fuel : Nat) (h : Heap) : Option Heap :=
  match try_merge_all_loop fuel fuel h.mem h.first_block with
  | none => none
  | some m => some { h with mem := m }

/-- Source `try_split`. -/
def try_split (m : Mem) (b sz : Nat) : Mem :=
  if sz ≥ get_size m b then m
  else
    let leftover := get_size m b - sz
    if leftover < sizeof_BlockHeader + 24 then m
    else
      let nb := offset_ptr b (toSigned sz)
      let m1 := set_size m nb (round_up leftover ALIGN_BYTES)
      let m2 := set_is_used m1 nb BLOCK_FREE
      set_size m2 b sz

/-- Source `add_sentinel`. -/
def add_sentinel (h : Heap) : Heap :=
  let h0 := (sbrk h 0).1
  let r := sbrk h0 (toSigned sizeof_BlockHeader)
  let b := r.2
  let m1 := set_size r.1.mem b 0
  let m2 := set_is_used m1 b 1
  { r.1 with mem := m2 }

/-- Loop of `try_release_memory`: returns the final `prev` (`0` is `NULL`). -/
def last_block_loop : Nat → Mem → Nat → Nat → Option Nat
  | 0, _, _, _ => none
  | fuel + 1, m, prev, b =>
    if get_size m b ≠ 0 then
      last_block_loop fuel m b (offset_ptr b (toSigned (get_size m b)))
    else some prev

/-- Source `try_release_memory`. -/
def try_release_memory (fuel : Nat) (h : Heap) : Option Heap :=
  match last_block_loop fuel h.mem 0 h.first_block with
  | none => none
  | some prev =>
    if prev = 0 then some h
    else if get_is_used h.mem prev ≠ 0 then some h
    else
      let h1 := (sbrk h (toSigned (negU (get_size h.mem prev + sizeof_BlockHeader)))).1
      some (add_sentinel h1)

/-- Source `heap_init`. -/
def heap_init (h : Heap) : Heap :=
  if h.first_block ≠ 0 then h
  else
    let initial_break := (sbrk h 0).2 % 2 ^ 64
    let h1 :=
      if initial_break % ALIGN_BYTES ≠ 0 then
        let alignmentDiff := initial_break % ALIGN_BYTES
        let alignedBytes := ALIGN_BYTES - alignmentDiff
        (sbrk h (toSigned alignedBytes)).1
      else h
    let r := sbrk h1 0
    add_sentinel { r.1 with first_block := r.2 }

/-! ## Heap interface functions -/

/-- Search loop of `MALLOC` together with the code behind it: the first-fit
return inside the loop and the growth path after it. -/
def MALLOC_loop : Nat → Heap → Nat → Nat → Option (Nat × Heap)
  | 0, _, _, _ => none
  | fuel + 1, h, b, sz =>
    if get_size h.mem b ≠ 0 then
      if get_is_used h.mem b = BLOCK_FREE ∧ get_size h.mem b ≥ sz then
        let m1 := set_is_used h.mem b BLOCK_USED
        let m2 := try_split m1 b sz
        some (offset_ptr b (toSigned sizeof_BlockHeader), { h with mem := m2 })
      else MALLOC_loop fuel h (offset_ptr b (toSigned (get_size h.mem b))) sz
    else if get_size h.mem b = 0 ∧ get_is_used h.mem b = BLOCK_USED then
      let m1 := set_size h.mem b sz
      let h1 := (sbrk { h with mem := m1 } (toSigned ((sz + negU sizeof_BlockHeader) % 2 ^ 64))).1
      let h2 := add_sentinel h1
      some (offset_ptr b (toSigned sizeof_BlockHeader), h2)
    else none

/-- Source `MALLOC`. -/
def MALLOC (fuel : Nat) (sz : Nat) (h : Heap) : Option (Nat × Heap) :=
  let h0 := heap_init h
  let sz1 := round_up ((sz + sizeof_BlockHeader) % 2 ^ 64) ALIGN_BYTES
  MALLOC_loop fuel h0 h0.first_block sz1

/-- Source `FREE`. -/
def FREE (fuel : Nat) (ptr : Nat) (h : Heap) : Option Heap :=
  if ptr = 0 then some h
  else
    let b := offset_ptr ptr (toSigned (negU sizeof_BlockHeader))
    if get_is_used h.mem b ≠ BLOCK_USED then none
    else
      let h1 := { h with mem := set_is_used h.mem b BLOCK_FREE }
      match try_merge_all fuel h1 with
      | none => none
      | some h2 => try_release_memory fuel h2

/-- Source `REALLOC`; the result pointer `0` is `NULL`. -/
def REALLOC (fuel : Nat) (ptr : Nat) (sz : Nat) (h : Heap) : Option (Nat × Heap) :=
  if ptr = 0 then MALLOC fuel sz h
  else if sz = 0 then
    match FREE fuel ptr h with
    | none => none
    | some h1 => some (0, h1)
  else
    let orig_sz := sz
    let sz1 := round_up ((sz + sizeof_BlockHeader) % 2 ^ 64) ALIGN_BYTES
    let b := offset_ptr ptr (toSigned (negU sizeof_BlockHeader))
    if sz1 > get_size h.mem b then
      match try_merge fuel h.mem b with
      | none => none
      | some m1 =>
        let m2 := try_split m1 b sz1
        if get_size m2 b ≥ sz1 then some (ptr, { h with mem := m2 })
        else
          match MALLOC fuel ((sz1 + negU sizeof_BlockHeader) % 2 ^ 64) { h with mem := m2 } with
          | none => none
          | some (new_ptr, h3) =>
            let h4 := { h3 with mem := memcpy h3.mem new_ptr ptr orig_sz }
            match FREE fuel ptr h4 with
            | none => none
            | some h5 => some (new_ptr, h5)
    else
      let m1 := try_split h.mem b sz1
      match try_merge_all fuel { h with mem := m1 } with
      | none => none
      | some h2 =>
        match try_release_memory fuel h2 with
        | none => none
        | some h3 => some (ptr, h3)

/-- Source `CALLOC`. -/
def CALLOC (fuel : Nat) (nmemb size : Nat) (h : Heap) : Option (Nat × Heap) :=
  match MALLOC fuel ((nmemb * size) % 2 ^ 64) h with
  | none => none
  | some (ptr, h1) =>
    if ptr = 0 then some (0, h1)
    else some (ptr, { h1 with mem := memset h1.mem ptr 0 size })

/-- Source `REALLOCARRAY`. -/
def REALLOCARRAY (fuel : Nat) (ptr : Nat) (nmemb size : Nat) (h : Heap) : Option (Nat × Heap) :=
  REALLOC fuel ptr ((nmemb * size) % 2 ^ 64) h


/-! ## The block chain as a list -/

/-- Abstract view of one block: the two header fields. -/
structure Blk where
  size : Nat
  used : Nat
deriving DecidableEq

/-- Sum of the block sizes. -/
def total : List Blk → Nat
  | [] => 0
  | b :: bs => b.size + total bs

/-- Header address of every block when the first one sits at `a`. -/
def layout : Nat → List Blk → List (Nat × Blk)
  | _, [] => []
  | a, b :: bs => (a, b) :: layout (a + b.size) bs

/-- Memory holds the headers of the blocks `bs`, laid out from address `a`. -/
def Seg (m : Mem) (a : Nat) (bs : List Blk) : Prop :=
  ∀ e ∈ layout a bs, get_size m e.1 = e.2.size ∧ get_is_used m e.1 = e.2.used

/-- A sentinel header (`size = 0`, `is_used = 1`) sits at address `a`. -/
def IsSentinel (m : Mem) (a : Nat) : Prop :=
  get_size m a = 0 ∧ get_is_used m a = 1

/-- Per-block shape: room for the header, aligned size, boolean flag. -/
def Valid (bs : List Blk) : Prop :=
  ∀ b ∈ bs, 16 ≤ b.size ∧ b.size % 8 = 0 ∧ b.used ≤ 1

/-- The heap `h` is initialised and its chain, walked from `first_block`, is
exactly `bs` followed by the sentinel that ends right at the break. -/
structure Repr (h : Heap) (bs : List Blk) : Prop where
  base_ne : h.first_block ≠ 0
  base_al : h.first_block % 8 = 0
  seg : Seg h.mem h.first_block bs
  sent : IsSentinel h.mem (h.first_block + total bs)
  brk_eq : h.brk = h.first_block + total bs + 16
  valid : Valid bs

/-- Byte `x` belongs to the `size` or `is_used` field of a block header. -/
def HdrByte (a : Nat) (bs : List Blk) (x : Nat) : Prop :=
  ∃ e ∈ layout a bs, e.1 ≤ x ∧ x < e.1 + 12

/-- Byte `x` belongs to the payload of a used block. -/
def Own (a : Nat) (bs : List Blk) (x : Nat) : Prop :=
  ∃ e ∈ layout a bs, e.2.used = 1 ∧ e.1 + 16 ≤ x ∧ x < e.1 + e.2.size

/-- Address of the last block of a chain laid out from `a` (`prev` when the
chain is empty): the value of `prev` when the loop of `try_release_memory`
ends. -/
def lastAddr (prev a : Nat) : List Blk → Nat
  | [] => prev
  | b :: bs => lastAddr a (a + b.size) bs

/-- List view of `try_split` on a block: either the block itself or the
requested part followed by the free leftover. -/
def splitBlk (b : Blk) (sz : Nat) : List Blk :=
  if sz ≥ b.size then [b]
  else if b.size - sz < 40 then [b]
  else [⟨sz, b.used⟩, ⟨b.size - sz, 0⟩]

/-- List view of `try_merge_all`: every run of adjacent free blocks becomes
one free block. -/
def coalesce : List Blk → List Blk
  | [] => []
  | b :: bs =>
    match coalesce bs with
    | [] => [b]
    | c :: cs =>
      if b.used = 0 ∧ c.used = 0 then ⟨b.size + c.size, 0⟩ :: cs else b :: c :: cs

/-- List view of `try_release_memory`: a free last block is dropped. -/
def releaseLast : List Blk → List Blk
  | [] => []
  | [b] => if b.used = 0 then [] else [b]
  | b :: c :: bs => b :: releaseLast (c :: bs)

/-- Block footprint computed at the start of `MALLOC` and `REALLOC`:
`round_up(sz + sizeof(BlockHeader), ALIGN_BYTES)` in `size_t` arithmetic. -/
def footprint (s : Nat) : Nat :=
  round_up ((s + sizeof_BlockHeader) % 2 ^ 64) ALIGN_BYTES

/-- List view of `MALLOC` with footprint `need`: the first free block that
fits is marked used and split; without one a used block is appended. -/
def allocL (need : Nat) : List Blk → List Blk
  | [] => [⟨need, 1⟩]
  | b :: bs =>
    if b.used = 0 ∧ need ≤ b.size then splitBlk ⟨b.size, 1⟩ need ++ bs
    else b :: allocL need bs

/-- Offset from `first_block` of the block that `MALLOC` hands out. -/
def allocOff (need : Nat) : List Blk → Nat
  | [] => 0
  | b :: bs => if b.used = 0 ∧ need ≤ b.size then 0 else b.size + allocOff need bs

/-- No two neighbouring blocks of the chain are both free. -/
def NoAdjFree (bs : List Blk) : Prop :=
  List.Chain' (fun b c => ¬ (b.used = 0 ∧ c.used = 0)) bs

/-- The last block of the chain, when there is one, is not free. -/
def LastUsed (bs : List Blk) : Prop :=
  ∀ l ∈ bs.getLast?, l.used ≠ 0

/-- The caller stores one byte. -/
def poke (m : Mem) (a v : Nat) : Mem :=
  fun x => if x = a then v % 256 else m x

/-- Heap states reachable from initialisation by calls of the interface
functions, together with the list of live allocations (pointer, requested
size).  Every call is given enough fuel for its loops (the break bounds the
number of blocks), pointers passed back are live, and the caller writes only
inside the bytes it requested.  The side conditions on the sizes keep the break
below `2 ^ 63`, so that no size or address computation wraps. -/
inductive Reachable : Heap → List (Nat × Nat) → Prop
  | init (h0 : Heap) : h0.first_block = 0 → 0 < h0.brk → h0.brk + 24 ≤ 2 ^ 63 →
      Reachable (heap_init h0) []
  | malloc (h : Heap) (L : List (Nat × Nat)) (fuel s p : Nat) (h' : Heap) :
      Reachable h L → h.brk ≤ fuel → h.brk + s + 24 ≤ 2 ^ 63 →
      MALLOC fuel s h = some (p, h') → Reachable h' ((p, s) :: L)
  | free (h : Heap) (L : List (Nat × Nat)) (fuel p s : Nat) (h' : Heap) :
      Reachable h L → h.brk ≤ fuel → (p, s) ∈ L →
      FREE fuel p h = some h' → Reachable h' (L.filter (fun q => q.1 ≠ p))
  | realloc (h : Heap) (L : List (Nat × Nat)) (fuel p s s' q : Nat) (h' : Heap) :
      Reachable h L → h.brk ≤ fuel → (p, s) ∈ L → 0 < s' → h.brk + s' + 24 ≤ 2 ^ 63 →
      REALLOC fuel p s' h = some (q, h') →
      Reachable h' ((q, s') :: L.filter (fun r => r.1 ≠ p))
  | realloc_null (h : Heap) (L : List (Nat × Nat)) (fuel s p : Nat) (h' : Heap) :
      Reachable h L → h.brk ≤ fuel → h.brk + s + 24 ≤ 2 ^ 63 →
      REALLOC fuel 0 s h = some (p, h') → Reachable h' ((p, s) :: L)
  | realloc_zero (h : Heap) (L : List (Nat × Nat)) (fuel p s q : Nat) (h' : Heap) :
      Reachable h L → h.brk ≤ fuel → (p, s) ∈ L →
      REALLOC fuel p 0 h = some (q, h') → Reachable h' (L.filter (fun r => r.1 ≠ p))
  | write (h : Heap) (L : List (Nat × Nat)) (p s i v : Nat) :
      Reachable h L → (p, s) ∈ L → i < s →
      Reachable { h with mem := poke h.mem (p + i) v } L

/-- Every live allocation is the payload of a used block of the chain that is
large enough for the requested size. -/
def LiveOK (a : Nat) (bs : List Blk) (L : List (Nat × Nat)) : Prop :=
  ∀ q ∈ L, 16 ≤ q.1 ∧ ∃ blk, (q.1 - 16, blk) ∈ layout a bs ∧ blk.used = 1 ∧
    q.2 + 16 ≤ blk.size

/-- Invariant of the reachable states, over the chain `bs`. -/
structure Inv (h : Heap) (L : List (Nat × Nat)) (bs : List Blk) : Prop where
  repr : Repr h bs
  bound : h.brk < 2 ^ 63
  noadj : NoAdjFree bs
  last : LastUsed bs
  live : LiveOK h.first_block bs L
  nodup : (L.map Prod.fst).Nodup

/-- Walk of the chain from `b` by size strides, as in the loops of `heap.c`
and the heap dump of the test harness: the blocks met before the first header
of size `0`. -/
def chain_walk : Nat → Mem → Nat → Option (List Blk)
  | 0, _, _ => none
  | fuel + 1, m, b =>
    if get_size m b ≠ 0 then
      match chain_walk fuel m (offset_ptr b (toSigned (get_size m b))) with
      | none => none
      | some bs => some (⟨get_size m b, get_is_used m b⟩ :: bs)
    else some []

/-- A well-formed heap: initialised, with a chain of valid blocks that ends in
the sentinel right below the break, inside the lower half of the address
space. -/
def WellFormed (h : Heap) : Prop :=
  ∃ bs, Repr h bs ∧ h.brk < 2 ^ 63

/-! ## Concrete runs -/

/-- Pointer returned by a run (`0` when the run does not finish). -/
def ptr_of (r : Option (Nat × Heap)) : Nat :=
  match r with
  | some (p, _) => p
  | none => 0

/-- State after a run of `MALLOC`, `REALLOC` or `CALLOC`. -/
def after (r : Option (Nat × Heap)) : Heap :=
  match r with
  | some (_, h) => h
  | none => ⟨fun _ => 0, 0, 0⟩

/-- State after a run of `FREE`. -/
def after_free (r : Option Heap) : Heap :=
  match r with
  | some h => h
  | none => ⟨fun _ => 0, 0, 0⟩

/-- Example: the heap right after initialisation with the break at `4096`
and zeroed memory. -/
def ex0 : Heap := heap_init ⟨fun _ => 0, 4096, 0⟩

/-- Example: `ex0` after `MALLOC(8)`, one used block of 24 bytes. -/
def ex1 : Heap := after (MALLOC 5000 8 ex0)

/-- Example: `ex0` after `MALLOC(100)`. -/
def exA : Heap := after (MALLOC 5000 100 ex0)

/-- Example: `exA` after `MALLOC(8)`. -/
def exB : Heap := after (MALLOC 5000 8 exA)

/-- Example: `exB` after `FREE` of the first allocation: a free block of 120
bytes followed by a used block of 24 bytes. -/
def exC : Heap := after_free (FREE 5000 4112 exB)

/-- Example: `ex0` after `MALLOC(0)`. -/
def exZ : Heap := after (MALLOC 5000 0 ex0)

/-- Example: `ex0` after `MALLOC(48)`, one used block of 64 bytes. -/
def exD : Heap := after (MALLOC 5000 48 ex0)

/-- Example: `exD` after the caller stored `0xAA` in the first payload byte. -/
def exE : Heap := { exD with mem := poke exD.mem (4112 + 0) 170 }

/-- Example: `ex1` after the caller stored `0xAA` in the first payload byte. -/
def exF : Heap := { ex1 with mem := poke ex1.mem (4112 + 0) 170 }

/-- Example: `ex0` after `MALLOC(16)`. -/
def exG : Heap := after (MALLOC 5000 16 ex0)

/-- Example: `exG` after the caller stored `0xFF` at payload offset 8. -/
def exH : Heap := { exG with mem := poke exG.mem (4112 + 8) 255 }

/-- Example: `exH` after `MALLOC(8)`. -/
def exI : Heap := after (MALLOC 5000 8 exH)

/-- Example: `exI` after `FREE` of the first allocation: a free block of 32
bytes that still holds the byte `0xFF`, then a used block. -/
def exJ : Heap := after_free (FREE 5000 4112 exI)

/-- Example: `exZ` (one used block of 16 bytes from `MALLOC(0)`) after `MALLOC(8)`. -/
def exK : Heap := after (MALLOC 5000 8 exZ)

/-- Example: `exK` after the caller stored `0xAA` in the first byte of the second
allocation. -/
def exL : Heap := { exK with mem := poke exK.mem (4128 + 0) 170 }

/-- Example: `exL` after `FREE` of the first allocation: a free block of 16 bytes
followed by a used block of 24 bytes. -/
def exM : Heap := after_free (FREE 5000 4112 exL)

/-- Example memory: one used block header of size 200 at address `4096`. -/
def exS : Mem := set_is_used (set_size (fun _ => 0) 4096 200) 4096 1

/-- Byte `x` belongs to the `size` field of a block header. -/
def SizeByte (a : Nat) (bs : List Blk) (x : Nat) : Prop :=
  ∃ e ∈ layout a bs, e.1 ≤ x ∧ x < e.1 + 8

/-- Scan of the chain from the left that gathers a run of free blocks in `acc`:
a free block is added to the run, a used block ends it. -/
def mergeRunsAux : Option Blk → List Blk → List Blk
  | none, [] => []
  | some r, [] => [r]
  | none, b :: bs =>
    if b.used = 0 then mergeRunsAux (some ⟨b.size, 0⟩) bs else b :: mergeRunsAux none bs
  | some r, b :: bs =>
    if b.used = 0 then mergeRunsAux (some ⟨r.size + b.size, 0⟩) bs
    else r :: b :: mergeRunsAux none bs

/-- Coalescing as the specification words it: every maximal run of consecutive
free blocks is replaced by one free block whose size is the sum of the sizes
of the run; used blocks are kept. -/
def mergeRuns (bs : List Blk) : List Blk := mergeRunsAux none bs

/-- Example: `exB` after `MALLOC(8)`, three used blocks of 120, 24 and 24 bytes. -/
def exN : Heap := after (MALLOC 5000 8 exB)

/-- Example: `exN` with the flags of the first two blocks cleared, as in the
middle of `FREE`: two adjacent free blocks followed by a used block. -/
def exP : Heap := { exN with mem := set_is_used (set_is_used exN.mem 4096 0) 4216 0 }

/-- Example: `ex1` with the flag of its only block cleared, as in the middle of
`FREE`: the last block before the sentinel is free. -/
def exT : Heap := { ex1 with mem := set_is_used ex1.mem 4096 0 }

/-- Example: `ex0` after `MALLOC(184)`, one used block of 200 bytes. -/
def exQ : Heap := after (MALLOC 5000 184 ex0)

/-- Example: `exQ` after `MALLOC(8)`: blocks of 200 and 24 bytes, both used. -/
def exR : Heap := after (MALLOC 5000 8 exQ)

/-- Example: `exR` after `FREE` of the first allocation: a free block of 200 bytes
followed by the live allocation at `4312`, whose payload is 8 bytes long. -/
def exU : Heap := after_free (FREE 5000 4112 exR)

/-- Example: `exG` (one used block of 32 bytes) after `MALLOC(152)`: used blocks
of 32 and 168 bytes. -/
def exV : Heap := after (MALLOC 5000 152 exG)

/-- Example: the chain `used [0, 32)`, `free [32, 200)`, sentinel at `200`:
`exV` with the flag of the second block cleared. -/
def exW : Heap := { exV with mem := set_is_used exV.mem 4128 0 }

/-- Example: `exG` after `MALLOC(16)`: two used blocks of 32 bytes. -/
def exX : Heap := after (MALLOC 5000 16 exG)

/-- Example: `exX` after `MALLOC(120)`: used blocks of 32, 32 and 136 bytes. -/
def exY : Heap := after (MALLOC 5000 120 exX)

/-- Example: the chain `used [0, 32)`, `used [32, 64)`, `free [64, 200)`, sentinel
at `200`: `exY` with the flag of the third block cleared. -/
def exO : Heap := { exY with mem := set_is_used exY.mem 4160 0 }

/-- The `memcpy` call of `REALLOC`, read off the source: destination, source, length
and the break at the time of the call; `none` when the call of `REALLOC` makes no
copy.  The memory of the model is a total map, so `memcpy` itself returns even
when it is asked to read above the break, where the program may fault; this
function exposes the arguments so that a statement about `REALLOC` can say that
the copy stays below the break. -/
def REALLOC_copy (fuel : Nat) (ptr : Nat) (sz : Nat) (h : Heap) :
    Option (Nat × Nat × Nat × Nat) :=
  if ptr = 0 then none
  else if sz = 0 then none
  else
    let orig_sz := sz
    let sz1 := round_up ((sz + sizeof_BlockHeader) % 2 ^ 64) ALIGN_BYTES
    let b := offset_ptr ptr (toSigned (negU sizeof_BlockHeader))
    if sz1 > get_size h.mem b then
      match try_merge fuel h.mem b with
      | none => none
      | some m1 =>
        let m2 := try_split m1 b sz1
        if get_size m2 b ≥ sz1 then none
        else
          match MALLOC fuel ((sz1 + negU sizeof_BlockHeader) % 2 ^ 64) { h with mem := m2 } with
          | none => none
          | some (new_ptr, h3) => some (new_ptr, ptr, orig_sz, h3.brk)
    else none

/-! # Theorems -/

/-! ## Byte-level load and store -/


theorem load_congr (m m' : Mem) (n : Nat) : ∀ a : Nat,
    (∀ x, a ≤ x → x < a + n → m' x = m x) → load m' a n = load m a n := by
  induction n with
  | zero => intro a _; rfl
  | succ n ih =>
    intro a h
    simp only [load]
    rw [h a (le_refl a) (by omega), ih (a + 1) (fun x h1 h2 => h x (by omega) (by omega))]

theorem load_lt (m : Mem) (n : Nat) : ∀ a : Nat, load m a n < 256 ^ n := by
  induction n with
  | zero => intro a; simp [load]
  | succ n ih =>
    intro a
    have h1 := ih (a + 1)
    have h2 : m a % 256 < 256 := Nat.mod_lt _ (by norm_num)
    simp only [load, pow_succ]
    omega

theorem store_outside (m : Mem) (a n v x : Nat) (h : x < a ∨ a + n ≤ x) :
    store m a n v x = m x := by
  unfold store
  rw [if_neg]
  omega

theorem load_store_same (m : Mem) (n : Nat) : ∀ a v : Nat,
    load (store m a n v) a n = v % 256 ^ n := by
  induction n with
  | zero => intro a v; simp [load, Nat.mod_one]
  | succ n ih =>
    intro a v
    have h1 : load (store m a (n + 1) v) (a + 1) n = load (store m (a + 1) n (v / 256)) (a + 1) n := by
      apply load_congr
      intro x hx1 hx2
      unfold store
      rw [if_pos (by omega), if_pos (by omega)]
      have : x - a = (x - (a + 1)) + 1 := by omega
      rw [this, pow_succ, Nat.div_div_eq_div_mul, Nat.mul_comm]
    simp only [load]
    rw [h1, ih]
    have h2 : store m a (n + 1) v a = v % 256 := by
      unfold store
      rw [if_pos (by omega)]
      simp
    rw [h2, Nat.mod_mod, pow_succ, Nat.mul_comm (256 ^ n) 256, Nat.mod_mul]

theorem load_store_other (m : Mem) (a n v c k : Nat) (h : c + k ≤ a ∨ a + n ≤ c) :
    load (store m a n v) c k = load m c k := by
  apply load_congr
  intro x h1 h2
  exact store_outside m a n v x (by omega)


/-! ## Header fields -/

theorem get_size_lt (m : Mem) (b : Nat) : get_size m b < 2 ^ 64 := by
  have := load_lt m 8 b
  unfold get_size
  norm_num at this ⊢
  exact this

theorem get_is_used_lt (m : Mem) (b : Nat) : get_is_used m b < 2 ^ 32 := by
  have := load_lt m 4 (b + 8)
  unfold get_is_used
  norm_num at this ⊢
  exact this

theorem get_size_congr (m m' : Mem) (b : Nat)
    (h : ∀ x, b ≤ x → x < b + 8 → m' x = m x) : get_size m' b = get_size m b :=
  load_congr m m' 8 b h

theorem get_is_used_congr (m m' : Mem) (b : Nat)
    (h : ∀ x, b + 8 ≤ x → x < b + 12 → m' x = m x) : get_is_used m' b = get_is_used m b :=
  load_congr m m' 4 (b + 8) (fun x h1 h2 => h x h1 (by omega))

theorem get_size_set_size (m : Mem) (b v : Nat) :
    get_size (set_size m b v) b = v % 2 ^ 64 := by
  unfold get_size set_size
  rw [load_store_same]
  norm_num

theorem get_is_used_set_is_used (m : Mem) (b v : Nat) :
    get_is_used (set_is_used m b v) b = v % 2 ^ 32 := by
  unfold get_is_used set_is_used
  rw [load_store_same]
  norm_num

theorem set_size_outside (m : Mem) (b v x : Nat) (h : x < b ∨ b + 8 ≤ x) :
    set_size m b v x = m x :=
  store_outside m b 8 v x h

theorem set_is_used_outside (m : Mem) (b v x : Nat) (h : x < b + 8 ∨ b + 12 ≤ x) :
    set_is_used m b v x = m x :=
  store_outside m (b + 8) 4 v x (by omega)

theorem get_size_set_size_other (m : Mem) (b v c : Nat) (h : c + 8 ≤ b ∨ b + 8 ≤ c) :
    get_size (set_size m b v) c = get_size m c :=
  load_store_other m b 8 v c 8 h

theorem get_is_used_set_size (m : Mem) (b v c : Nat) (h : c + 12 ≤ b ∨ b ≤ c) :
    get_is_used (set_size m b v) c = get_is_used m c :=
  load_store_other m b 8 v (c + 8) 4 (by omega)

theorem get_size_set_is_used (m : Mem) (b v c : Nat) (h : c ≤ b ∨ b + 12 ≤ c) :
    get_size (set_is_used m b v) c = get_size m c :=
  load_store_other m (b + 8) 4 v c 8 (by omega)

theorem get_is_used_set_is_used_other (m : Mem) (b v c : Nat) (h : c + 4 ≤ b ∨ b + 4 ≤ c) :
    get_is_used (set_is_used m b v) c = get_is_used m c :=
  load_store_other m (b + 8) 4 v (c + 8) 4 (by omega)

attribute [irreducible] load store get_size get_is_used set_size set_is_used

/-! ## Signed offsets and rounding -/

theorem offset_ptr_toSigned (a v : Nat) (h : v < 2 ^ 63) :
    offset_ptr a (toSigned v) = a + v := by
  unfold offset_ptr toSigned
  rw [if_pos h]
  omega

theorem offset_ptr_header (a : Nat) :
    offset_ptr a (toSigned sizeof_BlockHeader) = a + 16 := by
  rw [offset_ptr_toSigned a _ (by unfold sizeof_BlockHeader; norm_num)]
  rfl

theorem toSigned_negU (v : Nat) (h0 : 0 < v) (h : v ≤ 2 ^ 63) :
    toSigned (negU v) = -(v : Int) := by
  unfold toSigned negU
  have h1 : v % 2 ^ 64 = v := Nat.mod_eq_of_lt (by omega)
  have h2 : (2 ^ 64 - v) % 2 ^ 64 = 2 ^ 64 - v := Nat.mod_eq_of_lt (by omega)
  rw [h1, h2, if_neg (by omega)]
  omega

theorem offset_ptr_neg_header (p : Nat) :
    offset_ptr p (toSigned (negU sizeof_BlockHeader)) = p - 16 := by
  rw [toSigned_negU _ (by unfold sizeof_BlockHeader; norm_num)
    (by unfold sizeof_BlockHeader; norm_num)]
  unfold offset_ptr sizeof_BlockHeader
  omega

theorem round_up_eight (n : Nat) (h : n + 7 < 2 ^ 64) :
    round_up n ALIGN_BYTES % 8 = 0 ∧ n ≤ round_up n ALIGN_BYTES ∧
      round_up n ALIGN_BYTES < n + 8 := by
  unfold round_up ALIGN_BYTES
  simp only
  split
  · omega
  · have h1 : n % 8 < 8 := Nat.mod_lt _ (by norm_num)
    have h2 : (n + 8 - n % 8) % 2 ^ 64 = n + 8 - n % 8 := Nat.mod_eq_of_lt (by omega)
    rw [h2]
    omega

theorem round_up_of_aligned (n : Nat) (h : n % 8 = 0) : round_up n ALIGN_BYTES = n := by
  unfold round_up ALIGN_BYTES
  simp [h]

theorem sub_header_mod (sz : Nat) (h1 : 16 ≤ sz) (h2 : sz < 2 ^ 64) :
    (sz + negU sizeof_BlockHeader) % 2 ^ 64 = sz - 16 := by
  unfold negU sizeof_BlockHeader
  norm_num
  omega

/-! ## Layout of the chain -/

theorem total_append (xs ys : List Blk) : total (xs ++ ys) = total xs + total ys := by
  induction xs with
  | nil => simp [total]
  | cons b bs ih => simp [total, ih]; omega

theorem layout_append (xs ys : List Blk) : ∀ a,
    layout a (xs ++ ys) = layout a xs ++ layout (a + total xs) ys := by
  induction xs with
  | nil => intro a; simp [layout, total]
  | cons b bs ih => intro a; simp [layout, total, ih, Nat.add_assoc]

theorem layout_length (bs : List Blk) : ∀ a, (layout a bs).length = bs.length := by
  induction bs with
  | nil => intro a; rfl
  | cons b bs ih => intro a; simp [layout, ih]

theorem mem_layout_blk (bs : List Blk) : ∀ a e, e ∈ layout a bs → e.2 ∈ bs := by
  induction bs with
  | nil => intro a e h; simp [layout] at h
  | cons b bs ih =>
    intro a e h
    simp only [layout, List.mem_cons] at h
    rcases h with h | h
    · subst h; simp
    · exact List.mem_cons_of_mem _ (ih _ e h)

theorem mem_layout_range (bs : List Blk) : ∀ a e, e ∈ layout a bs →
    a ≤ e.1 ∧ e.1 + e.2.size ≤ a + total bs := by
  induction bs with
  | nil => intro a e h; simp [layout] at h
  | cons b bs ih =>
    intro a e h
    simp only [layout, List.mem_cons] at h
    rcases h with h | h
    · subst h; simp [total]
    · have := ih _ e h
      simp only [total]
      omega

theorem Valid_cons_iff (b : Blk) (bs : List Blk) :
    Valid (b :: bs) ↔ (16 ≤ b.size ∧ b.size % 8 = 0 ∧ b.used ≤ 1) ∧ Valid bs := by
  simp [Valid]

theorem Valid_append_iff (xs ys : List Blk) :
    Valid (xs ++ ys) ↔ Valid xs ∧ Valid ys := by
  simp only [Valid, List.mem_append]
  constructor
  · intro h; exact ⟨fun b hb => h b (Or.inl hb), fun b hb => h b (Or.inr hb)⟩
  · rintro ⟨h1, h2⟩ b (hb | hb)
    · exact h1 b hb
    · exact h2 b hb

theorem Valid_nil : Valid [] := by simp [Valid]

theorem mem_layout_valid (bs : List Blk) (hv : Valid bs) (a : Nat) (e : Nat × Blk)
    (h : e ∈ layout a bs) : 16 ≤ e.2.size ∧ e.2.size % 8 = 0 ∧ e.2.used ≤ 1 :=
  hv _ (mem_layout_blk bs a e h)

theorem Seg_nil (m : Mem) (a : Nat) : Seg m a [] := by simp [Seg, layout]

theorem Seg_cons_iff (m : Mem) (a : Nat) (b : Blk) (bs : List Blk) :
    Seg m a (b :: bs) ↔
      get_size m a = b.size ∧ get_is_used m a = b.used ∧ Seg m (a + b.size) bs := by
  simp only [Seg, layout, List.mem_cons, forall_eq_or_imp, and_assoc]

theorem Seg_append_iff (m : Mem) (a : Nat) (xs ys : List Blk) :
    Seg m a (xs ++ ys) ↔ Seg m a xs ∧ Seg m (a + total xs) ys := by
  simp only [Seg, layout_append, List.mem_append]
  constructor
  · intro h; exact ⟨fun e he => h e (Or.inl he), fun e he => h e (Or.inr he)⟩
  · rintro ⟨h1, h2⟩ e (he | he)
    · exact h1 e he
    · exact h2 e he

theorem Seg_congr (m m' : Mem) (a : Nat) (bs : List Blk)
    (h : ∀ x, HdrByte a bs x → m' x = m x) (hs : Seg m a bs) : Seg m' a bs := by
  intro e he
  have h1 := hs e he
  rw [get_size_congr m m' e.1 (fun x hx1 hx2 => h x ⟨e, he, hx1, by omega⟩),
    get_is_used_congr m m' e.1 (fun x hx1 hx2 => h x ⟨e, he, by omega, hx2⟩)]
  exact h1

theorem HdrByte_range (a : Nat) (bs : List Blk) (hv : Valid bs) (x : Nat)
    (h : HdrByte a bs x) : a ≤ x ∧ x + 4 < a + total bs := by
  obtain ⟨e, he, h1, h2⟩ := h
  have := mem_layout_range bs a e he
  have := mem_layout_valid bs hv a e he
  omega

theorem Seg_frame (m m' : Mem) (a : Nat) (bs : List Blk) (hv : Valid bs)
    (h : ∀ x, a ≤ x → x < a + total bs → m' x = m x) (hs : Seg m a bs) : Seg m' a bs := by
  apply Seg_congr m m' a bs _ hs
  intro x hx
  have := HdrByte_range a bs hv x hx
  exact h x (by omega) (by omega)

theorem IsSentinel_congr (m m' : Mem) (a : Nat)
    (h : ∀ x, a ≤ x → x < a + 12 → m' x = m x) (hs : IsSentinel m a) : IsSentinel m' a := by
  unfold IsSentinel
  rw [get_size_congr m m' a (fun x h1 h2 => h x h1 (by omega)),
    get_is_used_congr m m' a (fun x h1 h2 => h x (by omega) h2)]
  exact hs

/-- Blocks of a valid layout do not overlap. -/
theorem layout_disjoint (bs : List Blk) (hv : Valid bs) : ∀ a e1 e2,
    e1 ∈ layout a bs → e2 ∈ layout a bs →
      e1 = e2 ∨ e1.1 + e1.2.size ≤ e2.1 ∨ e2.1 + e2.2.size ≤ e1.1 := by
  induction bs with
  | nil => intro a e1 e2 h; simp [layout] at h
  | cons b bs ih =>
    intro a e1 e2 h1 h2
    rw [Valid_cons_iff] at hv
    simp only [layout, List.mem_cons] at h1 h2
    rcases h1 with h1 | h1 <;> rcases h2 with h2 | h2
    · left; rw [h1, h2]
    · right; left
      have := mem_layout_range bs _ e2 h2
      subst h1; simp; omega
    · right; right
      have := mem_layout_range bs _ e1 h1
      subst h2; simp; omega
    · exact ih hv.2 _ e1 e2 h1 h2

theorem Own_not_hdr (a : Nat) (bs : List Blk) (hv : Valid bs) (x : Nat)
    (h : Own a bs x) : ¬ HdrByte a bs x := by
  rintro ⟨e2, he2, h3, h4⟩
  obtain ⟨e1, he1, _, h1, h2⟩ := h
  have hv2 := mem_layout_valid bs hv a e2 he2
  rcases layout_disjoint bs hv a e1 e2 he1 he2 with h | h | h
  · subst h; omega
  · omega
  · omega

/-! ## Single steps on memory -/

theorem HdrByte_lower (a : Nat) (bs : List Blk) (x : Nat) (h : HdrByte a bs x) : a ≤ x := by
  obtain ⟨e, he, h1, _⟩ := h
  have := mem_layout_range bs a e he
  omega

theorem Seg_frame_above (m m' : Mem) (a : Nat) (bs : List Blk)
    (h : ∀ x, a ≤ x → m' x = m x) (hs : Seg m a bs) : Seg m' a bs :=
  Seg_congr m m' a bs (fun x hx => h x (HdrByte_lower a bs x hx)) hs

theorem add_sentinel_eq (h : Heap) :
    add_sentinel h =
      { mem := set_is_used (set_size h.mem h.brk 0) h.brk 1, brk := h.brk + 16,
        first_block := h.first_block } := by
  unfold add_sentinel sbrk toSigned sizeof_BlockHeader
  simp
  omega

theorem isSentinel_written (m : Mem) (b : Nat) :
    IsSentinel (set_is_used (set_size m b 0) b 1) b := by
  unfold IsSentinel
  rw [get_size_set_is_used _ _ _ _ (Or.inl (le_refl b)), get_size_set_size,
    get_is_used_set_is_used]
  norm_num

theorem sentinel_write_outside (m : Mem) (b x : Nat) (h : x < b ∨ b + 12 ≤ x) :
    set_is_used (set_size m b 0) b 1 x = m x := by
  rw [set_is_used_outside _ _ _ _ (by omega), set_size_outside _ _ _ _ (by omega)]

theorem try_split_noop (m : Mem) (b sz : Nat)
    (h : get_size m b ≤ sz ∨ get_size m b - sz < 40) : try_split m b sz = m := by
  unfold try_split sizeof_BlockHeader
  rcases h with h | h
  · rw [if_pos h]
  · by_cases h1 : sz ≥ get_size m b
    · rw [if_pos h1]
    · rw [if_neg h1]
      simp only
      rw [if_pos (by omega)]

theorem try_split_eq (m : Mem) (b sz : Nat) (h1 : sz < get_size m b)
    (h2 : 40 ≤ get_size m b - sz) (h3 : sz < 2 ^ 63) :
    try_split m b sz =
      set_size (set_is_used (set_size m (b + sz)
        (round_up (get_size m b - sz) ALIGN_BYTES)) (b + sz) BLOCK_FREE) b sz := by
  unfold try_split sizeof_BlockHeader
  rw [if_neg (by omega)]
  simp only
  rw [if_neg (by omega), offset_ptr_toSigned b sz h3]

theorem try_split_split (m : Mem) (b sz : Nat) (h1 : sz < get_size m b)
    (h2 : 40 ≤ get_size m b - sz) (h3 : sz < 2 ^ 63) (h4 : 12 ≤ sz)
    (h5 : (get_size m b - sz) % 8 = 0) :
    get_size (try_split m b sz) b = sz ∧
    get_is_used (try_split m b sz) b = get_is_used m b ∧
    get_size (try_split m b sz) (b + sz) = get_size m b - sz ∧
    get_is_used (try_split m b sz) (b + sz) = 0 ∧
    ∀ x, (x < b ∨ b + 8 ≤ x) → (x < b + sz ∨ b + sz + 12 ≤ x) →
      try_split m b sz x = m x := by
  have hlt := get_size_lt m b
  rw [try_split_eq m b sz h1 h2 h3, round_up_of_aligned _ h5]
  refine ⟨?_, ?_, ?_, ?_, ?_⟩
  · rw [get_size_set_size, Nat.mod_eq_of_lt (by omega)]
  · rw [get_is_used_set_size _ _ _ _ (Or.inr (le_refl b)),
      get_is_used_set_is_used_other _ _ _ _ (by omega),
      get_is_used_set_size _ _ _ _ (by omega)]
  · rw [get_size_set_size_other _ _ _ _ (by omega),
      get_size_set_is_used _ _ _ _ (Or.inl (le_refl _)), get_size_set_size,
      Nat.mod_eq_of_lt (by omega)]
  · rw [get_is_used_set_size _ _ _ _ (by omega), get_is_used_set_is_used]
    rfl
  · intro x hx1 hx2
    rw [set_size_outside _ _ _ _ hx1, set_is_used_outside _ _ _ _ (by omega),
      set_size_outside _ _ _ _ (by omega)]

theorem total_splitBlk (b : Blk) (sz : Nat) : total (splitBlk b sz) = b.size := by
  unfold splitBlk
  split
  · simp [total]
  · split
    · simp [total]
    · simp only [total]; omega

/-- Effect of `try_split` on the block at `b` as a chain segment. -/
theorem try_split_seg (m : Mem) (b sz : Nat) (blk : Blk)
    (hs : get_size m b = blk.size) (hu : get_is_used m b = blk.used)
    (h3 : sz < 2 ^ 63) (h4 : 16 ≤ sz) (h5 : sz % 8 = 0) (h6 : blk.size % 8 = 0) :
    Seg (try_split m b sz) b (splitBlk blk sz) ∧
    ∀ x, (x < b ∨ b + blk.size ≤ x) → try_split m b sz x = m x := by
  by_cases hc : sz ≥ blk.size ∨ blk.size - sz < 40
  · have h1 : try_split m b sz = m := try_split_noop m b sz (by rw [hs]; omega)
    have h2 : splitBlk blk sz = [blk] := by
      unfold splitBlk
      rcases hc with hc | hc
      · rw [if_pos hc]
      · by_cases hc1 : sz ≥ blk.size
        · rw [if_pos hc1]
        · rw [if_neg hc1, if_pos hc]
    rw [h1, h2]
    refine ⟨?_, fun _ _ => rfl⟩
    rw [Seg_cons_iff]
    exact ⟨hs, hu, Seg_nil _ _⟩
  · have hc1 : sz < blk.size := by omega
    have hc2 : 40 ≤ blk.size - sz := by omega
    have h2 : splitBlk blk sz = [⟨sz, blk.used⟩, ⟨blk.size - sz, 0⟩] := by
      unfold splitBlk
      rw [if_neg (by omega), if_neg (by omega)]
    obtain ⟨e1, e2, e3, e4, e5⟩ := try_split_split m b sz (by rw [hs]; exact hc1)
      (by rw [hs]; exact hc2) h3 (by omega) (by rw [hs]; omega)
    rw [h2]
    refine ⟨?_, fun x hx => e5 x (by omega) (by omega)⟩
    rw [Seg_cons_iff, Seg_cons_iff]
    refine ⟨e1, by rw [e2, hu], ?_, e4, Seg_nil _ _⟩
    rw [e3, hs]

/-! ## Loops -/

theorem try_merge_succ (fuel : Nat) (m : Mem) (b : Nat) :
    try_merge (fuel + 1) m b =
      if get_is_used m (offset_ptr b (toSigned (get_size m b))) = BLOCK_USED then some m
      else try_merge fuel (set_size m b
        ((get_size m b + get_size m (offset_ptr b (toSigned (get_size m b)))) % 2 ^ 64)) b := rfl

theorem MALLOC_loop_succ (fuel : Nat) (h : Heap) (b sz : Nat) :
    MALLOC_loop (fuel + 1) h b sz =
      if get_size h.mem b ≠ 0 then
        if get_is_used h.mem b = BLOCK_FREE ∧ get_size h.mem b ≥ sz then
          some (offset_ptr b (toSigned sizeof_BlockHeader),
            { h with mem := try_split (set_is_used h.mem b BLOCK_USED) b sz })
        else MALLOC_loop fuel h (offset_ptr b (toSigned (get_size h.mem b))) sz
      else if get_size h.mem b = 0 ∧ get_is_used h.mem b = BLOCK_USED then
        some (offset_ptr b (toSigned sizeof_BlockHeader),
          add_sentinel (sbrk { h with mem := set_size h.mem b sz }
            (toSigned ((sz + negU sizeof_BlockHeader) % 2 ^ 64))).1)
      else none := rfl

theorem MALLOC_loop_step (fuel : Nat) (h : Heap) (b sz : Nat) (h1 : get_size h.mem b ≠ 0)
    (h2 : ¬ (get_is_used h.mem b = 0 ∧ sz ≤ get_size h.mem b)) :
    MALLOC_loop (fuel + 1) h b sz =
      MALLOC_loop fuel h (offset_ptr b (toSigned (get_size h.mem b))) sz := by
  rw [MALLOC_loop_succ, if_pos h1]
  simp only [BLOCK_FREE, ge_iff_le]
  rw [if_neg h2]

theorem last_block_loop_step (fuel : Nat) (m : Mem) (prev b : Nat) (h1 : get_size m b ≠ 0) :
    last_block_loop (fuel + 1) m prev b =
      last_block_loop fuel m b (offset_ptr b (toSigned (get_size m b))) := by
  have e : last_block_loop (fuel + 1) m prev b =
      if get_size m b ≠ 0 then
        last_block_loop fuel m b (offset_ptr b (toSigned (get_size m b)))
      else some prev := rfl
  rw [e, if_pos h1]

theorem try_merge_spec (b : Nat) : ∀ (fs : List Blk) (m : Mem) (s0 fuel : Nat),
    get_size m b = s0 → 8 ≤ s0 → Seg m (b + s0) fs → (∀ f ∈ fs, f.used ≠ 1) →
    get_is_used m (b + s0 + total fs) = 1 → s0 + total fs < 2 ^ 63 → fs.length < fuel →
    ∃ m', try_merge fuel m b = some m' ∧ get_size m' b = s0 + total fs ∧
      ∀ x, (x < b ∨ b + 8 ≤ x) → m' x = m x := by
  intro fs
  induction fs with
  | nil =>
    intro m s0 fuel h1 _ _ _ h5 h6 _
    obtain ⟨k, rfl⟩ : ∃ k, fuel = k + 1 := ⟨fuel - 1, by simp at *; omega⟩
    refine ⟨m, ?_, by simpa [total] using h1, fun _ _ => rfl⟩
    simp only [total, Nat.add_zero] at h5 h6
    rw [try_merge_succ]
    simp only [h1, offset_ptr_toSigned b s0 h6, h5, BLOCK_USED, if_true]
  | cons f fs ih =>
    intro m s0 fuel h1 h2 h3 h4 h5 h6 h7
    obtain ⟨k, rfl⟩ : ∃ k, fuel = k + 1 := ⟨fuel - 1, by simp at h7; omega⟩
    rw [Seg_cons_iff] at h3
    obtain ⟨g1, g2, g3⟩ := h3
    simp only [total] at h5 h6
    have hf : f.used ≠ 1 := h4 f (by simp)
    have hstep : try_merge (k + 1) m b =
        try_merge k (set_size m b ((s0 + f.size) % 2 ^ 64)) b := by
      rw [try_merge_succ]
      simp only [h1, offset_ptr_toSigned b s0 (by omega), g1, g2, BLOCK_USED, if_neg hf]
    have hout : ∀ x, (x < b ∨ b + 8 ≤ x) →
        set_size m b ((s0 + f.size) % 2 ^ 64) x = m x :=
      fun x hx => set_size_outside _ _ _ _ hx
    obtain ⟨m', e1, e2, e3⟩ := ih (set_size m b ((s0 + f.size) % 2 ^ 64)) (s0 + f.size) k
      (by rw [get_size_set_size, Nat.mod_mod]; exact Nat.mod_eq_of_lt (by omega))
      (by omega)
      (Seg_frame_above _ _ _ _ (fun x hx => hout x (by omega)) (by rw [← Nat.add_assoc]; exact g3))
      (fun g hg => h4 g (List.mem_cons_of_mem _ hg))
      (by
        rw [get_is_used_congr m _ _ (fun x hx1 hx2 => hout x (by omega))]
        rw [← h5]; congr 1; omega)
      (by omega) (by simp at h7; omega)
    refine ⟨m', by rw [hstep, e1], by rw [e2]; simp only [total]; omega, ?_⟩
    intro x hx
    rw [e3 x hx, hout x hx]

theorem MALLOC_loop_skip (h : Heap) (sz : Nat) : ∀ (pre : List Blk) (a fuel : Nat),
    Seg h.mem a pre →
    (∀ b ∈ pre, b.size ≠ 0 ∧ b.size < 2 ^ 63 ∧ ¬ (b.used = 0 ∧ sz ≤ b.size)) →
    MALLOC_loop (pre.length + fuel) h a sz = MALLOC_loop fuel h (a + total pre) sz := by
  intro pre
  induction pre with
  | nil => intro a fuel _ _; simp [total]
  | cons b pre ih =>
    intro a fuel h1 h2
    rw [Seg_cons_iff] at h1
    obtain ⟨g1, g2, g3⟩ := h1
    obtain ⟨k1, k2, k3⟩ := h2 b (by simp)
    have e : (b :: pre).length + fuel = (pre.length + fuel) + 1 := by simp; omega
    rw [e, MALLOC_loop_step _ _ _ _ (by rw [g1]; exact k1) (by rw [g1, g2]; exact k3), g1,
      offset_ptr_toSigned a b.size k2,
      ih (a + b.size) fuel g3 (fun c hc => h2 c (List.mem_cons_of_mem _ hc))]
    simp only [total, Nat.add_assoc]

theorem last_block_loop_skip (m : Mem) : ∀ (bs : List Blk) (prev a fuel : Nat),
    Seg m a bs → (∀ b ∈ bs, b.size ≠ 0 ∧ b.size < 2 ^ 63) →
    last_block_loop (bs.length + fuel) m prev a =
      last_block_loop fuel m (lastAddr prev a bs) (a + total bs) := by
  intro bs
  induction bs with
  | nil => intro prev a fuel _ _; simp [total, lastAddr]
  | cons b bs ih =>
    intro prev a fuel h1 h2
    rw [Seg_cons_iff] at h1
    obtain ⟨g1, g2, g3⟩ := h1
    obtain ⟨k1, k2⟩ := h2 b (by simp)
    have e : (b :: bs).length + fuel = (bs.length + fuel) + 1 := by simp; omega
    rw [e, last_block_loop_step _ _ _ _ (by rw [g1]; exact k1), g1,
      offset_ptr_toSigned a b.size k2,
      ih a (a + b.size) fuel g3 (fun c hc => h2 c (List.mem_cons_of_mem _ hc))]
    simp only [total, lastAddr, Nat.add_assoc]

theorem lastAddr_append_singleton (init : List Blk) (l : Blk) : ∀ (prev a : Nat),
    lastAddr prev a (init ++ [l]) = a + total init := by
  induction init with
  | nil => intro prev a; simp [lastAddr, total]
  | cons b bs ih => intro prev a; simp [lastAddr, total, ih, Nat.add_assoc]

/-! ## Coalescing -/

theorem free_run_split (rest : List Blk) :
    ∃ fs rest', rest = fs ++ rest' ∧ (∀ f ∈ fs, f.used = 0) ∧
      (rest' = [] ∨ ∃ u r, rest' = u :: r ∧ u.used ≠ 0) := by
  induction rest with
  | nil => exact ⟨[], [], rfl, by simp, Or.inl rfl⟩
  | cons b bs ih =>
    by_cases hb : b.used = 0
    · obtain ⟨fs, rest', e1, e2, e3⟩ := ih
      refine ⟨b :: fs, rest', by rw [e1]; rfl, ?_, e3⟩
      intro f hf
      rcases List.mem_cons.mp hf with h | h
      · rw [h]; exact hb
      · exact e2 f h
    · exact ⟨[], b :: bs, rfl, by simp, Or.inr ⟨b, bs, rfl, hb⟩⟩

theorem coalesce_cons_used (b : Blk) (bs : List Blk) (hb : b.used ≠ 0) :
    coalesce (b :: bs) = b :: coalesce bs := by
  rw [coalesce]
  cases h : coalesce bs with
  | nil => rfl
  | cons c cs => simp [hb]

theorem coalesce_stop (rest : List Blk)
    (h : rest = [] ∨ ∃ u r, rest = u :: r ∧ u.used ≠ 0) :
    coalesce rest = [] ∨ ∃ u r, coalesce rest = u :: r ∧ u.used ≠ 0 := by
  rcases h with h | ⟨u, r, h, hu⟩
  · left; rw [h]; rfl
  · right; rw [h, coalesce_cons_used u r hu]; exact ⟨u, _, rfl, hu⟩

theorem coalesce_run (rest : List Blk)
    (hr : rest = [] ∨ ∃ u r, rest = u :: r ∧ u.used ≠ 0) :
    ∀ (fs : List Blk) (b : Blk), b.used = 0 → (∀ f ∈ fs, f.used = 0) →
      coalesce (b :: (fs ++ rest)) = ⟨b.size + total fs, 0⟩ :: coalesce rest := by
  intro fs
  induction fs with
  | nil =>
    intro b hb _
    simp only [List.nil_append, total, Nat.add_zero]
    rw [coalesce]
    rcases coalesce_stop rest hr with h | ⟨u, r, h, hu⟩
    · rw [h]
      cases b; simp at hb; simp [hb]
    · rw [h]
      simp only [hu, and_false, if_false]
      cases b; simp at hb; simp [hb]
  | cons f fs ih =>
    intro b hb hfs
    have hf : f.used = 0 := hfs f (by simp)
    rw [coalesce]
    simp only [List.cons_append]
    rw [ih f hf (fun g hg => hfs g (List.mem_cons_of_mem _ hg))]
    simp only [hb, and_self, if_true, total]

theorem try_merge_all_loop_succ (inner fuel : Nat) (m : Mem) (b : Nat) :
    try_merge_all_loop inner (fuel + 1) m b =
      if get_size m b ≠ 0 then
        match (if get_is_used m b = BLOCK_FREE then try_merge inner m b else some m) with
        | none => none
        | some m1 =>
          try_merge_all_loop inner fuel m1 (offset_ptr b (toSigned (get_size m1 b)))
      else some m := rfl

theorem try_merge_all_loop_spec (inner : Nat) : ∀ (n : Nat) (bs : List Blk), bs.length ≤ n →
    ∀ (m : Mem) (a fuel : Nat), Seg m a bs → IsSentinel m (a + total bs) → Valid bs →
    a + total bs < 2 ^ 63 → bs.length < fuel → bs.length < inner →
    ∃ m', try_merge_all_loop inner fuel m a = some m' ∧ Seg m' a (coalesce bs) ∧
      ∀ x, ¬ HdrByte a bs x → m' x = m x := by
  intro n
  induction n with
  | zero =>
    intro bs hn m a fuel _ hsent _ _ hfuel _
    have hbs : bs = [] := List.length_eq_zero.mp (by omega)
    subst hbs
    obtain ⟨k, rfl⟩ : ∃ k, fuel = k + 1 := ⟨fuel - 1, by simp at hfuel; omega⟩
    refine ⟨m, ?_, Seg_nil _ _, fun _ _ => rfl⟩
    simp only [total, Nat.add_zero] at hsent
    rw [try_merge_all_loop_succ, hsent.1]
    simp
  | succ n ih =>
    intro bs hn m a fuel hseg hsent hv hb hfuel hinner
    obtain ⟨k, rfl⟩ : ∃ k, fuel = k + 1 := ⟨fuel - 1, by omega⟩
    cases bs with
    | nil =>
      refine ⟨m, ?_, Seg_nil _ _, fun _ _ => rfl⟩
      simp only [total, Nat.add_zero] at hsent
      rw [try_merge_all_loop_succ, hsent.1]
      simp
    | cons b rest =>
      rw [Seg_cons_iff] at hseg
      obtain ⟨g1, g2, g3⟩ := hseg
      rw [Valid_cons_iff] at hv
      obtain ⟨⟨v1, v2, v3⟩, hvr⟩ := hv
      simp only [total] at hsent hb
      simp only [List.length_cons] at hn hfuel hinner
      by_cases hu : b.used = 0
      · obtain ⟨fs, rest', e1, e2, e3⟩ := free_run_split rest
        subst e1
        rw [Seg_append_iff] at g3
        rw [Valid_append_iff] at hvr
        rw [total_append] at hsent hb
        simp only [List.length_append] at hn hfuel hinner
        have hflag : get_is_used m (a + b.size + total fs) = 1 := by
          rcases e3 with e3 | ⟨u, r, e3, hu1⟩
          · subst e3
            simp only [total, Nat.add_zero] at hsent
            rw [← hsent.2]; congr 1; omega
          · subst e3
            have := g3.2
            rw [Seg_cons_iff] at this
            rw [this.2.1]
            have := (hvr.2 u (by simp)).2.2
            omega
        obtain ⟨m1, f1, f2, f3⟩ := try_merge_spec a fs m b.size inner g1 (by omega) g3.1
          (fun f hf => by rw [e2 f hf]; decide) hflag (by omega) (by omega)
        have hseg1 : Seg m1 (a + (b.size + total fs)) rest' := by
          rw [← Nat.add_assoc]
          exact Seg_frame_above _ _ _ _ (fun x hx => f3 x (by omega)) g3.2
        have hsent1 : IsSentinel m1 (a + (b.size + total fs) + total rest') := by
          apply IsSentinel_congr m m1 _ (fun x hx1 _ => f3 x (by omega))
          have : a + (b.size + total fs) + total rest' = a + (b.size + (total fs + total rest')) := by
            omega
          rw [this]; exact hsent
        obtain ⟨m', i1, i2, i3⟩ := ih rest' (by omega) m1 (a + (b.size + total fs)) k hseg1 hsent1
          hvr.2 (by omega) (by omega) (by omega)
        have hlay : ∀ e ∈ layout (a + (b.size + total fs)) rest',
            e ∈ layout a (b :: (fs ++ rest')) := by
          intro e he
          simp only [layout, layout_append, List.mem_cons, List.mem_append]
          right; right
          have : a + b.size + total fs = a + (b.size + total fs) := by omega
          rw [this]; exact he
        have hm' : ∀ x, x < a + (b.size + total fs) → m' x = m1 x := by
          intro x hx
          apply i3
          intro hh
          have := HdrByte_lower _ _ _ hh
          omega
        refine ⟨m', ?_, ?_, ?_⟩
        · rw [try_merge_all_loop_succ, g1, if_pos (by omega), g2]
          simp only [BLOCK_FREE, hu, if_true, f1]
          rw [f2, offset_ptr_toSigned _ _ (by omega)]
          exact i1
        · rw [coalesce_run rest' e3 fs b hu e2, Seg_cons_iff]
          refine ⟨?_, ?_, i2⟩
          · rw [get_size_congr m1 m' a (fun x _ hx2 => hm' x (by omega)), f2]
          · rw [get_is_used_congr m1 m' a (fun x _ hx2 => hm' x (by omega)),
              get_is_used_congr m m1 a (fun x hx1 _ => f3 x (by omega)), g2, hu]
        · intro x hx
          have h1 : ¬ HdrByte (a + (b.size + total fs)) rest' x := by
            rintro ⟨e, he, he1, he2⟩
            exact hx ⟨e, hlay e he, he1, he2⟩
          have h2 : x < a ∨ a + 8 ≤ x := by
            by_contra hc
            exact hx ⟨(a, b), by simp [layout], by simp; omega, by simp; omega⟩
          rw [i3 x h1, f3 x h2]
      · have hu1 : b.used = 1 := by omega
        obtain ⟨m', i1, i2, i3⟩ := ih rest (by omega) m (a + b.size) k g3
          (by rw [Nat.add_assoc]; exact hsent) hvr (by omega) (by omega) (by omega)
        have hm' : ∀ x, x < a + b.size → m' x = m x := by
          intro x hx
          apply i3
          intro hh
          have := HdrByte_lower _ _ _ hh
          omega
        refine ⟨m', ?_, ?_, ?_⟩
        · rw [try_merge_all_loop_succ, g1, if_pos (by omega), g2]
          simp only [BLOCK_FREE, hu, if_false]
          rw [g1, offset_ptr_toSigned _ _ (by omega)]
          exact i1
        · rw [coalesce_cons_used b rest hu, Seg_cons_iff]
          refine ⟨?_, ?_, i2⟩
          · rw [get_size_congr m m' a (fun x _ hx2 => hm' x (by omega)), g1]
          · rw [get_is_used_congr m m' a (fun x _ hx2 => hm' x (by omega)), g2]
        · intro x hx
          apply i3
          rintro ⟨e, he, he1, he2⟩
          exact hx ⟨e, by simp only [layout, List.mem_cons]; right; exact he, he1, he2⟩

/-! ## `heap_init` and `MALLOC` on a represented heap -/

theorem footprint_spec (s : Nat) (h : s + 23 < 2 ^ 64) :
    footprint s % 8 = 0 ∧ s + 16 ≤ footprint s ∧ footprint s < s + 24 := by
  have e : (s + 16) % 2 ^ 64 = s + 16 := Nat.mod_eq_of_lt (by omega)
  unfold footprint sizeof_BlockHeader
  rw [e]
  have := round_up_eight (s + 16) (by omega)
  omega

theorem Repr_sizes_lt (h : Heap) (bs : List Blk) (hr : Repr h bs) (hb : h.brk < 2 ^ 63)
    (b : Blk) (hmem : b ∈ bs) : b.size ≠ 0 ∧ b.size < 2 ^ 63 := by
  have h1 := hr.valid b hmem
  obtain ⟨xs, ys, rfl⟩ := List.append_of_mem hmem
  have h2 := hr.brk_eq
  rw [total_append] at h2
  simp only [total] at h2
  omega

theorem heap_init_of_repr (h : Heap) (bs : List Blk) (hr : Repr h bs) : heap_init h = h := by
  unfold heap_init
  rw [if_pos hr.base_ne]

theorem MALLOC_eq (fuel s : Nat) (h : Heap) (bs : List Blk) (hr : Repr h bs) :
    MALLOC fuel s h = MALLOC_loop fuel h h.first_block (footprint s) := by
  unfold MALLOC
  simp only [heap_init_of_repr h bs hr]
  rfl

theorem MALLOC_loop_found (fuel : Nat) (h : Heap) (b sz : Nat) (h1 : get_size h.mem b ≠ 0)
    (h2 : get_is_used h.mem b = 0) (h3 : sz ≤ get_size h.mem b) :
    MALLOC_loop (fuel + 1) h b sz =
      some (b + 16, { h with mem := try_split (set_is_used h.mem b 1) b sz }) := by
  rw [MALLOC_loop_succ, if_pos h1]
  simp only [BLOCK_FREE, BLOCK_USED, ge_iff_le]
  rw [if_pos ⟨h2, h3⟩, offset_ptr_header]

theorem MALLOC_loop_grow (fuel : Nat) (h : Heap) (b sz : Nat) (h1 : get_size h.mem b = 0)
    (h2 : get_is_used h.mem b = 1) :
    MALLOC_loop (fuel + 1) h b sz =
      some (b + 16, add_sentinel (sbrk { h with mem := set_size h.mem b sz }
        (toSigned ((sz + negU sizeof_BlockHeader) % 2 ^ 64))).1) := by
  rw [MALLOC_loop_succ, if_neg (by simp [h1])]
  simp only [BLOCK_USED]
  rw [if_pos ⟨h1, h2⟩, offset_ptr_header]

/-- Replacing one block of the chain by a segment of the same total size. -/
theorem Seg_replace (m m' : Mem) (a : Nat) (pre suf new : List Blk) (blk : Blk)
    (hv : Valid pre) (hs : Seg m a (pre ++ blk :: suf))
    (hf : ∀ x, (x < a + total pre ∨ a + total pre + blk.size ≤ x) → m' x = m x)
    (hn : Seg m' (a + total pre) new) (ht : total new = blk.size) :
    Seg m' a (pre ++ new ++ suf) := by
  rw [Seg_append_iff, Seg_cons_iff] at hs
  rw [Seg_append_iff, Seg_append_iff, total_append, ht]
  refine ⟨⟨Seg_frame m m' a pre hv (fun x _ hx => hf x (Or.inl hx)) hs.1, hn⟩, ?_⟩
  rw [← Nat.add_assoc]
  exact Seg_frame_above m m' _ suf (fun x hx => hf x (Or.inr hx)) hs.2.2.2

theorem valid_splitBlk (blk : Blk) (sz : Nat) (h1 : 16 ≤ blk.size) (h2 : blk.size % 8 = 0)
    (h3 : blk.used ≤ 1) (h4 : 16 ≤ sz) (h5 : sz % 8 = 0) : Valid (splitBlk blk sz) := by
  unfold splitBlk
  split
  · intro b hb; simp at hb; subst hb; exact ⟨h1, h2, h3⟩
  · split
    · intro b hb; simp at hb; subst hb; exact ⟨h1, h2, h3⟩
    · intro b hb
      simp at hb
      rcases hb with hb | hb <;> subst hb <;> simp <;> omega

/-- First-fit path of `MALLOC`: the first free block that is large enough is
marked used and split. -/
theorem MALLOC_fit (h : Heap) (pre suf : List Blk) (blk : Blk) (s fuel : Nat)
    (hr : Repr h (pre ++ blk :: suf)) (hb : h.brk < 2 ^ 63) (hs : s + 23 < 2 ^ 64)
    (hpre : ∀ b ∈ pre, ¬ (b.used = 0 ∧ footprint s ≤ b.size))
    (hfree : blk.used = 0) (hfit : footprint s ≤ blk.size) (hfuel : pre.length < fuel) :
    ∃ h', MALLOC fuel s h = some (h.first_block + total pre + 16, h') ∧
      Repr h' (pre ++ splitBlk ⟨blk.size, 1⟩ (footprint s) ++ suf) ∧
      h'.brk = h.brk ∧ h'.first_block = h.first_block ∧
      ∀ x, (x < h.first_block + total pre ∨ h.first_block + total pre + blk.size ≤ x) →
        h'.mem x = h.mem x := by
  obtain ⟨f1, f2, f3⟩ := footprint_spec s hs
  have hseg := hr.seg
  rw [Seg_append_iff, Seg_cons_iff] at hseg
  obtain ⟨g1, g2, g3, g4⟩ := hseg
  have hv := hr.valid
  rw [Valid_append_iff, Valid_cons_iff] at hv
  obtain ⟨v1, ⟨v2, v3, v4⟩, v5⟩ := hv
  have hblk := Repr_sizes_lt h _ hr hb blk (by simp)
  obtain ⟨k, rfl⟩ : ∃ k, fuel = pre.length + (k + 1) := ⟨fuel - pre.length - 1, by omega⟩
  have hstep : MALLOC (pre.length + (k + 1)) s h =
      some (h.first_block + total pre + 16, { h with mem := try_split (set_is_used h.mem (h.first_block + total pre) 1) (h.first_block + total pre) (footprint s) }) := by
    rw [MALLOC_eq _ _ _ _ hr, MALLOC_loop_skip h _ pre _ _ g1
      (fun b hb' => ⟨(Repr_sizes_lt h _ hr hb b (by simp [hb'])).1,
        (Repr_sizes_lt h _ hr hb b (by simp [hb'])).2, hpre b hb'⟩),
      MALLOC_loop_found _ _ _ _ (by rw [g2]; exact hblk.1) (by rw [g3]; exact hfree)
        (by rw [g2]; exact hfit)]
  have hm1s : get_size (set_is_used h.mem (h.first_block + total pre) 1) (h.first_block + total pre) = blk.size := by
    rw [get_size_set_is_used _ _ _ _ (Or.inl (le_refl (h.first_block + total pre))), g2]
  have hm1u : get_is_used (set_is_used h.mem (h.first_block + total pre) 1) (h.first_block + total pre) = 1 := by
    rw [get_is_used_set_is_used]; norm_num
  obtain ⟨t1, t2⟩ := try_split_seg (set_is_used h.mem (h.first_block + total pre) 1) (h.first_block + total pre) (footprint s) ⟨blk.size, 1⟩
    hm1s hm1u (by omega) (by omega) f1 v3
  have hframe : ∀ x, (x < (h.first_block + total pre) ∨ (h.first_block + total pre) + blk.size ≤ x) →
      try_split (set_is_used h.mem (h.first_block + total pre) 1) (h.first_block + total pre) (footprint s) x = h.mem x := by
    intro x hx
    rw [t2 x hx, set_is_used_outside _ _ _ _ (by omega)]
  refine ⟨_, hstep, ?_, ?_, ?_, ?_⟩
  · refine ⟨hr.base_ne, hr.base_al, ?_, ?_, ?_, ?_⟩
    · dsimp only
      exact Seg_replace h.mem _ h.first_block pre suf _ blk v1 hr.seg hframe t1
        (total_splitBlk _ _)
    · have := hr.sent
      simp only [total_append, total, total_splitBlk, Nat.add_assoc] at this ⊢
      exact IsSentinel_congr h.mem _ _ (fun x hx _ => hframe x (by omega)) this
    · have := hr.brk_eq
      simp only [total_append, total, total_splitBlk, Nat.add_assoc] at this ⊢
      exact this
    · rw [Valid_append_iff, Valid_append_iff]
      exact ⟨⟨v1, valid_splitBlk _ _ v2 v3 (by simp) (by omega) f1⟩, v5⟩
  · rfl
  · rfl
  · intro x hx
    dsimp only
    exact hframe x hx

theorem sbrk_grow (h : Heap) (v : Nat) (hv : v < 2 ^ 63) :
    (sbrk h (toSigned v)).1 = { h with brk := h.brk + v } := by
  unfold sbrk toSigned
  rw [if_pos hv]
  simp only
  congr 1

theorem sbrk_shrink (h : Heap) (v : Nat) (h0 : 0 < v) (hv : v ≤ 2 ^ 63) :
    (sbrk h (toSigned (negU v))).1 = { h with brk := h.brk - v } := by
  rw [toSigned_negU v h0 hv]
  unfold sbrk
  simp only
  congr 1
  omega

/-- Growth path of `MALLOC`: no free block fits, the sentinel becomes the new
block and a fresh sentinel is installed behind it. -/
theorem MALLOC_grow (h : Heap) (bs : List Blk) (s fuel : Nat)
    (hr : Repr h bs) (hb : h.brk < 2 ^ 63) (hs : s ≤ 2 ^ 63 - 8)
    (hno : ∀ b ∈ bs, ¬ (b.used = 0 ∧ footprint s ≤ b.size)) (hfuel : bs.length < fuel) :
    ∃ h', MALLOC fuel s h = some (h.first_block + total bs + 16, h') ∧
      Repr h' (bs ++ [⟨footprint s, 1⟩]) ∧
      h'.brk = h.brk + footprint s ∧ h'.first_block = h.first_block ∧
      ∀ x, (x < h.first_block + total bs ∨ h.first_block + total bs + 8 ≤ x) →
        (x < h.first_block + total bs + footprint s ∨
          h.first_block + total bs + footprint s + 12 ≤ x) → h'.mem x = h.mem x := by
  obtain ⟨f1, f2, f3⟩ := footprint_spec s (by omega)
  obtain ⟨k, rfl⟩ : ∃ k, fuel = bs.length + (k + 1) := ⟨fuel - bs.length - 1, by omega⟩
  have hbrk := hr.brk_eq
  have hsub : (footprint s + negU sizeof_BlockHeader) % 2 ^ 64 = footprint s - 16 :=
    sub_header_mod _ (by omega) (by omega)
  have hstep : MALLOC (bs.length + (k + 1)) s h =
      some (h.first_block + total bs + 16,
        { mem := set_is_used (set_size (set_size h.mem (h.first_block + total bs) (footprint s))
            (h.first_block + total bs + footprint s) 0)
            (h.first_block + total bs + footprint s) 1,
          brk := h.brk + footprint s, first_block := h.first_block }) := by
    rw [MALLOC_eq _ _ _ _ hr, MALLOC_loop_skip h _ bs _ _ hr.seg
      (fun b hb' => ⟨(Repr_sizes_lt h _ hr hb b hb').1,
        (Repr_sizes_lt h _ hr hb b hb').2, hno b hb'⟩),
      MALLOC_loop_grow _ _ _ _ hr.sent.1 hr.sent.2, hsub, sbrk_grow _ _ (by omega),
      add_sentinel_eq]
    dsimp only
    have e : h.brk + (footprint s - 16) = h.first_block + total bs + footprint s := by omega
    have e2 : h.first_block + total bs + footprint s + 16 = h.brk + footprint s := by omega
    rw [e, e2]
  have hframe : ∀ x, (x < h.first_block + total bs ∨ h.first_block + total bs + 8 ≤ x) →
      (x < h.first_block + total bs + footprint s ∨
        h.first_block + total bs + footprint s + 12 ≤ x) →
      set_is_used (set_size (set_size h.mem (h.first_block + total bs) (footprint s))
            (h.first_block + total bs + footprint s) 0)
            (h.first_block + total bs + footprint s) 1 x = h.mem x := by
    intro x hx1 hx2
    rw [sentinel_write_outside _ _ _ hx2, set_size_outside _ _ _ _ hx1]
  refine ⟨_, hstep, ?_, rfl, rfl, ?_⟩
  · refine ⟨hr.base_ne, hr.base_al, ?_, ?_, ?_, ?_⟩
    · dsimp only
      rw [Seg_append_iff, Seg_cons_iff]
      refine ⟨?_, ?_, ?_, Seg_nil _ _⟩
      · exact Seg_frame _ _ _ _ hr.valid (fun x _ hx => hframe x (by omega) (by omega)) hr.seg
      · rw [get_size_congr _ _ _ (fun x hx1 hx2 => sentinel_write_outside _ _ _ (by omega)),
          get_size_set_size]
        exact Nat.mod_eq_of_lt (by omega)
      · rw [get_is_used_congr _ _ _ (fun x hx1 hx2 => sentinel_write_outside _ _ _ (by omega)),
          get_is_used_set_size _ _ _ _ (Or.inr (le_refl _))]
        exact hr.sent.2
    · dsimp only
      rw [total_append]
      simp only [total, Nat.add_zero, ← Nat.add_assoc]
      exact isSentinel_written _ _
    · dsimp only
      rw [total_append]
      simp only [total]
      omega
    · rw [Valid_append_iff]
      refine ⟨hr.valid, ?_⟩
      intro b hb'
      simp at hb'
      subst hb'
      simp
      omega
  · intro x hx1 hx2
    dsimp only
    exact hframe x hx1 hx2

/-- Value of `first_block` chosen by the first `heap_init`. -/
theorem heap_init_fresh (h : Heap) (h0 : h.first_block = 0) :
    heap_init h =
      { mem := set_is_used (set_size h.mem ((h.brk + 7) / 8 * 8) 0) ((h.brk + 7) / 8 * 8) 1,
        brk := (h.brk + 7) / 8 * 8 + 16, first_block := (h.brk + 7) / 8 * 8 } := by
  unfold heap_init
  rw [if_neg (by simp [h0])]
  simp only [ALIGN_BYTES]
  have e1 : (sbrk h 0).2 % 2 ^ 64 % 8 = h.brk % 8 := by
    unfold sbrk
    simp only
    omega
  rw [e1]
  by_cases hal : h.brk % 8 = 0
  · rw [if_neg (by simp [hal]), add_sentinel_eq]
    unfold sbrk
    simp only [Int.add_zero, Int.toNat_ofNat]
    have : (h.brk + 7) / 8 * 8 = h.brk := by omega
    rw [this]
  · rw [if_pos hal, sbrk_grow _ _ (by omega), add_sentinel_eq]
    unfold sbrk
    simp only [Int.add_zero, Int.toNat_ofNat]
    have : (h.brk + 7) / 8 * 8 = h.brk + (8 - h.brk % 8) := by omega
    rw [this]

theorem heap_init_fresh_repr (h : Heap) (h0 : h.first_block = 0) (hb : 0 < h.brk) :
    Repr (heap_init h) [] := by
  rw [heap_init_fresh h h0]
  refine ⟨?_, ?_, Seg_nil _ _, ?_, ?_, Valid_nil⟩
  · dsimp only; omega
  · dsimp only; omega
  · dsimp only
    simp only [total, Nat.add_zero]
    exact isSentinel_written _ _
  · dsimp only
    simp only [total, Nat.add_zero]

/-! ## List-level facts about `coalesce` and `releaseLast` -/

theorem coalesce_cons_cases (b : Blk) (bs : List Blk) :
    (coalesce bs = [] ∧ coalesce (b :: bs) = [b]) ∨
    (∃ c cs, coalesce bs = c :: cs ∧ (b.used = 0 ∧ c.used = 0) ∧
      coalesce (b :: bs) = ⟨b.size + c.size, 0⟩ :: cs) ∨
    (∃ c cs, coalesce bs = c :: cs ∧ ¬ (b.used = 0 ∧ c.used = 0) ∧
      coalesce (b :: bs) = b :: c :: cs) := by
  rw [coalesce]
  cases h : coalesce bs with
  | nil => left; exact ⟨rfl, rfl⟩
  | cons c cs =>
    right
    by_cases hc : b.used = 0 ∧ c.used = 0
    · left; exact ⟨c, cs, rfl, hc, by simp [hc]⟩
    · right; exact ⟨c, cs, rfl, hc, by simp [hc]⟩

theorem coalesce_eq_nil (bs : List Blk) (h : coalesce bs = []) : bs = [] := by
  cases bs with
  | nil => rfl
  | cons b bs =>
    rcases coalesce_cons_cases b bs with ⟨_, h2⟩ | ⟨c, cs, _, _, h2⟩ | ⟨c, cs, _, _, h2⟩ <;>
      rw [h2] at h <;> simp at h

theorem total_coalesce (bs : List Blk) : total (coalesce bs) = total bs := by
  induction bs with
  | nil => rfl
  | cons b bs ih =>
    rcases coalesce_cons_cases b bs with ⟨h1, h2⟩ | ⟨c, cs, h1, _, h2⟩ | ⟨c, cs, h1, _, h2⟩
    · rw [h2]; rw [h1] at ih; simp only [total] at ih ⊢; omega
    · rw [h2]; rw [h1] at ih; simp only [total] at ih ⊢; omega
    · rw [h2]; rw [h1] at ih; simp only [total] at ih ⊢; omega

theorem valid_coalesce (bs : List Blk) (hv : Valid bs) : Valid (coalesce bs) := by
  induction bs with
  | nil => exact hv
  | cons b bs ih =>
    rw [Valid_cons_iff] at hv
    have ih := ih hv.2
    rcases coalesce_cons_cases b bs with ⟨h1, h2⟩ | ⟨c, cs, h1, _, h2⟩ | ⟨c, cs, h1, _, h2⟩
    · rw [h2, Valid_cons_iff]; exact ⟨hv.1, Valid_nil⟩
    · rw [h1, Valid_cons_iff] at ih
      rw [h2, Valid_cons_iff]
      refine ⟨⟨?_, ?_, ?_⟩, ih.2⟩ <;> simp <;> omega
    · rw [h1] at ih
      rw [h2, Valid_cons_iff]
      exact ⟨hv.1, ih⟩

theorem coalesce_length_le (bs : List Blk) : (coalesce bs).length ≤ bs.length := by
  induction bs with
  | nil => simp [coalesce]
  | cons b bs ih =>
    rcases coalesce_cons_cases b bs with ⟨h1, h2⟩ | ⟨c, cs, h1, _, h2⟩ | ⟨c, cs, h1, _, h2⟩ <;>
      rw [h2] <;> rw [h1] at ih <;> simp only [List.length_cons, List.length_nil] at ih ⊢ <;>
      omega

/-- Every block address after coalescing was a block address before. -/
theorem layout_coalesce_addr (bs : List Blk) : ∀ a e, e ∈ layout a (coalesce bs) →
    ∃ e' ∈ layout a bs, e'.1 = e.1 := by
  induction bs with
  | nil => intro a e h; simp [coalesce, layout] at h
  | cons b bs ih =>
    intro a e h
    rcases coalesce_cons_cases b bs with ⟨h1, h2⟩ | ⟨c, cs, h1, _, h2⟩ | ⟨c, cs, h1, _, h2⟩
    · rw [h2] at h
      simp only [layout, List.mem_cons, List.not_mem_nil, or_false] at h
      exact ⟨(a, b), by simp [layout], by rw [h]⟩
    · rw [h2] at h
      simp only [layout, List.mem_cons] at h
      rcases h with h | h
      · exact ⟨(a, b), by simp [layout], by rw [h]⟩
      · obtain ⟨e', he', he⟩ := ih (a + b.size) e (by
          rw [h1]; simp only [layout, List.mem_cons]; right
          rw [Nat.add_assoc]; exact h)
        exact ⟨e', by simp only [layout, List.mem_cons]; right; exact he', he⟩
    · rw [h2] at h
      simp only [layout, List.mem_cons] at h
      rcases h with h | h
      · exact ⟨(a, b), by simp [layout], by rw [h]⟩
      · obtain ⟨e', he', he⟩ := ih (a + b.size) e (by
          rw [h1]; simp only [layout, List.mem_cons]; exact h)
        exact ⟨e', by simp only [layout, List.mem_cons]; right; exact he', he⟩

theorem HdrByte_of_coalesce (a : Nat) (bs : List Blk) (x : Nat)
    (h : HdrByte a (coalesce bs) x) : HdrByte a bs x := by
  obtain ⟨e, he, h1, h2⟩ := h
  obtain ⟨e', he', h3⟩ := layout_coalesce_addr bs a e he
  exact ⟨e', he', by omega, by omega⟩

/-- A used block keeps its address, size and flag through coalescing. -/
theorem layout_coalesce_used (bs : List Blk) : ∀ a e, e.2.used ≠ 0 →
    (e ∈ layout a (coalesce bs) ↔ e ∈ layout a bs) := by
  induction bs with
  | nil => intro a e _; simp [coalesce]
  | cons b bs ih =>
    intro a e hu
    have ih := ih (a + b.size) e hu
    rcases coalesce_cons_cases b bs with ⟨h1, h2⟩ | ⟨c, cs, h1, hc, h2⟩ | ⟨c, cs, h1, _, h2⟩
    · rw [h2]
      have := coalesce_eq_nil bs h1
      subst this
      rfl
    · rw [h2]
      rw [h1] at ih
      simp only [layout, List.mem_cons] at ih ⊢
      rw [← ih, Nat.add_assoc]
      constructor
      · rintro (h | h)
        · rw [h] at hu; simp at hu
        · right; right; exact h
      · rintro (h | h | h)
        · rw [h] at hu; exact absurd hc.1 hu
        · rw [h] at hu; exact absurd hc.2 hu
        · right; exact h
    · rw [h2]
      rw [h1] at ih
      simp only [layout, List.mem_cons] at ih ⊢
      rw [← ih]

theorem releaseLast_append_singleton (init : List Blk) (l : Blk) :
    releaseLast (init ++ [l]) = if l.used = 0 then init else init ++ [l] := by
  induction init with
  | nil => simp only [List.nil_append, releaseLast]
  | cons b bs ih =>
    cases bs with
    | nil =>
      simp only [List.cons_append, List.nil_append, releaseLast]
      split <;> simp
    | cons c cs =>
      simp only [List.cons_append] at ih ⊢
      rw [releaseLast, ih]
      split <;> simp

theorem list_nil_or_snoc (bs : List Blk) : bs = [] ∨ ∃ init l, bs = init ++ [l] := by
  rcases List.eq_nil_or_concat bs with h | ⟨init, l, h⟩
  · exact Or.inl h
  · exact Or.inr ⟨init, l, by rw [h]; simp⟩

/-! ## `try_merge_all`, `try_release_memory` and `FREE` on a represented heap -/

theorem Repr_total_lt (h : Heap) (bs : List Blk) (hr : Repr h bs) (hb : h.brk < 2 ^ 63) :
    h.first_block + total bs + 16 < 2 ^ 63 := by
  have := hr.brk_eq
  omega

theorem try_merge_all_repr (h : Heap) (bs : List Blk) (fuel : Nat)
    (hr : Repr h bs) (hb : h.brk < 2 ^ 63) (hfuel : bs.length < fuel) :
    ∃ h', try_merge_all fuel h = some h' ∧ Repr h' (coalesce bs) ∧
      h'.brk = h.brk ∧ h'.first_block = h.first_block ∧
      ∀ x, ¬ HdrByte h.first_block bs x → h'.mem x = h.mem x := by
  have hlt := Repr_total_lt h bs hr hb
  obtain ⟨m', e1, e2, e3⟩ := try_merge_all_loop_spec fuel bs.length bs (le_refl _) h.mem
    h.first_block fuel hr.seg hr.sent hr.valid (by omega) hfuel hfuel
  refine ⟨{ h with mem := m' }, ?_, ?_, rfl, rfl, ?_⟩
  · unfold try_merge_all
    rw [e1]
  · refine ⟨hr.base_ne, hr.base_al, e2, ?_, ?_, valid_coalesce bs hr.valid⟩
    · dsimp only
      rw [total_coalesce]
      apply IsSentinel_congr h.mem m' _ _ hr.sent
      intro x hx1 _
      apply e3
      intro hh
      have := HdrByte_range _ _ hr.valid x hh
      omega
    · dsimp only
      rw [total_coalesce]
      exact hr.brk_eq
  · intro x hx
    exact e3 x hx

theorem try_release_memory_repr (h : Heap) (bs : List Blk) (fuel : Nat)
    (hr : Repr h bs) (hb : h.brk < 2 ^ 63) (hfuel : bs.length < fuel) :
    ∃ h', try_release_memory fuel h = some h' ∧ Repr h' (releaseLast bs) ∧
      h'.first_block = h.first_block ∧
      ∀ x, ¬ HdrByte h.first_block bs x → h'.mem x = h.mem x := by
  have hlt := Repr_total_lt h bs hr hb
  obtain ⟨k, rfl⟩ : ∃ k, fuel = bs.length + (k + 1) := ⟨fuel - bs.length - 1, by omega⟩
  have hloop : last_block_loop (bs.length + (k + 1)) h.mem 0 h.first_block =
      some (lastAddr 0 h.first_block bs) := by
    rw [last_block_loop_skip h.mem bs 0 h.first_block (k + 1) hr.seg
      (fun b hb' => Repr_sizes_lt h _ hr hb b hb')]
    have e : ∀ prev, last_block_loop (k + 1) h.mem prev (h.first_block + total bs) =
        if get_size h.mem (h.first_block + total bs) ≠ 0 then
          last_block_loop k h.mem (h.first_block + total bs)
            (offset_ptr (h.first_block + total bs)
              (toSigned (get_size h.mem (h.first_block + total bs))))
        else some prev := fun _ => rfl
    rw [e, if_neg (by simp [hr.sent.1])]
  rcases list_nil_or_snoc bs with hnil | ⟨init, l, hsnoc⟩
  · subst hnil
    refine ⟨h, ?_, hr, rfl, fun _ _ => rfl⟩
    unfold try_release_memory
    rw [hloop]
    simp [lastAddr]
  · subst hsnoc
    rw [lastAddr_append_singleton] at hloop
    have hbase := hr.base_ne
    have hseg := hr.seg
    rw [Seg_append_iff, Seg_cons_iff] at hseg
    obtain ⟨g1, g2, g3, _⟩ := hseg
    have hv := hr.valid
    rw [Valid_append_iff, Valid_cons_iff] at hv
    obtain ⟨v1, ⟨v2, v3, v4⟩, _⟩ := hv
    have hbrk := hr.brk_eq
    rw [total_append] at hbrk hlt
    simp only [total, Nat.add_zero] at hbrk hlt
    rw [releaseLast_append_singleton]
    by_cases hu : l.used = 0
    · rw [if_pos hu]
      have hstep : try_release_memory (List.length (init ++ [l]) + (k + 1)) h =
          some { mem := set_is_used (set_size h.mem (h.first_block + total init) 0)
                    (h.first_block + total init) 1,
                 brk := h.first_block + total init + 16, first_block := h.first_block } := by
        unfold try_release_memory
        rw [hloop]
        simp only
        rw [if_neg (by omega), g3, hu, if_neg (by simp), g2,
          sbrk_shrink _ _ (by unfold sizeof_BlockHeader; omega)
            (by unfold sizeof_BlockHeader; omega), add_sentinel_eq]
        dsimp only
        have e : h.brk - (l.size + sizeof_BlockHeader) = h.first_block + total init := by
          unfold sizeof_BlockHeader; omega
        rw [e]
      refine ⟨_, hstep, ?_, rfl, ?_⟩
      · refine ⟨hr.base_ne, hr.base_al, ?_, ?_, rfl, v1⟩
        · dsimp only
          exact Seg_frame _ _ _ _ v1
            (fun x _ hx => sentinel_write_outside _ _ _ (Or.inl hx)) g1
        · dsimp only
          exact isSentinel_written _ _
      · intro x hx
        dsimp only
        apply sentinel_write_outside
        by_contra hc
        apply hx
        refine ⟨(h.first_block + total init, l), ?_, ?_, ?_⟩
        · rw [layout_append]; simp [layout]
        · dsimp only; omega
        · dsimp only; omega
    · rw [if_neg hu]
      refine ⟨h, ?_, hr, rfl, fun _ _ => rfl⟩
      unfold try_release_memory
      rw [hloop]
      simp only
      rw [if_neg (by omega), g3, if_pos hu]

theorem HdrByte_append_iff (a : Nat) (xs ys : List Blk) (x : Nat) :
    HdrByte a (xs ++ ys) x ↔ HdrByte a xs x ∨ HdrByte (a + total xs) ys x := by
  unfold HdrByte
  simp only [layout_append, List.mem_append]
  constructor
  · rintro ⟨e, he | he, h1⟩
    · exact Or.inl ⟨e, he, h1⟩
    · exact Or.inr ⟨e, he, h1⟩
  · rintro (⟨e, he, h1⟩ | ⟨e, he, h1⟩)
    · exact ⟨e, Or.inl he, h1⟩
    · exact ⟨e, Or.inr he, h1⟩

theorem HdrByte_cons_iff (a : Nat) (b : Blk) (bs : List Blk) (x : Nat) :
    HdrByte a (b :: bs) x ↔ (a ≤ x ∧ x < a + 12) ∨ HdrByte (a + b.size) bs x := by
  unfold HdrByte
  simp only [layout, List.mem_cons]
  constructor
  · rintro ⟨e, he | he, h1⟩
    · subst he; exact Or.inl h1
    · exact Or.inr ⟨e, he, h1⟩
  · rintro (h1 | ⟨e, he, h1⟩)
    · exact ⟨(a, b), Or.inl rfl, h1⟩
    · exact ⟨e, Or.inr he, h1⟩

theorem HdrByte_set_flag (a : Nat) (pre suf : List Blk) (blk : Blk) (u x : Nat) :
    HdrByte a (pre ++ ⟨blk.size, u⟩ :: suf) x ↔ HdrByte a (pre ++ blk :: suf) x := by
  rw [HdrByte_append_iff, HdrByte_append_iff, HdrByte_cons_iff, HdrByte_cons_iff]

/-- Writing the `is_used` field of one block of the chain. -/
theorem Repr_set_flag (h : Heap) (pre suf : List Blk) (blk : Blk) (u : Nat) (hu : u ≤ 1)
    (hr : Repr h (pre ++ blk :: suf)) :
    Repr { h with mem := set_is_used h.mem (h.first_block + total pre) u }
      (pre ++ ⟨blk.size, u⟩ :: suf) := by
  have hseg := hr.seg
  rw [Seg_append_iff, Seg_cons_iff] at hseg
  obtain ⟨g1, g2, g3, g4⟩ := hseg
  have hv := hr.valid
  rw [Valid_append_iff, Valid_cons_iff] at hv
  obtain ⟨v1, ⟨v2, v3, v4⟩, v5⟩ := hv
  have hframe : ∀ x, (x < h.first_block + total pre ∨
      h.first_block + total pre + blk.size ≤ x) →
      set_is_used h.mem (h.first_block + total pre) u x = h.mem x :=
    fun x hx => set_is_used_outside _ _ _ _ (by omega)
  refine ⟨hr.base_ne, hr.base_al, ?_, ?_, ?_, ?_⟩
  · dsimp only
    have := Seg_replace h.mem _ h.first_block pre suf [⟨blk.size, u⟩] blk v1 hr.seg hframe
      (by
        rw [Seg_cons_iff]
        refine ⟨?_, ?_, Seg_nil _ _⟩
        · rw [get_size_set_is_used _ _ _ _ (Or.inl (le_refl _))]; exact g2
        · rw [get_is_used_set_is_used]; exact Nat.mod_eq_of_lt (by omega))
      (by simp [total])
    simpa using this
  · have := hr.sent
    simp only [total_append, total] at this ⊢
    exact IsSentinel_congr h.mem _ _ (fun x hx _ => hframe x (by omega)) this
  · have := hr.brk_eq
    simp only [total_append, total] at this ⊢
    exact this
  · rw [Valid_append_iff, Valid_cons_iff]
    exact ⟨v1, ⟨v2, v3, hu⟩, v5⟩

theorem FREE_repr (h : Heap) (pre suf : List Blk) (blk : Blk) (fuel : Nat)
    (hr : Repr h (pre ++ blk :: suf)) (hb : h.brk < 2 ^ 63) (hu : blk.used = 1)
    (hfuel : (pre ++ blk :: suf).length < fuel) :
    ∃ h', FREE fuel (h.first_block + total pre + 16) h = some h' ∧
      Repr h' (releaseLast (coalesce (pre ++ ⟨blk.size, 0⟩ :: suf))) ∧
      h'.first_block = h.first_block ∧
      ∀ x, ¬ HdrByte h.first_block (pre ++ blk :: suf) x → h'.mem x = h.mem x := by
  have hseg := hr.seg
  rw [Seg_append_iff, Seg_cons_iff] at hseg
  obtain ⟨g1, g2, g3, g4⟩ := hseg
  have hr1 := Repr_set_flag h pre suf blk 0 (by omega) hr
  have hlen : (pre ++ ⟨blk.size, 0⟩ :: suf).length = (pre ++ blk :: suf).length := by simp
  obtain ⟨h2, e1, e2, e3, e4, e5⟩ := try_merge_all_repr _ _ fuel hr1 hb (by rw [hlen]; exact hfuel)
  obtain ⟨h3, i1, i2, i3, i4⟩ := try_release_memory_repr h2 _ fuel e2 (by rw [e3]; exact hb)
    (by have := coalesce_length_le (pre ++ ⟨blk.size, 0⟩ :: suf); omega)
  dsimp only at e3 e4 e5
  refine ⟨h3, ?_, i2, by rw [i3, e4], ?_⟩
  · unfold FREE
    rw [if_neg (by omega), offset_ptr_neg_header]
    have : h.first_block + total pre + 16 - 16 = h.first_block + total pre := by omega
    rw [this]
    dsimp only
    rw [g3, hu]
    simp only [BLOCK_USED, BLOCK_FREE, ne_eq, not_true_eq_false, if_false]
    rw [e1]
    exact i1
  · intro x hx
    have hx1 : ¬ HdrByte h.first_block (pre ++ ⟨blk.size, 0⟩ :: suf) x := by
      rw [HdrByte_set_flag]; exact hx
    rw [i4 x (by rw [e4]; exact fun hh => hx1 (HdrByte_of_coalesce _ _ _ hh)), e5 x hx1]
    apply set_is_used_outside
    by_contra hc
    apply hx
    rw [HdrByte_append_iff, HdrByte_cons_iff]
    right; left; omega

/-! ## `MALLOC` as a list transformation -/

theorem alloc_cases (need : Nat) (bs : List Blk) :
    (∃ pre blk suf, bs = pre ++ blk :: suf ∧
      (∀ b ∈ pre, ¬ (b.used = 0 ∧ need ≤ b.size)) ∧ blk.used = 0 ∧ need ≤ blk.size ∧
      allocL need bs = pre ++ splitBlk ⟨blk.size, 1⟩ need ++ suf ∧
      allocOff need bs = total pre) ∨
    ((∀ b ∈ bs, ¬ (b.used = 0 ∧ need ≤ b.size)) ∧
      allocL need bs = bs ++ [⟨need, 1⟩] ∧ allocOff need bs = total bs) := by
  induction bs with
  | nil => right; exact ⟨by simp, rfl, rfl⟩
  | cons b bs ih =>
    by_cases hb : b.used = 0 ∧ need ≤ b.size
    · left
      refine ⟨[], b, bs, rfl, by simp, hb.1, hb.2, ?_, ?_⟩
      · simp only [allocL, if_pos hb, List.nil_append]
      · simp only [allocOff, if_pos hb, total]
    · rcases ih with ⟨pre, blk, suf, e1, e2, e3, e4, e5, e6⟩ | ⟨e1, e2, e3⟩
      · left
        refine ⟨b :: pre, blk, suf, by rw [e1]; rfl, ?_, e3, e4, ?_, ?_⟩
        · intro c hc
          rcases List.mem_cons.mp hc with h | h
          · rw [h]; exact hb
          · exact e2 c h
        · simp only [allocL, if_neg hb, e5, List.cons_append]
        · simp only [allocOff, if_neg hb, e6, total]
      · right
        refine ⟨?_, ?_, ?_⟩
        · intro c hc
          rcases List.mem_cons.mp hc with h | h
          · rw [h]; exact hb
          · exact e1 c h
        · simp only [allocL, if_neg hb, e2, List.cons_append]
        · simp only [allocOff, if_neg hb, e3, total]

theorem mem_layout_split (bs : List Blk) : ∀ a e, e ∈ layout a bs →
    ∃ pre suf, bs = pre ++ e.2 :: suf ∧ e.1 = a + total pre := by
  induction bs with
  | nil => intro a e h; simp [layout] at h
  | cons b bs ih =>
    intro a e h
    simp only [layout, List.mem_cons] at h
    rcases h with h | h
    · exact ⟨[], bs, by rw [h]; rfl, by rw [h]; simp [total]⟩
    · obtain ⟨pre, suf, e1, e2⟩ := ih _ e h
      exact ⟨b :: pre, suf, by rw [e1]; rfl, by rw [e2]; simp only [total]; omega⟩

theorem mem_layout_mid (a : Nat) (pre suf : List Blk) (blk : Blk) :
    (a + total pre, blk) ∈ layout a (pre ++ blk :: suf) := by
  rw [layout_append]
  simp [layout]

/-- Two entries of a valid layout with the same address are the same block. -/
theorem layout_addr_inj (bs : List Blk) (hv : Valid bs) (a : Nat) (e1 e2 : Nat × Blk)
    (h1 : e1 ∈ layout a bs) (h2 : e2 ∈ layout a bs) (h : e1.1 = e2.1) : e1 = e2 := by
  have v1 := mem_layout_valid bs hv a e1 h1
  have v2 := mem_layout_valid bs hv a e2 h2
  rcases layout_disjoint bs hv a e1 e2 h1 h2 with h3 | h3 | h3
  · exact h3
  · omega
  · omega

theorem Own_lt_total (a : Nat) (bs : List Blk) (x : Nat) (h : Own a bs x) :
    a + 16 ≤ x ∧ x < a + total bs := by
  obtain ⟨e, he, _, h1, h2⟩ := h
  have := mem_layout_range bs a e he
  omega

/-- A free block of the chain holds no byte owned by a caller. -/
theorem Own_not_in_free (a : Nat) (pre suf : List Blk) (blk : Blk)
    (hv : Valid (pre ++ blk :: suf)) (hfree : blk.used = 0) (x : Nat)
    (h : Own a (pre ++ blk :: suf) x) :
    x < a + total pre ∨ a + total pre + blk.size ≤ x := by
  obtain ⟨e, he, hu, h1, h2⟩ := h
  have hm := mem_layout_mid a pre suf blk
  rcases layout_disjoint _ hv a e _ he hm with h3 | h3 | h3
  · rw [h3] at hu; simp only at hu; omega
  · simp only at h3; omega
  · simp only at h3; omega

/-- Both paths of `MALLOC` in one statement. -/
theorem MALLOC_repr (h : Heap) (bs : List Blk) (s fuel : Nat)
    (hr : Repr h bs) (hb : h.brk < 2 ^ 63) (hs : s ≤ 2 ^ 63 - 8) (hfuel : bs.length < fuel) :
    ∃ h', MALLOC fuel s h = some (h.first_block + allocOff (footprint s) bs + 16, h') ∧
      Repr h' (allocL (footprint s) bs) ∧ h'.first_block = h.first_block ∧
      (∀ x, x < h.first_block + allocOff (footprint s) bs → h'.mem x = h.mem x) ∧
      (∀ x, Own h.first_block bs x → h'.mem x = h.mem x) := by
  rcases alloc_cases (footprint s) bs with ⟨pre, blk, suf, e1, e2, e3, e4, e5, e6⟩ | ⟨e1, e2, e3⟩
  · subst e1
    obtain ⟨h', g1, g2, g3, g4, g5⟩ := MALLOC_fit h pre suf blk s fuel hr hb (by omega) e2 e3 e4
      (by simp at hfuel; omega)
    refine ⟨h', by rw [e6]; exact g1, by rw [e5]; exact g2, g4, ?_, ?_⟩
    · intro x hx; exact g5 x (Or.inl (by rw [e6] at hx; exact hx))
    · intro x hx
      exact g5 x (Own_not_in_free _ pre suf blk hr.valid e3 x hx)
  · obtain ⟨h', g1, g2, g3, g4, g5⟩ := MALLOC_grow h bs s fuel hr hb hs e1 hfuel
    refine ⟨h', by rw [e3]; exact g1, by rw [e2]; exact g2, g4, ?_, ?_⟩
    · intro x hx
      rw [e3] at hx
      exact g5 x (Or.inl hx) (Or.inl (by omega))
    · intro x hx
      have := Own_lt_total _ _ _ hx
      exact g5 x (Or.inl this.2) (Or.inl (by omega))

/-! ## The coalesce and trailing-used invariants on lists -/

theorem LastUsed_nil : LastUsed [] := by simp [LastUsed]

theorem LastUsed_snoc_iff (init : List Blk) (l : Blk) :
    LastUsed (init ++ [l]) ↔ l.used ≠ 0 := by
  simp [LastUsed, List.getLast?_concat]

theorem LastUsed_append_cons (xs ys : List Blk) (y : Blk) (h : LastUsed (y :: ys)) :
    LastUsed (xs ++ y :: ys) := by
  rcases list_nil_or_snoc (y :: ys) with h1 | ⟨init, l, h1⟩
  · simp at h1
  · rw [h1] at h ⊢
    rw [← List.append_assoc, LastUsed_snoc_iff]
    exact (LastUsed_snoc_iff init l).mp h

theorem LastUsed_of_append_cons (xs ys : List Blk) (y : Blk) (h : LastUsed (xs ++ y :: ys)) :
    LastUsed (y :: ys) := by
  rcases list_nil_or_snoc (y :: ys) with h1 | ⟨init, l, h1⟩
  · simp at h1
  · rw [h1] at h ⊢
    rw [← List.append_assoc, LastUsed_snoc_iff] at h
    exact (LastUsed_snoc_iff init l).mpr h

theorem NoAdjFree_split_iff (xs zs : List Blk) (y : Blk) :
    NoAdjFree (xs ++ y :: zs) ↔ NoAdjFree (xs ++ [y]) ∧ NoAdjFree (y :: zs) :=
  List.chain'_split

theorem NoAdjFree_snoc_used (xs : List Blk) (y : Blk) (hx : NoAdjFree xs) (hy : y.used ≠ 0) :
    NoAdjFree (xs ++ [y]) := by
  unfold NoAdjFree at hx ⊢
  rw [List.chain'_append]
  refine ⟨hx, List.chain'_singleton _, ?_⟩
  intro x _ z hz
  simp at hz
  subst hz
  exact fun h => hy h.2

theorem NoAdjFree_cons_used (zs : List Blk) (y : Blk) (hz : NoAdjFree zs) (hy : y.used ≠ 0) :
    NoAdjFree (y :: zs) := by
  unfold NoAdjFree at hz ⊢
  exact List.Chain'.cons' hz (fun _ _ h => hy h.1)

theorem NoAdjFree_left (xs ys : List Blk) (h : NoAdjFree (xs ++ ys)) : NoAdjFree xs :=
  List.Chain'.left_of_append h

theorem NoAdjFree_right (xs ys : List Blk) (h : NoAdjFree (xs ++ ys)) : NoAdjFree ys :=
  List.Chain'.right_of_append h

theorem NoAdjFree_same_flag (zs : List Blk) (y y' : Blk) (h : NoAdjFree (y :: zs))
    (hy : y'.used = y.used) : NoAdjFree (y' :: zs) := by
  unfold NoAdjFree at h ⊢
  exact List.Chain'.imp_head (fun {z} hz => by rw [hy]; exact hz) h

/-- After a free block the chain continues with a block that is not free. -/
theorem NoAdjFree_after_free (zs : List Blk) (y : Blk) (h : NoAdjFree (y :: zs))
    (hy : y.used = 0) : zs = [] ∨ ∃ u r, zs = u :: r ∧ u.used ≠ 0 := by
  cases zs with
  | nil => exact Or.inl rfl
  | cons u r =>
    right
    refine ⟨u, r, rfl, ?_⟩
    have := List.Chain'.rel_head h
    exact fun hu => this ⟨hy, hu⟩

theorem NoAdjFree_cons_stop (zs : List Blk) (y : Blk) (hz : NoAdjFree zs)
    (hs : zs = [] ∨ ∃ u r, zs = u :: r ∧ u.used ≠ 0) : NoAdjFree (y :: zs) := by
  rcases hs with hs | ⟨u, r, hs, hu⟩
  · subst hs; exact List.chain'_singleton _
  · subst hs
    exact List.Chain'.cons (fun h => hu h.2) hz

theorem noAdjFree_coalesce (bs : List Blk) : NoAdjFree (coalesce bs) := by
  induction bs with
  | nil => exact List.chain'_nil
  | cons b bs ih =>
    rcases coalesce_cons_cases b bs with ⟨h1, h2⟩ | ⟨c, cs, h1, hc, h2⟩ | ⟨c, cs, h1, hc, h2⟩
    · rw [h2]; exact List.chain'_singleton _
    · rw [h2]
      rw [h1] at ih
      exact NoAdjFree_same_flag cs c _ ih hc.2.symm
    · rw [h2]
      rw [h1] at ih
      exact List.Chain'.cons hc ih

theorem noAdjFree_releaseLast (bs : List Blk) (h : NoAdjFree bs) :
    NoAdjFree (releaseLast bs) ∧ LastUsed (releaseLast bs) := by
  rcases list_nil_or_snoc bs with h1 | ⟨init, l, h1⟩
  · subst h1; exact ⟨List.chain'_nil, LastUsed_nil⟩
  · subst h1
    rw [releaseLast_append_singleton]
    by_cases hl : l.used = 0
    · rw [if_pos hl]
      refine ⟨NoAdjFree_left _ _ h, ?_⟩
      rcases list_nil_or_snoc init with h2 | ⟨init', l', h2⟩
      · subst h2; exact LastUsed_nil
      · subst h2
        rw [LastUsed_snoc_iff]
        rw [List.append_assoc] at h
        have := NoAdjFree_right _ _ h
        have := List.Chain'.rel_head this
        exact fun h' => this ⟨h', hl⟩
    · rw [if_neg hl]
      exact ⟨h, (LastUsed_snoc_iff init l).mpr hl⟩

theorem splitBlk_cases (b : Blk) (sz : Nat) :
    splitBlk b sz = [b] ∨
      (sz < b.size ∧ 40 ≤ b.size - sz ∧ splitBlk b sz = [⟨sz, b.used⟩, ⟨b.size - sz, 0⟩]) := by
  unfold splitBlk
  by_cases h1 : sz ≥ b.size
  · left; rw [if_pos h1]
  · rw [if_neg h1]
    by_cases h2 : b.size - sz < 40
    · left; rw [if_pos h2]
    · right; rw [if_neg h2]; exact ⟨by omega, by omega, rfl⟩

/-- Replacing a block by the result of splitting its used version keeps both
list invariants, provided what follows a leftover is not free. -/
theorem inv_replace_split (pre suf : List Blk) (blk : Blk) (n sz : Nat)
    (h1 : NoAdjFree (pre ++ [blk])) (h2 : NoAdjFree suf)
    (h3 : ∃ u r, suf = u :: r ∧ u.used ≠ 0) (h4 : LastUsed suf) :
    NoAdjFree (pre ++ splitBlk ⟨n, 1⟩ sz ++ suf) ∧
      LastUsed (pre ++ splitBlk ⟨n, 1⟩ sz ++ suf) := by
  obtain ⟨u, r, hs, hu⟩ := h3
  have hpre : ∀ k, NoAdjFree (pre ++ [⟨k, 1⟩]) :=
    fun k => NoAdjFree_snoc_used pre _ (NoAdjFree_left _ _ h1) (by simp)
  subst hs
  rcases splitBlk_cases ⟨n, 1⟩ sz with h | ⟨_, _, h⟩
  · rw [h]
    simp only [List.append_assoc, List.singleton_append]
    exact ⟨(NoAdjFree_split_iff _ _ _).mpr ⟨hpre _, NoAdjFree_cons_used _ _ h2 (by simp)⟩,
      LastUsed_append_cons _ _ _ (LastUsed_append_cons [_] _ _ h4)⟩
  · rw [h]
    simp only [List.append_assoc, List.cons_append, List.nil_append]
    refine ⟨(NoAdjFree_split_iff _ _ _).mpr ⟨hpre _, NoAdjFree_cons_used _ _ ?_ (by simp)⟩, ?_⟩
    · exact List.Chain'.cons (fun hh => hu hh.2) h2
    · exact LastUsed_append_cons _ _ _ (LastUsed_append_cons [_, _] _ _ h4)

theorem inv_allocL (need : Nat) (bs : List Blk) (h1 : NoAdjFree bs) (h2 : LastUsed bs) :
    NoAdjFree (allocL need bs) ∧ LastUsed (allocL need bs) := by
  rcases alloc_cases need bs with ⟨pre, blk, suf, e1, _, e3, _, e5, _⟩ | ⟨_, e2, _⟩
  · subst e1
    rw [e5]
    rw [NoAdjFree_split_iff] at h1
    have hsuf := NoAdjFree_after_free suf blk h1.2 e3
    rcases hsuf with hsuf | hsuf
    · subst hsuf
      exact absurd e3 ((LastUsed_snoc_iff pre blk).mp h2)
    · refine inv_replace_split pre suf blk blk.size need h1.1
        (NoAdjFree_right [blk] suf h1.2) hsuf ?_
      obtain ⟨u, r, hs, _⟩ := hsuf
      subst hs
      exact LastUsed_of_append_cons (pre ++ [blk]) r u (by simpa using h2)
  · rw [e2]
    exact ⟨NoAdjFree_snoc_used bs _ h1 (by simp), (LastUsed_snoc_iff bs _).mpr (by simp)⟩

/-! ## Which blocks keep their place -/

theorem layout_replace (a : Nat) (pre mid new suf : List Blk) (ht : total new = total mid)
    (e : Nat × Blk) (he : e ∈ layout a (pre ++ mid ++ suf))
    (hn : e ∉ layout (a + total pre) mid) : e ∈ layout a (pre ++ new ++ suf) := by
  simp only [layout_append, total_append, List.mem_append, ht] at he ⊢
  rcases he with (he | he) | he
  · exact Or.inl (Or.inl he)
  · exact absurd he hn
  · exact Or.inr he

theorem layout_replace_one (a : Nat) (pre new suf : List Blk) (blk : Blk)
    (ht : total new = blk.size) (e : Nat × Blk) (he : e ∈ layout a (pre ++ blk :: suf))
    (hn : e.1 ≠ a + total pre) : e ∈ layout a (pre ++ new ++ suf) := by
  apply layout_replace a pre [blk] new suf (by simp [total, ht]) e (by simpa using he)
  simp only [layout, List.mem_singleton]
  intro h
  rw [h] at hn
  exact hn rfl

theorem layout_snoc (a : Nat) (bs xs : List Blk) (e : Nat × Blk) (he : e ∈ layout a bs) :
    e ∈ layout a (bs ++ xs) := by
  rw [layout_append]
  exact List.mem_append_left _ he

theorem alloc_used_persist (need a : Nat) (bs : List Blk) (hv : Valid bs) (e : Nat × Blk)
    (he : e ∈ layout a bs) (hu : e.2.used ≠ 0) :
    e ∈ layout a (allocL need bs) ∧ e.1 ≠ a + allocOff need bs := by
  rcases alloc_cases need bs with ⟨pre, blk, suf, e1, _, e3, _, e5, e6⟩ | ⟨_, e2, e3⟩
  · subst e1
    have hne : e.1 ≠ a + total pre := by
      intro h
      have := layout_addr_inj _ hv a e (a + total pre, blk) he (mem_layout_mid a pre suf blk) h
      rw [this] at hu
      exact hu e3
    rw [e5, e6]
    exact ⟨layout_replace_one a pre _ suf blk (total_splitBlk ⟨blk.size, 1⟩ need) e he hne, hne⟩
  · rw [e2, e3]
    refine ⟨layout_snoc a bs _ e he, ?_⟩
    have := mem_layout_range bs a e he
    have := mem_layout_valid bs hv a e he
    omega

theorem alloc_new_block (need a : Nat) (bs : List Blk) :
    ∃ blk, (a + allocOff need bs, blk) ∈ layout a (allocL need bs) ∧ blk.used = 1 ∧
      need ≤ blk.size := by
  rcases alloc_cases need bs with ⟨pre, blk, suf, e1, _, _, e4, e5, e6⟩ | ⟨_, e2, e3⟩
  · rw [e5, e6]
    rcases splitBlk_cases ⟨blk.size, 1⟩ need with h | ⟨_, _, h⟩
    · rw [h]
      refine ⟨⟨blk.size, 1⟩, ?_, rfl, e4⟩
      simp only [List.append_assoc, List.singleton_append]
      exact mem_layout_mid a pre suf _
    · rw [h]
      refine ⟨⟨need, 1⟩, ?_, rfl, le_refl _⟩
      simp only [List.append_assoc, List.cons_append, List.nil_append]
      exact mem_layout_mid a pre _ _
  · rw [e2, e3]
    exact ⟨⟨need, 1⟩, mem_layout_mid a bs [] _, rfl, le_refl _⟩

theorem releaseLast_sub (a : Nat) (bs : List Blk) (e : Nat × Blk)
    (he : e ∈ layout a (releaseLast bs)) : e ∈ layout a bs := by
  rcases list_nil_or_snoc bs with h1 | ⟨init, l, h1⟩
  · subst h1; exact he
  · subst h1
    rw [releaseLast_append_singleton] at he
    split at he
    · exact layout_snoc a init _ e he
    · exact he

theorem releaseLast_used_persist (a : Nat) (bs : List Blk) (e : Nat × Blk)
    (he : e ∈ layout a bs) (hu : e.2.used ≠ 0) : e ∈ layout a (releaseLast bs) := by
  rcases list_nil_or_snoc bs with h1 | ⟨init, l, h1⟩
  · subst h1; exact he
  · subst h1
    rw [releaseLast_append_singleton]
    split
    · rename_i hl
      rw [layout_append] at he
      simp only [layout, List.mem_append, List.mem_singleton] at he
      rcases he with he | he
      · exact he
      · rw [he] at hu; exact absurd hl hu
    · exact he

theorem HdrByte_of_releaseLast (a : Nat) (bs : List Blk) (x : Nat)
    (h : HdrByte a (releaseLast bs) x) : HdrByte a bs x := by
  obtain ⟨e, he, h1⟩ := h
  exact ⟨e, releaseLast_sub a bs e he, h1⟩

theorem valid_releaseLast (bs : List Blk) (hv : Valid bs) : Valid (releaseLast bs) := by
  rcases list_nil_or_snoc bs with h1 | ⟨init, l, h1⟩
  · subst h1; exact hv
  · subst h1
    rw [releaseLast_append_singleton]
    split
    · exact ((Valid_append_iff _ _).mp hv).1
    · exact hv

/-- After `FREE` of the block at `a + total pre`, every other used block is
still in the chain, at the same address. -/
theorem free_used_persist (a : Nat) (pre suf : List Blk) (blk : Blk) (e : Nat × Blk)
    (he : e ∈ layout a (pre ++ blk :: suf)) (hu : e.2.used ≠ 0) (hn : e.1 ≠ a + total pre) :
    e ∈ layout a (releaseLast (coalesce (pre ++ ⟨blk.size, 0⟩ :: suf))) := by
  apply releaseLast_used_persist _ _ _ _ hu
  rw [layout_coalesce_used _ _ _ hu]
  have := layout_replace_one a pre [⟨blk.size, 0⟩] suf blk (by simp [total]) e he hn
  simpa using this

/-- Bytes of a used block's payload are owned. -/
theorem Own_of_mem (a : Nat) (bs : List Blk) (e : Nat × Blk) (he : e ∈ layout a bs)
    (hu : e.2.used = 1) (x : Nat) (h1 : e.1 + 16 ≤ x) (h2 : x < e.1 + e.2.size) :
    Own a bs x :=
  ⟨e, he, hu, h1, h2⟩

/-! ## `try_merge` and `try_split` on a represented heap -/

theorem try_merge_repr (h : Heap) (pre fs rest : List Blk) (blk : Blk) (fuel : Nat)
    (hr : Repr h (pre ++ blk :: (fs ++ rest))) (hb : h.brk < 2 ^ 63)
    (hfs : ∀ f ∈ fs, f.used = 0) (hrest : rest = [] ∨ ∃ u r, rest = u :: r ∧ u.used ≠ 0)
    (hfuel : fs.length < fuel) :
    ∃ m1, try_merge fuel h.mem (h.first_block + total pre) = some m1 ∧
      Repr { h with mem := m1 } (pre ++ ⟨blk.size + total fs, blk.used⟩ :: rest) ∧
      ∀ x, (x < h.first_block + total pre ∨ h.first_block + total pre + 8 ≤ x) →
        m1 x = h.mem x := by
  have hlt := Repr_total_lt h _ hr hb
  have hseg := hr.seg
  rw [Seg_append_iff, Seg_cons_iff, Seg_append_iff] at hseg
  obtain ⟨g1, g2, g3, g4, g5⟩ := hseg
  have hv := hr.valid
  rw [Valid_append_iff, Valid_cons_iff, Valid_append_iff] at hv
  obtain ⟨v1, ⟨v2, v3, v4⟩, v5, v6⟩ := hv
  have hsent := hr.sent
  have hbrk := hr.brk_eq
  simp only [total_append, total] at hlt hsent hbrk
  have hflag : get_is_used h.mem (h.first_block + total pre + blk.size + total fs) = 1 := by
    rcases hrest with e3 | ⟨u, r, e3, hu1⟩
    · subst e3
      simp only [total, Nat.add_zero] at hsent
      rw [← hsent.2]; congr 1; omega
    · subst e3
      rw [Seg_cons_iff] at g5
      rw [g5.2.1]
      have := (v6 u (by simp)).2.2
      omega
  obtain ⟨m1, f1, f2, f3⟩ := try_merge_spec (h.first_block + total pre) fs h.mem blk.size fuel
    g2 (by omega) g4 (fun f hf => by rw [hfs f hf]; decide) hflag (by omega) hfuel
  refine ⟨m1, f1, ?_, f3⟩
  refine ⟨hr.base_ne, hr.base_al, ?_, ?_, ?_, ?_⟩
  · dsimp only
    rw [Seg_append_iff, Seg_cons_iff]
    refine ⟨Seg_frame _ _ _ _ v1 (fun x _ hx => f3 x (Or.inl hx)) g1, f2, ?_, ?_⟩
    · rw [get_is_used_congr h.mem m1 _ (fun x hx1 _ => f3 x (by omega))]; exact g3
    · have : h.first_block + total pre + (blk.size + total fs) =
          h.first_block + total pre + blk.size + total fs := by omega
      dsimp only
      rw [this]
      exact Seg_frame_above _ _ _ _ (fun x hx => f3 x (by omega)) g5
  · dsimp only
    simp only [total_append, total]
    apply IsSentinel_congr h.mem m1 _ (fun x hx1 _ => f3 x (by omega))
    have : h.first_block + (total pre + (blk.size + total fs + total rest)) =
        h.first_block + (total pre + (blk.size + (total fs + total rest))) := by omega
    rw [this]; exact hsent
  · dsimp only
    simp only [total_append, total]
    omega
  · rw [Valid_append_iff, Valid_cons_iff]
    refine ⟨v1, ⟨?_, ?_, v4⟩, v6⟩
    · dsimp only; omega
    · dsimp only
      have : ∀ (l : List Blk), Valid l → total l % 8 = 0 := by
        intro l hl
        induction l with
        | nil => rfl
        | cons b bs ih =>
          rw [Valid_cons_iff] at hl
          have := ih hl.2
          simp only [total]; omega
      have := this fs v5
      omega

theorem try_split_repr (h : Heap) (pre suf : List Blk) (blk : Blk) (sz : Nat)
    (hr : Repr h (pre ++ blk :: suf)) (h3 : sz < 2 ^ 63) (h4 : 16 ≤ sz) (h5 : sz % 8 = 0) :
    Repr { h with mem := try_split h.mem (h.first_block + total pre) sz }
      (pre ++ splitBlk blk sz ++ suf) ∧
    ∀ x, ¬ HdrByte h.first_block (pre ++ splitBlk blk sz ++ suf) x →
      try_split h.mem (h.first_block + total pre) sz x = h.mem x := by
  have hseg := hr.seg
  rw [Seg_append_iff, Seg_cons_iff] at hseg
  obtain ⟨g1, g2, g3, g4⟩ := hseg
  have hv := hr.valid
  rw [Valid_append_iff, Valid_cons_iff] at hv
  obtain ⟨v1, ⟨v2, v3, v4⟩, v5⟩ := hv
  obtain ⟨t1, t2⟩ := try_split_seg h.mem (h.first_block + total pre) sz blk g2 g3 h3 h4 h5 v3
  constructor
  · refine ⟨hr.base_ne, hr.base_al, ?_, ?_, ?_, ?_⟩
    · dsimp only
      exact Seg_replace h.mem _ h.first_block pre suf _ blk v1 hr.seg t2 t1 (total_splitBlk _ _)
    · have := hr.sent
      simp only [total_append, total, total_splitBlk, Nat.add_assoc] at this ⊢
      exact IsSentinel_congr h.mem _ _ (fun x hx _ => t2 x (by omega)) this
    · have := hr.brk_eq
      simp only [total_append, total, total_splitBlk, Nat.add_assoc] at this ⊢
      exact this
    · rw [Valid_append_iff, Valid_append_iff]
      exact ⟨⟨v1, valid_splitBlk _ _ v2 v3 v4 h4 h5⟩, v5⟩
  · intro x hx
    rcases splitBlk_cases blk sz with hc | ⟨c1, c2, hc⟩
    · have : sz ≥ blk.size ∨ blk.size - sz < 40 := by
        by_contra hcon
        have : splitBlk blk sz = [⟨sz, blk.used⟩, ⟨blk.size - sz, 0⟩] := by
          unfold splitBlk
          rw [if_neg (by omega), if_neg (by omega)]
        rw [this] at hc
        simp at hc
      rw [try_split_noop _ _ _ (by rw [g2]; omega)]
    · rw [hc] at hx
      obtain ⟨_, _, _, _, e5⟩ := try_split_split h.mem (h.first_block + total pre) sz
        (by rw [g2]; exact c1) (by rw [g2]; exact c2) h3 (by omega) (by rw [g2]; omega)
      apply e5
      · by_contra hcon
        apply hx
        rw [HdrByte_append_iff, HdrByte_append_iff]
        left; right
        rw [HdrByte_cons_iff]
        left; omega
      · by_contra hcon
        apply hx
        rw [HdrByte_append_iff, HdrByte_append_iff]
        left; right
        rw [HdrByte_cons_iff, HdrByte_cons_iff]
        right; left; dsimp only; omega

/-! ## `REALLOC` on a represented heap -/

theorem REALLOC_live_eq (fuel p s : Nat) (h : Heap) (hp : 16 ≤ p) (hs : 0 < s) :
    REALLOC fuel p s h =
      if footprint s > get_size h.mem (p - 16) then
        match try_merge fuel h.mem (p - 16) with
        | none => none
        | some m1 =>
          if get_size (try_split m1 (p - 16) (footprint s)) (p - 16) ≥ footprint s then
            some (p, { h with mem := try_split m1 (p - 16) (footprint s) })
          else
            match MALLOC fuel ((footprint s + negU sizeof_BlockHeader) % 2 ^ 64)
                { h with mem := try_split m1 (p - 16) (footprint s) } with
            | none => none
            | some (new_ptr, h3) =>
              match FREE fuel p { h3 with mem := memcpy h3.mem new_ptr p s } with
              | none => none
              | some h5 => some (new_ptr, h5)
      else
        match try_merge_all fuel { h with mem := try_split h.mem (p - 16) (footprint s) } with
        | none => none
        | some h2 =>
          match try_release_memory fuel h2 with
          | none => none
          | some h3 => some (p, h3) := by
  unfold REALLOC
  rw [if_neg (by omega), if_neg (by omega), offset_ptr_neg_header]
  rfl

theorem length_splitBlk_le (b : Blk) (sz : Nat) : (splitBlk b sz).length ≤ 2 := by
  rcases splitBlk_cases b sz with h | ⟨_, _, h⟩ <;> rw [h] <;> simp

/-- Shrinking (or size-preserving) `REALLOC`: split, coalesce, release. -/
theorem REALLOC_shrink_repr (h : Heap) (pre suf : List Blk) (blk : Blk) (s fuel : Nat)
    (hr : Repr h (pre ++ blk :: suf)) (hb : h.brk < 2 ^ 63) (hs0 : 0 < s)
    (hs : s + 23 < 2 ^ 64) (hle : footprint s ≤ blk.size)
    (hfuel : (pre ++ blk :: suf).length + 1 < fuel) :
    ∃ h', REALLOC fuel (h.first_block + total pre + 16) s h =
        some (h.first_block + total pre + 16, h') ∧
      Repr h' (releaseLast (coalesce (pre ++ splitBlk blk (footprint s) ++ suf))) ∧
      h'.first_block = h.first_block ∧
      ∀ x, ¬ HdrByte h.first_block (pre ++ splitBlk blk (footprint s) ++ suf) x →
        h'.mem x = h.mem x := by
  obtain ⟨f1, f2, f3⟩ := footprint_spec s hs
  have hseg := hr.seg
  rw [Seg_append_iff, Seg_cons_iff] at hseg
  obtain ⟨g1, g2, g3, g4⟩ := hseg
  have hblk := Repr_sizes_lt h _ hr hb blk (by simp)
  obtain ⟨r1, r2⟩ := try_split_repr h pre suf blk (footprint s) hr (by omega) (by omega) f1
  have hlen : (pre ++ splitBlk blk (footprint s) ++ suf).length < fuel := by
    have := length_splitBlk_le blk (footprint s)
    simp only [List.length_append, List.length_cons] at hfuel ⊢
    omega
  obtain ⟨h2, e1, e2, e3, e4, e5⟩ := try_merge_all_repr _ _ fuel r1 hb hlen
  obtain ⟨h3, i1, i2, i3, i4⟩ := try_release_memory_repr h2 _ fuel e2 (by rw [e3]; exact hb)
    (by have := coalesce_length_le (pre ++ splitBlk blk (footprint s) ++ suf); omega)
  dsimp only at e3 e4 e5
  refine ⟨h3, ?_, i2, by rw [i3, e4], ?_⟩
  · rw [REALLOC_live_eq _ _ _ _ (by omega) hs0]
    have : h.first_block + total pre + 16 - 16 = h.first_block + total pre := by omega
    rw [this, g2, if_neg (by omega), e1]
    dsimp only
    rw [i1]
  · intro x hx
    rw [i4 x (by rw [e4]; exact fun hh => hx (HdrByte_of_coalesce _ _ _ hh)), e5 x hx]
    exact r2 x hx

/-- Growing `REALLOC` that succeeds in place: the following free blocks are
absorbed and the surplus is split off again. -/
theorem REALLOC_inplace_repr (h : Heap) (pre fs rest : List Blk) (blk : Blk) (s fuel : Nat)
    (hr : Repr h (pre ++ blk :: (fs ++ rest))) (hb : h.brk < 2 ^ 63) (hs0 : 0 < s)
    (hs : s + 23 < 2 ^ 64)
    (hfs : ∀ f ∈ fs, f.used = 0) (hrest : rest = [] ∨ ∃ u r, rest = u :: r ∧ u.used ≠ 0)
    (hgt : blk.size < footprint s) (hle : footprint s ≤ blk.size + total fs)
    (hfuel : fs.length < fuel) :
    ∃ h', REALLOC fuel (h.first_block + total pre + 16) s h =
        some (h.first_block + total pre + 16, h') ∧
      Repr h' (pre ++ splitBlk ⟨blk.size + total fs, blk.used⟩ (footprint s) ++ rest) ∧
      h'.first_block = h.first_block ∧ h'.brk = h.brk ∧
      ∀ x, ¬ HdrByte h.first_block
          (pre ++ splitBlk ⟨blk.size + total fs, blk.used⟩ (footprint s) ++ rest) x →
        h'.mem x = h.mem x := by
  obtain ⟨f1, f2, f3⟩ := footprint_spec s hs
  have hseg := hr.seg
  rw [Seg_append_iff, Seg_cons_iff] at hseg
  obtain ⟨g1, g2, g3, g4⟩ := hseg
  obtain ⟨m1, t1, t2, t3⟩ := try_merge_repr h pre fs rest blk fuel hr hb hfs hrest hfuel
  have hnew := Repr_sizes_lt _ _ t2 hb ⟨blk.size + total fs, blk.used⟩ (by simp)
  dsimp only at hnew
  obtain ⟨r1, r2⟩ := try_split_repr _ pre rest ⟨blk.size + total fs, blk.used⟩ (footprint s) t2
    (by omega) (by omega) f1
  dsimp only at r1 r2
  have hsz : footprint s ≤
      get_size (try_split m1 (h.first_block + total pre) (footprint s))
        (h.first_block + total pre) := by
    have := r1.seg
    dsimp only at this
    rw [Seg_append_iff, Seg_append_iff] at this
    have := this.1.2
    rcases splitBlk_cases ⟨blk.size + total fs, blk.used⟩ (footprint s) with hc | ⟨_, _, hc⟩
    · rw [hc, Seg_cons_iff] at this
      rw [this.1]
      exact hle
    · rw [hc, Seg_cons_iff] at this
      rw [this.1]
  refine ⟨_, ?_, r1, rfl, rfl, ?_⟩
  · rw [REALLOC_live_eq _ _ _ _ (by omega) hs0]
    have : h.first_block + total pre + 16 - 16 = h.first_block + total pre := by omega
    rw [this, g2, if_pos (by omega), t1]
    dsimp only
    rw [if_pos hsz]
  · intro x hx
    dsimp only
    rw [r2 x hx]
    apply t3
    by_contra hcon
    apply hx
    rw [HdrByte_append_iff, HdrByte_append_iff]
    left; right
    rcases splitBlk_cases ⟨blk.size + total fs, blk.used⟩ (footprint s) with hc | ⟨_, _, hc⟩ <;>
      rw [hc, HdrByte_cons_iff] <;> left <;> omega

theorem total_allocL (need : Nat) (bs : List Blk) :
    total (allocL need bs) = total bs ∨ total (allocL need bs) = total bs + need := by
  rcases alloc_cases need bs with ⟨pre, blk, suf, e1, _, _, _, e5, _⟩ | ⟨_, e2, _⟩
  · left
    rw [e5, e1]
    simp only [total_append, total, total_splitBlk]
    omega
  · right
    rw [e2]
    simp only [total_append, total]
    omega

theorem length_allocL_le (need : Nat) (bs : List Blk) :
    (allocL need bs).length ≤ bs.length + 1 := by
  rcases alloc_cases need bs with ⟨pre, blk, suf, e1, _, _, _, e5, _⟩ | ⟨_, e2, _⟩
  · rw [e5, e1]
    have := length_splitBlk_le ⟨blk.size, 1⟩ need
    simp only [List.length_append, List.length_cons]
    omega
  · rw [e2]; simp

theorem footprint_sub (n : Nat) (h1 : 16 ≤ n) (h2 : n % 8 = 0) (h3 : n < 2 ^ 64) :
    footprint (n - 16) = n := by
  unfold footprint sizeof_BlockHeader
  have e : (n - 16 + 16) % 2 ^ 64 = n := by
    rw [Nat.sub_add_cancel h1]
    exact Nat.mod_eq_of_lt h3
  rw [e]
  exact round_up_of_aligned n h2

/-- Memory changes away from the headers and the sentinel keep the chain. -/
theorem Repr_congr_mem (h : Heap) (bs : List Blk) (m' : Mem) (hr : Repr h bs)
    (h1 : ∀ x, HdrByte h.first_block bs x → m' x = h.mem x)
    (h2 : ∀ x, h.first_block + total bs ≤ x → m' x = h.mem x) :
    Repr { h with mem := m' } bs :=
  ⟨hr.base_ne, hr.base_al, Seg_congr h.mem m' _ bs h1 hr.seg,
    IsSentinel_congr h.mem m' _ (fun x hx _ => h2 x hx) hr.sent, hr.brk_eq, hr.valid⟩

theorem memcpy_outside (m : Mem) (dst src n x : Nat) (h : x < dst ∨ dst + n ≤ x) :
    memcpy m dst src n x = m x := by
  unfold memcpy
  rw [if_neg (by omega)]

theorem memcpy_inside (m : Mem) (dst src n i : Nat) (h : i < n) :
    memcpy m dst src n (dst + i) = m (src + i) := by
  unfold memcpy
  rw [if_pos (by omega)]
  congr 1
  omega

/-- Relocating `REALLOC`: in-place growth fails, a fresh block is allocated,
the payload is copied and the old block is released. -/
theorem REALLOC_relocate_repr (h : Heap) (pre fs rest : List Blk) (blk : Blk) (s fuel : Nat)
    (hr : Repr h (pre ++ blk :: (fs ++ rest))) (hb : h.brk < 2 ^ 63) (hu : blk.used = 1)
    (hs0 : 0 < s) (hroom : h.brk + s + 24 ≤ 2 ^ 63)
    (hfs : ∀ f ∈ fs, f.used = 0) (hrest : rest = [] ∨ ∃ u r, rest = u :: r ∧ u.used ≠ 0)
    (hlt : blk.size + total fs < footprint s)
    (hfuel : (pre ++ blk :: (fs ++ rest)).length + 1 < fuel) :
    ∃ h' pre2 suf2,
      REALLOC fuel (h.first_block + total pre + 16) s h =
        some (h.first_block +
          allocOff (footprint s) (pre ++ ⟨blk.size + total fs, 1⟩ :: rest) + 16, h') ∧
      allocL (footprint s) (pre ++ ⟨blk.size + total fs, 1⟩ :: rest) =
        pre2 ++ ⟨blk.size + total fs, 1⟩ :: suf2 ∧
      total pre2 = total pre ∧
      Repr h' (releaseLast (coalesce (pre2 ++ ⟨blk.size + total fs, 0⟩ :: suf2))) ∧
      h'.first_block = h.first_block ∧
      (∀ x, Own h.first_block (pre ++ ⟨blk.size + total fs, 1⟩ :: rest) x →
        h'.mem x = h.mem x) ∧
      (∀ i, i < s → i + 16 < blk.size + total fs →
        h'.mem (h.first_block +
          allocOff (footprint s) (pre ++ ⟨blk.size + total fs, 1⟩ :: rest) + 16 + i) =
          h.mem (h.first_block + total pre + 16 + i)) := by
  obtain ⟨f1, f2, f3⟩ := footprint_spec s (by omega)
  have hseg := hr.seg
  rw [Seg_append_iff, Seg_cons_iff] at hseg
  obtain ⟨g1, g2, g3, g4⟩ := hseg
  have hbrk := hr.brk_eq
  simp only [total_append, total] at hbrk
  obtain ⟨m1, t1, t2, t3⟩ := try_merge_repr h pre fs rest blk fuel hr hb hfs hrest
    (by simp only [List.length_append, List.length_cons] at hfuel; omega)
  rw [hu] at t2
  have hm1s : get_size m1 (h.first_block + total pre) = blk.size + total fs := by
    have := t2.seg
    rw [Seg_append_iff, Seg_cons_iff] at this
    exact this.2.1
  have hnoop : try_split m1 (h.first_block + total pre) (footprint s) = m1 :=
    try_split_noop _ _ _ (by rw [hm1s]; omega)
  have hfp : footprint (footprint s - 16) = footprint s :=
    footprint_sub _ (by omega) f1 (by omega)
  have hbrk2 : h.brk = h.first_block +
      total (pre ++ ⟨blk.size + total fs, 1⟩ :: rest) + 16 := by
    simp only [total_append, total]; omega
  have hlen2 : (pre ++ (⟨blk.size + total fs, 1⟩ : Blk) :: rest).length + 1 < fuel := by
    simp only [List.length_append, List.length_cons] at hfuel ⊢
    omega
  obtain ⟨h3, a1, a2, a3, a4, a5⟩ := MALLOC_repr _ _ (footprint s - 16) fuel t2 hb (by omega)
    (by omega)
  rw [hfp] at a1 a2 a4
  dsimp only at a1 a3 a4 a5
  -- the fresh block and the old block inside the new chain
  obtain ⟨nb, n1, n2, n3⟩ := alloc_new_block (footprint s) h.first_block
    (pre ++ ⟨blk.size + total fs, 1⟩ :: rest)
  obtain ⟨o1, o2⟩ := alloc_used_persist (footprint s) h.first_block _ t2.valid
    (h.first_block + total pre, ⟨blk.size + total fs, 1⟩) (mem_layout_mid _ pre rest _)
    (by simp)
  obtain ⟨pre2, suf2, p1, p2⟩ := mem_layout_split _ _ _ o1
  dsimp only at p1 p2 o2
  have hpre2 : total pre2 = total pre := by omega
  rw [p1] at a2
  -- the copy lands in the payload of the fresh block
  have hown : ∀ x, h.first_block +
      allocOff (footprint s) (pre ++ ⟨blk.size + total fs, 1⟩ :: rest) + 16 ≤ x →
      x < h.first_block +
        allocOff (footprint s) (pre ++ ⟨blk.size + total fs, 1⟩ :: rest) + 16 + s →
      Own h3.first_block (pre2 ++ ⟨blk.size + total fs, 1⟩ :: suf2) x := by
    intro x hx1 hx2
    rw [a3, ← p1]
    exact Own_of_mem _ _ _ n1 n2 x (by dsimp only; omega) (by dsimp only; omega)
  have hr4 : Repr { h3 with mem := (memcpy h3.mem (h.first_block +
      allocOff (footprint s) (pre ++ ⟨blk.size + total fs, 1⟩ :: rest) + 16)
      (h.first_block + total pre + 16) s) }
      (pre2 ++ ⟨blk.size + total fs, 1⟩ :: suf2) := by
    apply Repr_congr_mem h3 _ _ a2
    · intro x hx
      apply memcpy_outside
      by_contra hc
      exact Own_not_hdr _ _ a2.valid x (hown x (by omega) (by omega)) hx
    · intro x hx
      apply memcpy_outside
      by_contra hc
      have := Own_lt_total _ _ _ (hown x (by omega) (by omega))
      omega
  have hb3 : h3.brk < 2 ^ 63 := by
    have e := a2.brk_eq
    rw [← p1, a3] at e
    rcases total_allocL (footprint s) (pre ++ ⟨blk.size + total fs, 1⟩ :: rest) with ht | ht <;>
      rw [ht] at e <;> omega
  have hlen3 : (pre2 ++ (⟨blk.size + total fs, 1⟩ : Blk) :: suf2).length < fuel := by
    rw [← p1]
    have := length_allocL_le (footprint s) (pre ++ ⟨blk.size + total fs, 1⟩ :: rest)
    omega
  obtain ⟨h5, q1, q2, q3, q4⟩ := FREE_repr _ pre2 suf2 ⟨blk.size + total fs, 1⟩ fuel hr4 hb3 rfl
    hlen3
  dsimp only at q1 q2 q3 q4
  have eptr : h3.first_block + total pre2 + 16 = h.first_block + total pre + 16 := by
    rw [a3, hpre2]
  rw [eptr] at q1
  rw [a3] at q3 q4
  refine ⟨h5, pre2, suf2, ?_, p1, hpre2, q2, q3, ?_, ?_⟩
  · rw [REALLOC_live_eq _ _ _ _ (by omega) hs0]
    have : h.first_block + total pre + 16 - 16 = h.first_block + total pre := by omega
    rw [this, g2, if_pos (by omega), t1]
    dsimp only
    rw [hnoop, hm1s, if_neg (by omega), sub_header_mod _ (by omega) (by omega), a1]
    dsimp only
    rw [q1]
  · intro x hx
    have hx2 : Own h.first_block (pre2 ++ ⟨blk.size + total fs, 1⟩ :: suf2) x := by
      obtain ⟨e, he, hu', hx1, hx2⟩ := hx
      rw [← p1]
      exact ⟨e, (alloc_used_persist (footprint s) _ _ t2.valid e he (by omega)).1, hu', hx1, hx2⟩
    rw [q4 x (Own_not_hdr _ _ a2.valid x hx2)]
    have hdst : x < h.first_block +
        allocOff (footprint s) (pre ++ ⟨blk.size + total fs, 1⟩ :: rest) + 16 ∨
        h.first_block +
        allocOff (footprint s) (pre ++ ⟨blk.size + total fs, 1⟩ :: rest) + 16 + s ≤ x := by
      obtain ⟨e, he, hu', hx1, hx3⟩ := hx
      obtain ⟨k1, k2⟩ := alloc_used_persist (footprint s) _ _ t2.valid e he (by omega)
      have hv2 := a2.valid
      rw [← p1] at hv2
      rcases layout_disjoint _ hv2 h.first_block e _ k1 n1 with hd | hd | hd
      · rw [hd] at k2; exact absurd rfl k2
      · dsimp only at hd; omega
      · dsimp only at hd; omega
    rw [memcpy_outside _ _ _ _ _ hdst, a5 x hx]
    apply t3
    by_contra hc
    apply Own_not_hdr _ _ t2.valid x hx
    rw [HdrByte_append_iff, HdrByte_cons_iff]
    right; left; omega
  · intro i hi1 hi2
    rw [q4 _ (Own_not_hdr _ _ a2.valid _ (by rw [← a3]; exact hown _ (by omega) (by omega))),
      memcpy_inside _ _ _ _ _ hi1,
      a5 _ (Own_of_mem _ _ _ (mem_layout_mid _ pre rest _) rfl _ (by dsimp only; omega)
        (by dsimp only; omega))]
    exact t3 _ (by omega)

/-! ## The invariant of the reachable states -/

theorem valid_length (bs : List Blk) (hv : Valid bs) : bs.length * 16 ≤ total bs := by
  induction bs with
  | nil => simp [total]
  | cons b bs ih =>
    rw [Valid_cons_iff] at hv
    have := ih hv.2
    simp only [List.length_cons, total]
    omega

theorem Repr_fuel_ok (h : Heap) (bs : List Blk) (hr : Repr h bs) (fuel : Nat)
    (hf : h.brk ≤ fuel) : bs.length + 1 < fuel := by
  have h1 := valid_length bs hr.valid
  have h2 := hr.brk_eq
  have h3 := hr.base_ne
  omega

theorem total_releaseLast_le (bs : List Blk) : total (releaseLast bs) ≤ total bs := by
  rcases list_nil_or_snoc bs with h1 | ⟨init, l, h1⟩
  · subst h1; exact le_refl _
  · subst h1
    rw [releaseLast_append_singleton]
    split
    · rw [total_append]; omega
    · exact le_refl _

theorem nodup_filter_fst (L : List (Nat × Nat)) (f : Nat × Nat → Bool)
    (h : (L.map Prod.fst).Nodup) : ((L.filter f).map Prod.fst).Nodup :=
  List.Nodup.sublist (List.Sublist.map _ (List.filter_sublist L)) h

theorem nodup_cons_filter (L : List (Nat × Nat)) (p s q : Nat)
    (h : (L.map Prod.fst).Nodup) (hq : ∀ r ∈ L, r.1 ≠ p → r.1 ≠ q) :
    (((q, s) :: L.filter (fun r => r.1 ≠ p)).map Prod.fst).Nodup := by
  simp only [List.map_cons, List.nodup_cons]
  refine ⟨?_, nodup_filter_fst L _ h⟩
  intro hm
  obtain ⟨r, hr, hrq⟩ := List.mem_map.mp hm
  rw [List.mem_filter] at hr
  exact hq r hr.1 (by simpa using hr.2) hrq

/-- The requested bytes of a live allocation are owned. -/
theorem LiveOK_own (a : Nat) (bs : List Blk) (L : List (Nat × Nat)) (hl : LiveOK a bs L)
    (q : Nat × Nat) (hq : q ∈ L) (i : Nat) (hi : i < q.2) : Own a bs (q.1 + i) := by
  obtain ⟨h1, blk, h2, h3, h4⟩ := hl q hq
  exact ⟨(q.1 - 16, blk), h2, h3, by dsimp only; omega, by dsimp only; omega⟩

theorem Inv_init (h0 : Heap) (h1 : h0.first_block = 0) (h2 : 0 < h0.brk)
    (h3 : h0.brk + 24 ≤ 2 ^ 63) : Inv (heap_init h0) [] [] := by
  refine ⟨heap_init_fresh_repr h0 h1 h2, ?_, List.chain'_nil, LastUsed_nil, ?_, List.nodup_nil⟩
  · rw [heap_init_fresh h0 h1]
    dsimp only
    omega
  · intro q hq
    simp at hq

/-- `MALLOC` from a state that satisfies the invariant. -/
theorem MALLOC_inv (h : Heap) (L : List (Nat × Nat)) (bs : List Blk) (fuel s : Nat)
    (inv : Inv h L bs) (hf : h.brk ≤ fuel) (hroom : h.brk + s + 24 ≤ 2 ^ 63) :
    ∃ h', MALLOC fuel s h =
        some (h.first_block + allocOff (footprint s) bs + 16, h') ∧
      Inv h' ((h.first_block + allocOff (footprint s) bs + 16, s) :: L)
        (allocL (footprint s) bs) ∧
      h'.first_block = h.first_block ∧
      ∀ x, Own h.first_block bs x → h'.mem x = h.mem x := by
  obtain ⟨f1, f2, f3⟩ := footprint_spec s (by omega)
  have hfuel := Repr_fuel_ok h bs inv.repr fuel hf
  obtain ⟨h', a1, a2, a3, a4, a5⟩ := MALLOC_repr h bs s fuel inv.repr inv.bound (by omega)
    (by omega)
  obtain ⟨i1, i2⟩ := inv_allocL (footprint s) bs inv.noadj inv.last
  obtain ⟨nb, n1, n2, n3⟩ := alloc_new_block (footprint s) h.first_block bs
  refine ⟨h', a1, ⟨a2, ?_, i1, i2, ?_, ?_⟩, a3, a5⟩
  · have e := a2.brk_eq
    have e0 := inv.repr.brk_eq
    rw [a3] at e
    rcases total_allocL (footprint s) bs with ht | ht <;> rw [ht] at e <;> omega
  · rw [a3]
    intro q hq
    rcases List.mem_cons.mp hq with hq | hq
    · subst hq
      refine ⟨by dsimp only; omega, nb, ?_, n2, by dsimp only; omega⟩
      have : h.first_block + allocOff (footprint s) bs + 16 - 16 =
          h.first_block + allocOff (footprint s) bs := by omega
      dsimp only
      rw [this]
      exact n1
    · obtain ⟨k1, blk, k2, k3, k4⟩ := inv.live q hq
      exact ⟨k1, blk, (alloc_used_persist _ _ _ inv.repr.valid _ k2 (by dsimp only; omega)).1,
        k3, k4⟩
  · simp only [List.map_cons, List.nodup_cons]
    refine ⟨?_, inv.nodup⟩
    intro hm
    obtain ⟨r, hr, hrq⟩ := List.mem_map.mp hm
    obtain ⟨k1, blk, k2, k3, k4⟩ := inv.live r hr
    have := (alloc_used_persist (footprint s) _ _ inv.repr.valid _ k2
      (by dsimp only; omega)).2
    dsimp only at this
    omega

theorem LiveOK_split (a : Nat) (bs : List Blk) (L : List (Nat × Nat)) (hl : LiveOK a bs L)
    (p s : Nat) (hp : (p, s) ∈ L) :
    ∃ pre blk suf, bs = pre ++ blk :: suf ∧ p = a + total pre + 16 ∧ blk.used = 1 ∧
      s + 16 ≤ blk.size := by
  obtain ⟨h1, blk, h2, h3, h4⟩ := hl (p, s) hp
  obtain ⟨pre, suf, e1, e2⟩ := mem_layout_split bs a _ h2
  dsimp only at h1 e1 e2 h4
  exact ⟨pre, blk, suf, e1, by omega, h3, h4⟩

/-- `FREE` of a live pointer from a state that satisfies the invariant. -/
theorem FREE_inv (h : Heap) (L : List (Nat × Nat)) (bs : List Blk) (fuel p s : Nat)
    (inv : Inv h L bs) (hf : h.brk ≤ fuel) (hp : (p, s) ∈ L) :
    ∃ h' bs', FREE fuel p h = some h' ∧
      Inv h' (L.filter (fun q => q.1 ≠ p)) bs' ∧
      h'.first_block = h.first_block ∧
      ∀ x, Own h.first_block bs x → h'.mem x = h.mem x := by
  have hfuel := Repr_fuel_ok h bs inv.repr fuel hf
  obtain ⟨pre, blk, suf, e1, e2, e3, e4⟩ := LiveOK_split _ _ _ inv.live p s hp
  subst e1
  obtain ⟨h', q1, q2, q3, q4⟩ := FREE_repr h pre suf blk fuel inv.repr inv.bound e3 (by omega)
  obtain ⟨i1, i2⟩ := noAdjFree_releaseLast _ (noAdjFree_coalesce (pre ++ ⟨blk.size, 0⟩ :: suf))
  refine ⟨h', _, by rw [e2]; exact q1, ⟨q2, ?_, i1, i2, ?_, nodup_filter_fst L _ inv.nodup⟩, q3,
    fun x hx => q4 x (Own_not_hdr _ _ inv.repr.valid x hx)⟩
  · have e := q2.brk_eq
    have e0 := inv.repr.brk_eq
    have t1 := total_releaseLast_le (coalesce (pre ++ ⟨blk.size, 0⟩ :: suf))
    rw [total_coalesce] at t1
    simp only [total_append, total] at t1 e0
    rw [q3] at e
    have := inv.bound
    omega
  · rw [q3]
    intro q hq
    rw [List.mem_filter] at hq
    obtain ⟨k1, blk', k2, k3, k4⟩ := inv.live q hq.1
    have hne : q.1 ≠ p := by simpa using hq.2
    exact ⟨k1, blk', free_used_persist _ pre suf blk _ k2 (by dsimp only; omega)
      (by dsimp only; omega), k3, k4⟩

/-- A byte stored by the caller inside a live allocation keeps the invariant. -/
theorem write_inv (h : Heap) (L : List (Nat × Nat)) (bs : List Blk) (p s i v : Nat)
    (inv : Inv h L bs) (hp : (p, s) ∈ L) (hi : i < s) :
    Inv { h with mem := poke h.mem (p + i) v } L bs := by
  have hown := LiveOK_own _ _ _ inv.live (p, s) hp i hi
  dsimp only at hown
  refine ⟨?_, inv.bound, inv.noadj, inv.last, inv.live, inv.nodup⟩
  apply Repr_congr_mem h bs _ inv.repr
  · intro x hx
    unfold poke
    rw [if_neg]
    intro hxe
    rw [hxe] at hx
    exact Own_not_hdr _ _ inv.repr.valid _ hown hx
  · intro x hx
    unfold poke
    rw [if_neg]
    have := Own_lt_total _ _ _ hown
    omega

theorem mem_layout_mid_head (a : Nat) (pre xs suf : List Blk) (x : Blk) :
    (a + total pre, x) ∈ layout a (pre ++ (x :: xs) ++ suf) := by
  rw [List.append_assoc, List.cons_append]
  exact mem_layout_mid a pre _ x

/-- Head of a split of a used block: a used block that still holds `sz`. -/
theorem splitBlk_head (n sz : Nat) (h : sz ≤ n) :
    ∃ x xs, splitBlk ⟨n, 1⟩ sz = x :: xs ∧ x.used = 1 ∧ sz ≤ x.size := by
  rcases splitBlk_cases ⟨n, 1⟩ sz with hc | ⟨_, _, hc⟩
  · exact ⟨_, _, hc, rfl, h⟩
  · exact ⟨_, _, hc, rfl, le_refl _⟩

/-- Assembling the invariant after a `REALLOC` of the live pointer `p`. -/
theorem Inv_after_realloc (h h' : Heap) (L : List (Nat × Nat)) (bs bs' : List Blk)
    (p s' q : Nat) (inv : Inv h L bs)
    (hr : Repr h' bs') (hfb : h'.first_block = h.first_block) (hb : h'.brk < 2 ^ 63)
    (h1 : NoAdjFree bs') (h2 : LastUsed bs')
    (p1 : ∀ e ∈ layout h.first_block bs, e.2.used = 1 → e.1 + 16 ≠ p →
      e ∈ layout h.first_block bs' ∧ e.1 + 16 ≠ q)
    (p2 : 16 ≤ q ∧ ∃ blk', (q - 16, blk') ∈ layout h.first_block bs' ∧ blk'.used = 1 ∧
      s' + 16 ≤ blk'.size) :
    Inv h' ((q, s') :: L.filter (fun r => r.1 ≠ p)) bs' := by
  refine ⟨hr, hb, h1, h2, ?_, ?_⟩
  · rw [hfb]
    intro r hr'
    rcases List.mem_cons.mp hr' with hr' | hr'
    · subst hr'; exact p2
    · rw [List.mem_filter] at hr'
      obtain ⟨k1, blk, k2, k3, k4⟩ := inv.live r hr'.1
      have hne : r.1 ≠ p := by simpa using hr'.2
      exact ⟨k1, blk, (p1 _ k2 k3 (by dsimp only; omega)).1, k3, k4⟩
  · apply nodup_cons_filter L p s' q inv.nodup
    intro r hr' hne
    obtain ⟨k1, blk, k2, k3, k4⟩ := inv.live r hr'
    have := (p1 _ k2 k3 (by dsimp only; omega)).2
    dsimp only at this
    omega

theorem REALLOC_inv_shrink (h : Heap) (L : List (Nat × Nat)) (pre suf : List Blk) (blk : Blk)
    (fuel s' : Nat) (inv : Inv h L (pre ++ blk :: suf)) (hf : h.brk ≤ fuel)
    (hu : blk.used = 1)
    (hs0 : 0 < s') (hroom : h.brk + s' + 24 ≤ 2 ^ 63) (hle : footprint s' ≤ blk.size) :
    ∃ h' bs', REALLOC fuel (h.first_block + total pre + 16) s' h =
        some (h.first_block + total pre + 16, h') ∧
      Inv h' ((h.first_block + total pre + 16, s') ::
        L.filter (fun r => r.1 ≠ h.first_block + total pre + 16)) bs' ∧
      h'.first_block = h.first_block ∧
      (∀ i, i < s' → h'.mem (h.first_block + total pre + 16 + i) =
        h.mem (h.first_block + total pre + 16 + i)) ∧
      (∀ r ∈ L, r.1 ≠ h.first_block + total pre + 16 → ∀ i, i < r.2 →
        h'.mem (r.1 + i) = h.mem (r.1 + i)) := by
  obtain ⟨f1, f2, f3⟩ := footprint_spec s' (by omega)
  have hfuel := Repr_fuel_ok h _ inv.repr fuel hf
  obtain ⟨h', q1, q2, q3, q4⟩ := REALLOC_shrink_repr h pre suf blk s' fuel inv.repr inv.bound hs0
    (by omega) hle hfuel
  have hv := inv.repr.valid
  rw [Valid_append_iff, Valid_cons_iff] at hv
  have hv1 : Valid (pre ++ splitBlk blk (footprint s') ++ suf) := by
    rw [Valid_append_iff, Valid_append_iff]
    exact ⟨⟨hv.1, valid_splitBlk _ _ hv.2.1.1 hv.2.1.2.1 hv.2.1.2.2 (by omega) f1⟩, hv.2.2⟩
  obtain ⟨i1, i2⟩ := noAdjFree_releaseLast _
    (noAdjFree_coalesce (pre ++ splitBlk blk (footprint s') ++ suf))
  have hblk : blk = ⟨blk.size, 1⟩ := by cases blk; simp at hu; simp [hu]
  obtain ⟨x, xs, hx1, hx2, hx3⟩ := splitBlk_head blk.size (footprint s') hle
  rw [← hblk] at hx1
  have hhead : (h.first_block + total pre, x) ∈
      layout h.first_block (pre ++ splitBlk blk (footprint s') ++ suf) := by
    rw [hx1]; exact mem_layout_mid_head _ _ _ _ _
  have hkeep : ∀ e ∈ layout h.first_block (pre ++ blk :: suf), e.2.used = 1 →
      e.1 + 16 ≠ h.first_block + total pre + 16 →
      e ∈ layout h.first_block (pre ++ splitBlk blk (footprint s') ++ suf) := by
    intro e he _ hne
    exact layout_replace_one _ pre _ suf blk (total_splitBlk _ _) e he (by omega)
  have hfin : ∀ e ∈ layout h.first_block (pre ++ splitBlk blk (footprint s') ++ suf),
      e.2.used = 1 →
      e ∈ layout h.first_block
        (releaseLast (coalesce (pre ++ splitBlk blk (footprint s') ++ suf))) := by
    intro e he hu'
    apply releaseLast_used_persist _ _ _ _ (by omega)
    rw [layout_coalesce_used _ _ _ (by omega)]
    exact he
  refine ⟨h', releaseLast (coalesce (pre ++ splitBlk blk (footprint s') ++ suf)), q1, ?_, q3,
    ?_, ?_⟩
  · apply Inv_after_realloc h h' L _ _ _ s' _ inv q2 q3 ?_ i1 i2
    · intro e he hu' hne
      exact ⟨hfin e (hkeep e he hu' hne) hu', hne⟩
    · refine ⟨by omega, x, ?_, hx2, by omega⟩
      have : h.first_block + total pre + 16 - 16 = h.first_block + total pre := by omega
      rw [this]
      exact hfin _ hhead hx2
    · have e := q2.brk_eq
      have e0 := inv.repr.brk_eq
      have t1 := total_releaseLast_le (coalesce (pre ++ splitBlk blk (footprint s') ++ suf))
      rw [total_coalesce] at t1
      simp only [total_append, total, total_splitBlk] at t1 e0
      rw [q3] at e
      have := inv.bound
      omega
  · intro i hi
    apply q4
    apply Own_not_hdr _ _ hv1
    exact ⟨_, hhead, hx2, by dsimp only; omega, by dsimp only; omega⟩
  · intro r hr' hne i hi
    apply q4
    apply Own_not_hdr _ _ hv1
    obtain ⟨k1, blk', k2, k3, k4⟩ := inv.live r hr'
    exact ⟨_, hkeep _ k2 k3 (by dsimp only; omega), k3, by dsimp only; omega,
      by dsimp only; omega⟩

theorem total_pos_of_ne_nil (fs : List Blk) (h : 0 < total fs) : ∃ init l, fs = init ++ [l] := by
  rcases list_nil_or_snoc fs with h1 | h1
  · subst h1; simp [total] at h
  · exact h1

theorem REALLOC_inv_inplace (h : Heap) (L : List (Nat × Nat)) (pre fs rest : List Blk)
    (blk : Blk) (fuel s' : Nat) (inv : Inv h L (pre ++ blk :: (fs ++ rest)))
    (hf : h.brk ≤ fuel) (hu : blk.used = 1)
    (hs0 : 0 < s') (hroom : h.brk + s' + 24 ≤ 2 ^ 63)
    (hfs : ∀ f ∈ fs, f.used = 0) (hrest : rest = [] ∨ ∃ u r, rest = u :: r ∧ u.used ≠ 0)
    (hgt : blk.size < footprint s') (hle : footprint s' ≤ blk.size + total fs) :
    ∃ h' bs', REALLOC fuel (h.first_block + total pre + 16) s' h =
        some (h.first_block + total pre + 16, h') ∧
      Inv h' ((h.first_block + total pre + 16, s') ::
        L.filter (fun r => r.1 ≠ h.first_block + total pre + 16)) bs' ∧
      h'.first_block = h.first_block ∧
      (∀ i, i < s' → i + 16 < blk.size → h'.mem (h.first_block + total pre + 16 + i) =
        h.mem (h.first_block + total pre + 16 + i)) ∧
      (∀ r ∈ L, r.1 ≠ h.first_block + total pre + 16 → ∀ i, i < r.2 →
        h'.mem (r.1 + i) = h.mem (r.1 + i)) := by
  obtain ⟨f1, f2, f3⟩ := footprint_spec s' (by omega)
  have hfuel := Repr_fuel_ok h _ inv.repr fuel hf
  obtain ⟨h', q1, q2, q3, q3b, q4⟩ := REALLOC_inplace_repr h pre fs rest blk s' fuel inv.repr
    inv.bound hs0 (by omega) hfs hrest hgt hle
    (by simp only [List.length_append, List.length_cons] at hfuel; omega)
  rw [hu] at q2 q4
  -- the absorbed run is not empty, so the chain goes on after it
  obtain ⟨init, l, hfs2⟩ := total_pos_of_ne_nil fs (by omega)
  have hlfree : l.used = 0 := hfs l (by rw [hfs2]; simp)
  have hrest2 : ∃ u r, rest = u :: r ∧ u.used ≠ 0 := by
    rcases hrest with hr | hr
    · exfalso
      have hl := inv.last
      rw [hr, hfs2, List.append_nil] at hl
      have : pre ++ blk :: (init ++ [l]) = (pre ++ blk :: init) ++ [l] := by simp
      rw [this, LastUsed_snoc_iff] at hl
      exact hl hlfree
    · exact hr
  have hna := inv.noadj
  rw [NoAdjFree_split_iff] at hna
  have hna2 : NoAdjFree rest := by
    have := NoAdjFree_right [blk] (fs ++ rest) hna.2
    exact NoAdjFree_right fs rest this
  have hlast : LastUsed rest := by
    obtain ⟨u, r, hr, _⟩ := hrest2
    rw [hr]
    have hl := inv.last
    rw [hr] at hl
    have : pre ++ blk :: (fs ++ u :: r) = (pre ++ blk :: fs) ++ u :: r := by simp
    rw [this] at hl
    exact LastUsed_of_append_cons _ _ _ hl
  obtain ⟨i1, i2⟩ := inv_replace_split pre rest blk (blk.size + total fs) (footprint s') hna.1
    hna2 hrest2 hlast
  obtain ⟨x, xs, hx1, hx2, hx3⟩ := splitBlk_head (blk.size + total fs) (footprint s') hle
  have hhead : (h.first_block + total pre, x) ∈ layout h.first_block
      (pre ++ splitBlk ⟨blk.size + total fs, 1⟩ (footprint s') ++ rest) := by
    rw [hx1]; exact mem_layout_mid_head _ _ _ _ _
  have hkeep : ∀ e ∈ layout h.first_block (pre ++ blk :: (fs ++ rest)), e.2.used = 1 →
      e.1 + 16 ≠ h.first_block + total pre + 16 →
      e ∈ layout h.first_block
        (pre ++ splitBlk ⟨blk.size + total fs, 1⟩ (footprint s') ++ rest) := by
    intro e he hu' hne
    have he2 : e ∈ layout h.first_block (pre ++ (blk :: fs) ++ rest) := by simpa using he
    apply layout_replace _ pre (blk :: fs) _ rest (by simp [total, total_splitBlk]) e he2
    simp only [layout, List.mem_cons]
    rintro (hc | hc)
    · rw [hc] at hne; exact hne rfl
    · have := hfs _ (mem_layout_blk _ _ _ hc)
      omega
  refine ⟨h', pre ++ splitBlk ⟨blk.size + total fs, 1⟩ (footprint s') ++ rest, q1, ?_, q3,
    ?_, ?_⟩
  · apply Inv_after_realloc h h' L _ _ _ s' _ inv q2 q3 ?_ i1 i2
    · intro e he hu' hne
      exact ⟨hkeep e he hu' hne, hne⟩
    · refine ⟨by omega, x, ?_, hx2, by omega⟩
      have : h.first_block + total pre + 16 - 16 = h.first_block + total pre := by omega
      rw [this]
      exact hhead
    · rw [q3b]; exact inv.bound
  · intro i hi hi2
    apply q4
    apply Own_not_hdr _ _ q2.valid
    exact ⟨_, hhead, hx2, by dsimp only; omega, by dsimp only; omega⟩
  · intro r hr' hne i hi
    apply q4
    apply Own_not_hdr _ _ q2.valid
    obtain ⟨k1, blk', k2, k3, k4⟩ := inv.live r hr'
    exact ⟨_, hkeep _ k2 k3 (by dsimp only; omega), k3, by dsimp only; omega,
      by dsimp only; omega⟩

theorem REALLOC_inv_relocate (h : Heap) (L : List (Nat × Nat)) (pre fs rest : List Blk)
    (blk : Blk) (fuel s' : Nat) (inv : Inv h L (pre ++ blk :: (fs ++ rest)))
    (hf : h.brk ≤ fuel) (hu : blk.used = 1)
    (hs0 : 0 < s') (hroom : h.brk + s' + 24 ≤ 2 ^ 63)
    (hfs : ∀ f ∈ fs, f.used = 0) (hrest : rest = [] ∨ ∃ u r, rest = u :: r ∧ u.used ≠ 0)
    (hlt : blk.size + total fs < footprint s') :
    ∃ q h' bs', REALLOC fuel (h.first_block + total pre + 16) s' h = some (q, h') ∧
      Inv h' ((q, s') :: L.filter (fun r => r.1 ≠ h.first_block + total pre + 16)) bs' ∧
      h'.first_block = h.first_block ∧
      (∀ i, i < s' → i + 16 < blk.size → h'.mem (q + i) =
        h.mem (h.first_block + total pre + 16 + i)) ∧
      (∀ r ∈ L, r.1 ≠ h.first_block + total pre + 16 → ∀ i, i < r.2 →
        h'.mem (r.1 + i) = h.mem (r.1 + i)) := by
  obtain ⟨f1, f2, f3⟩ := footprint_spec s' (by omega)
  have hfuel := Repr_fuel_ok h _ inv.repr fuel hf
  obtain ⟨h', pre2, suf2, q1, q2, q3, q4, q5, q6, q7⟩ := REALLOC_relocate_repr h pre fs rest blk
    s' fuel inv.repr inv.bound hu hs0 hroom hfs hrest hlt hfuel
  have hv := inv.repr.valid
  rw [Valid_append_iff, Valid_cons_iff, Valid_append_iff] at hv
  have hv2 : Valid (pre ++ (⟨blk.size + total fs, 1⟩ : Blk) :: rest) := by
    have := q4.valid
    have hva := valid_coalesce (pre ++ (⟨blk.size + total fs, 1⟩ : Blk) :: rest)
    rw [Valid_append_iff, Valid_cons_iff]
    refine ⟨hv.1, ⟨by dsimp only; omega, ?_, by dsimp only; omega⟩, hv.2.2.2⟩
    dsimp only
    have : ∀ (l : List Blk), Valid l → total l % 8 = 0 := by
      intro l hl
      induction l with
      | nil => rfl
      | cons b bs ih =>
        rw [Valid_cons_iff] at hl
        have := ih hl.2
        simp only [total]; omega
    have := this fs hv.2.2.1
    omega
  obtain ⟨i1, i2⟩ := noAdjFree_releaseLast _
    (noAdjFree_coalesce (pre2 ++ ⟨blk.size + total fs, 0⟩ :: suf2))
  obtain ⟨nb, n1, n2, n3⟩ := alloc_new_block (footprint s') h.first_block
    (pre ++ ⟨blk.size + total fs, 1⟩ :: rest)
  obtain ⟨_, o2⟩ := alloc_used_persist (footprint s') h.first_block _ hv2
    (h.first_block + total pre, ⟨blk.size + total fs, 1⟩) (mem_layout_mid _ pre rest _)
    (by simp)
  dsimp only at o2
  have hkeep : ∀ e ∈ layout h.first_block (pre ++ blk :: (fs ++ rest)), e.2.used = 1 →
      e.1 + 16 ≠ h.first_block + total pre + 16 →
      e ∈ layout h.first_block (pre ++ ⟨blk.size + total fs, 1⟩ :: rest) := by
    intro e he hu' hne
    have he2 : e ∈ layout h.first_block (pre ++ (blk :: fs) ++ rest) := by simpa using he
    have := layout_replace _ pre (blk :: fs) [⟨blk.size + total fs, 1⟩] rest
      (by simp [total]) e he2 (by
        simp only [layout, List.mem_cons]
        rintro (hc | hc)
        · rw [hc] at hne; exact hne rfl
        · have := hfs _ (mem_layout_blk _ _ _ hc)
          omega)
    simpa using this
  have hfin : ∀ e ∈ layout h.first_block
      (allocL (footprint s') (pre ++ ⟨blk.size + total fs, 1⟩ :: rest)),
      e.2.used = 1 → e.1 ≠ h.first_block + total pre →
      e ∈ layout h.first_block
        (releaseLast (coalesce (pre2 ++ ⟨blk.size + total fs, 0⟩ :: suf2))) := by
    intro e he hu' hne
    rw [q2] at he
    exact free_used_persist _ pre2 suf2 ⟨blk.size + total fs, 1⟩ e he (by omega)
      (by rw [q3]; exact hne)
  refine ⟨_, h', releaseLast (coalesce (pre2 ++ ⟨blk.size + total fs, 0⟩ :: suf2)), q1, ?_,
    q5, ?_, ?_⟩
  · apply Inv_after_realloc h h' L _ _ _ s' _ inv q4 q5 ?_ i1 i2
    · intro e he hu' hne
      obtain ⟨k1, k2⟩ := alloc_used_persist (footprint s') h.first_block _ hv2 e
        (hkeep e he hu' hne) (by omega)
      exact ⟨hfin e k1 hu' (by omega), by omega⟩
    · refine ⟨by omega, nb, ?_, n2, by omega⟩
      have : h.first_block +
          allocOff (footprint s') (pre ++ ⟨blk.size + total fs, 1⟩ :: rest) + 16 - 16 =
          h.first_block +
          allocOff (footprint s') (pre ++ ⟨blk.size + total fs, 1⟩ :: rest) := by omega
      rw [this]
      exact hfin _ n1 n2 (fun hc => o2 hc.symm)
    · have e := q4.brk_eq
      have e0 := inv.repr.brk_eq
      have t1 := total_releaseLast_le (coalesce (pre2 ++ ⟨blk.size + total fs, 0⟩ :: suf2))
      rw [total_coalesce] at t1
      have t2 : total (pre2 ++ (⟨blk.size + total fs, 0⟩ : Blk) :: suf2) =
          total (allocL (footprint s') (pre ++ ⟨blk.size + total fs, 1⟩ :: rest)) := by
        rw [q2]; simp only [total_append, total]
      have t3 := total_allocL (footprint s') (pre ++ ⟨blk.size + total fs, 1⟩ :: rest)
      have t4 : total (pre ++ (⟨blk.size + total fs, 1⟩ : Blk) :: rest) =
          total (pre ++ blk :: (fs ++ rest)) := by
        simp only [total_append, total]; omega
      rw [q5] at e
      have := inv.bound
      rcases t3 with t3 | t3 <;> omega
  · intro i hi hi2
    exact q7 i hi (by omega)
  · intro r hr' hne i hi
    apply q6
    obtain ⟨k1, blk', k2, k3, k4⟩ := inv.live r hr'
    exact ⟨_, hkeep _ k2 k3 (by dsimp only; omega), k3, by dsimp only; omega,
      by dsimp only; omega⟩

/-- `REALLOC` of a live pointer to a positive size, from a state that satisfies
the invariant: the three paths in one statement. -/
theorem REALLOC_inv (h : Heap) (L : List (Nat × Nat)) (bs : List Blk) (fuel p s s' : Nat)
    (inv : Inv h L bs) (hf : h.brk ≤ fuel) (hp : (p, s) ∈ L)
    (hs0 : 0 < s') (hroom : h.brk + s' + 24 ≤ 2 ^ 63) :
    ∃ q h' bs', REALLOC fuel p s' h = some (q, h') ∧
      Inv h' ((q, s') :: L.filter (fun r => r.1 ≠ p)) bs' ∧
      h'.first_block = h.first_block ∧
      (∀ i, i < s → i < s' → h'.mem (q + i) = h.mem (p + i)) ∧
      (∀ r ∈ L, r.1 ≠ p → ∀ i, i < r.2 → h'.mem (r.1 + i) = h.mem (r.1 + i)) := by
  obtain ⟨pre, blk, suf, e1, e2, e3, e4⟩ := LiveOK_split _ _ _ inv.live p s hp
  subst e1 e2
  by_cases hle : footprint s' ≤ blk.size
  · obtain ⟨h', bs', q1, q2, q3, q4, q5⟩ := REALLOC_inv_shrink h L pre suf blk fuel s' inv hf e3
      hs0 hroom hle
    exact ⟨_, h', bs', q1, q2, q3, fun i _ hi => q4 i hi, q5⟩
  · obtain ⟨fs, rest, r1, r2, r3⟩ := free_run_split suf
    subst r1
    by_cases hin : footprint s' ≤ blk.size + total fs
    · obtain ⟨h', bs', q1, q2, q3, q4, q5⟩ := REALLOC_inv_inplace h L pre fs rest blk fuel s' inv
        hf e3 hs0 hroom r2 r3 (by omega) hin
      exact ⟨_, h', bs', q1, q2, q3, fun i hi1 hi2 => q4 i hi2 (by omega), q5⟩
    · obtain ⟨q, h', bs', q1, q2, q3, q4, q5⟩ := REALLOC_inv_relocate h L pre fs rest blk fuel s'
        inv hf e3 hs0 hroom r2 r3 (by omega)
      exact ⟨q, h', bs', q1, q2, q3, fun i hi1 hi2 => q4 i hi2 (by omega), q5⟩

theorem REALLOC_null (fuel s : Nat) (h : Heap) : REALLOC fuel 0 s h = MALLOC fuel s h := by
  unfold REALLOC
  rw [if_pos rfl]

theorem REALLOC_zero (fuel p : Nat) (h : Heap) (hp : p ≠ 0) :
    REALLOC fuel p 0 h =
      match FREE fuel p h with
      | none => none
      | some h1 => some (0, h1) := by
  unfold REALLOC
  rw [if_neg hp, if_pos rfl]

/-- Every reachable state satisfies the invariant over some chain. -/
theorem reachable_inv (h : Heap) (L : List (Nat × Nat)) (hr : Reachable h L) :
    ∃ bs, Inv h L bs := by
  induction hr with
  | init h0 h1 h2 h3 => exact ⟨[], Inv_init h0 h1 h2 h3⟩
  | malloc h L fuel s p h' _ hf hroom hm ih =>
    obtain ⟨bs, inv⟩ := ih
    obtain ⟨h2, e1, e2, _, _⟩ := MALLOC_inv h L bs fuel s inv hf hroom
    rw [e1] at hm
    simp only [Option.some.injEq, Prod.mk.injEq] at hm
    rw [← hm.1, ← hm.2]
    exact ⟨_, e2⟩
  | free h L fuel p s h' _ hf hp hm ih =>
    obtain ⟨bs, inv⟩ := ih
    obtain ⟨h2, bs', e1, e2, _, _⟩ := FREE_inv h L bs fuel p s inv hf hp
    rw [e1] at hm
    simp only [Option.some.injEq] at hm
    rw [← hm]
    exact ⟨_, e2⟩
  | realloc h L fuel p s s' q h' _ hf hp hs0 hroom hm ih =>
    obtain ⟨bs, inv⟩ := ih
    obtain ⟨q2, h2, bs', e1, e2, _, _, _⟩ := REALLOC_inv h L bs fuel p s s' inv hf hp hs0 hroom
    rw [e1] at hm
    simp only [Option.some.injEq, Prod.mk.injEq] at hm
    rw [← hm.1, ← hm.2]
    exact ⟨_, e2⟩
  | realloc_null h L fuel s p h' _ hf hroom hm ih =>
    obtain ⟨bs, inv⟩ := ih
    obtain ⟨h2, e1, e2, _, _⟩ := MALLOC_inv h L bs fuel s inv hf hroom
    rw [REALLOC_null, e1] at hm
    simp only [Option.some.injEq, Prod.mk.injEq] at hm
    rw [← hm.1, ← hm.2]
    exact ⟨_, e2⟩
  | realloc_zero h L fuel p s q h' _ hf hp hm ih =>
    obtain ⟨bs, inv⟩ := ih
    obtain ⟨h2, bs', e1, e2, _, _⟩ := FREE_inv h L bs fuel p s inv hf hp
    have hp0 : p ≠ 0 := by
      have := (inv.live (p, s) hp).1
      dsimp only at this
      omega
    rw [REALLOC_zero _ _ _ hp0, e1] at hm
    simp only [Option.some.injEq, Prod.mk.injEq] at hm
    rw [← hm.2]
    exact ⟨_, e2⟩
  | write h L p s i v _ hp hi ih =>
    obtain ⟨bs, inv⟩ := ih
    exact ⟨bs, write_inv h L bs p s i v inv hp hi⟩

/-! ## The chain as the walk sees it -/

theorem chain_walk_succ (fuel : Nat) (m : Mem) (b : Nat) :
    chain_walk (fuel + 1) m b =
      if get_size m b ≠ 0 then
        match chain_walk fuel m (offset_ptr b (toSigned (get_size m b))) with
        | none => none
        | some bs => some (⟨get_size m b, get_is_used m b⟩ :: bs)
      else some [] := rfl

theorem chain_walk_seg (m : Mem) : ∀ (bs : List Blk) (a fuel : Nat),
    Seg m a bs → (∀ b ∈ bs, b.size ≠ 0 ∧ b.size < 2 ^ 63) → get_size m (a + total bs) = 0 →
    bs.length < fuel → chain_walk fuel m a = some bs := by
  intro bs
  induction bs with
  | nil =>
    intro a fuel _ _ h3 h4
    obtain ⟨k, rfl⟩ : ∃ k, fuel = k + 1 := ⟨fuel - 1, by simp at h4; omega⟩
    simp only [total, Nat.add_zero] at h3
    rw [chain_walk_succ, h3]
    simp
  | cons b bs ih =>
    intro a fuel h1 h2 h3 h4
    obtain ⟨k, rfl⟩ : ∃ k, fuel = k + 1 := ⟨fuel - 1, by simp at h4; omega⟩
    rw [Seg_cons_iff] at h1
    obtain ⟨g1, g2, g3⟩ := h1
    obtain ⟨k1, k2⟩ := h2 b (by simp)
    simp only [total] at h3
    rw [chain_walk_succ, g1, g2, if_pos k1, offset_ptr_toSigned a b.size k2,
      ih (a + b.size) k g3 (fun c hc => h2 c (List.mem_cons_of_mem _ hc))
        (by rw [Nat.add_assoc]; exact h3) (by simp at h4; omega)]

/-- The walk from `first_block` reads exactly the represented chain. -/
theorem Repr_walk (h : Heap) (bs : List Blk) (hr : Repr h bs) (hb : h.brk < 2 ^ 63)
    (fuel : Nat) (hf : bs.length < fuel) :
    chain_walk fuel h.mem h.first_block = some bs :=
  chain_walk_seg h.mem bs h.first_block fuel hr.seg
    (fun b hb' => Repr_sizes_lt h bs hr hb b hb') hr.sent.1 hf

theorem Repr_unique (h : Heap) (bs bs' : List Blk) (hr : Repr h bs) (hr' : Repr h bs')
    (hb : h.brk < 2 ^ 63) : bs = bs' := by
  have h1 := Repr_walk h bs hr hb (bs.length + bs'.length + 1) (by omega)
  have h2 := Repr_walk h bs' hr' hb (bs.length + bs'.length + 1) (by omega)
  rw [h1] at h2
  exact Option.some.inj h2

theorem layout_aligned (bs : List Blk) (hv : Valid bs) : ∀ a, a % 8 = 0 →
    (∀ e ∈ layout a bs, e.1 % 8 = 0) ∧ (a + total bs) % 8 = 0 := by
  induction bs with
  | nil => intro a ha; simp [layout, total, ha]
  | cons b bs ih =>
    intro a ha
    rw [Valid_cons_iff] at hv
    obtain ⟨i1, i2⟩ := ih hv.2 (a + b.size) (by omega)
    constructor
    · intro e he
      simp only [layout, List.mem_cons] at he
      rcases he with he | he
      · rw [he]; exact ha
      · exact i1 e he
    · simp only [total]
      rw [← Nat.add_assoc]
      exact i2

theorem Reachable_wellFormed (h : Heap) (L : List (Nat × Nat)) (hr : Reachable h L) :
    WellFormed h := by
  obtain ⟨bs, inv⟩ := reachable_inv h L hr
  exact ⟨bs, inv.repr, inv.bound⟩

/-! ## Concrete runs -/

theorem run_eq (r : Option (Nat × Heap)) (h : r.isSome = true) :
    r = some (ptr_of r, after r) := by
  cases r with
  | none => simp at h
  | some v => rfl

theorem run_free_eq (r : Option Heap) (h : r.isSome = true) : r = some (after_free r) := by
  cases r with
  | none => simp at h
  | some v => rfl

theorem ex0_reachable : Reachable ex0 [] :=
  Reachable.init ⟨fun _ => 0, 4096, 0⟩ rfl (by decide) (by decide)

theorem ex1_reachable : Reachable ex1 [(4112, 8)] := by
  have e := run_eq (MALLOC 5000 8 ex0) (by decide!)
  have hp : ptr_of (MALLOC 5000 8 ex0) = 4112 := by decide!
  rw [hp] at e
  exact Reachable.malloc ex0 [] 5000 8 4112 ex1 ex0_reachable (by decide!) (by decide!) e

/-! # The claims -/

theorem footprint_eq (s : Nat) (h : s + 23 < 2 ^ 64) : footprint s = (s + 23) / 8 * 8 := by
  have := footprint_spec s h
  omega

/-- C1, as stated, fails: on the well-formed heap `ex1` (one used block of 24 bytes)
the request `s = 2 ^ 64 - 24` has `s + 23 < 2 ^ 64`, yet `MALLOC` returns a pointer
whose header holds a size below the footprint and that lies above the new break:
`sz - sizeof(BlockHeader)` is negative as an `intptr_t` and `sbrk` lowers the break. -/
theorem C1_counterexample :
    WellFormed ex1 ∧ (2 ^ 64 - 24) + 23 < 2 ^ 64 ∧
    ∃ p h', MALLOC 5000 (2 ^ 64 - 24) ex1 = some (p, h') ∧
      get_size h'.mem (p - 16) < footprint (2 ^ 64 - 24) ∧ h'.brk < p := by
  refine ⟨Reachable_wellFormed _ _ ex1_reachable, by decide, _, _,
    run_eq (MALLOC 5000 (2 ^ 64 - 24) ex1) (by decide!), by decide!, by decide!⟩

/-- C1 (amended): for every request size `s ≤ 2 ^ 63 - 8` and every well-formed heap,
`MALLOC` returns a pointer `p` whose block header at `p - 16` is marked used and
has a size of at least the footprint `round_up(s + 16, 8) ≥ s + 16`; the block is
part of the chain and its payload `[p, p + size - 16)` lies inside the heap,
below the sentinel at `break - 16`. -/
theorem C1_malloc_block (h : Heap) (s fuel : Nat) (hw : WellFormed h)
    (hs : s ≤ 2 ^ 63 - 8) (hf : h.brk ≤ fuel) :
    ∃ p h', MALLOC fuel s h = some (p, h') ∧
      get_is_used h'.mem (p - 16) = 1 ∧
      footprint s ≤ get_size h'.mem (p - 16) ∧
      footprint s = (s + 23) / 8 * 8 ∧ s + 16 ≤ footprint s ∧
      h'.first_block = h.first_block ∧ h.first_block + 16 ≤ p ∧
      p + (get_size h'.mem (p - 16) - 16) ≤ h'.brk - 16 ∧
      IsSentinel h'.mem (h'.brk - 16) := by
  obtain ⟨bs, hr, hb⟩ := hw
  obtain ⟨f1, f2, f3⟩ := footprint_spec s (by omega)
  have hfuel := Repr_fuel_ok h bs hr fuel hf
  obtain ⟨h', a1, a2, a3, _, _⟩ := MALLOC_repr h bs s fuel hr hb hs (by omega)
  obtain ⟨nb, n1, n2, n3⟩ := alloc_new_block (footprint s) h.first_block bs
  have hseg := a2.seg _ (by rw [a3]; exact n1)
  dsimp only at hseg
  have hrange := mem_layout_range _ _ _ n1
  dsimp only at hrange
  have hbrk := a2.brk_eq
  have hsent := a2.sent
  have hv := mem_layout_valid _ a2.valid _ _ n1
  dsimp only at hv
  have e : h.first_block + allocOff (footprint s) bs + 16 - 16 =
      h.first_block + allocOff (footprint s) bs := by omega
  refine ⟨_, h', a1, ?_, ?_, footprint_eq s (by omega), f2, a3, by omega, ?_, ?_⟩
  · rw [e, hseg.2, n2]
  · rw [e, hseg.1]; exact n3
  · rw [e, hseg.1, hbrk, a3]; omega
  · have : h'.brk - 16 = h'.first_block + total (allocL (footprint s) bs) := by omega
    rw [this]; exact hsent

/-- Witness for C1 (amended): `MALLOC(100)` on the freshly initialised heap `ex0`. -/
theorem C1_malloc_block_witness :
    ∃ p h', MALLOC 5000 100 ex0 = some (p, h') ∧
      get_is_used h'.mem (p - 16) = 1 ∧
      footprint 100 ≤ get_size h'.mem (p - 16) ∧
      footprint 100 = (100 + 23) / 8 * 8 ∧ 100 + 16 ≤ footprint 100 ∧
      h'.first_block = ex0.first_block ∧ ex0.first_block + 16 ≤ p ∧
      p + (get_size h'.mem (p - 16) - 16) ≤ h'.brk - 16 ∧
      IsSentinel h'.mem (h'.brk - 16) :=
  C1_malloc_block ex0 100 5000 (Reachable_wellFormed _ _ ex0_reachable) (by decide)
    (by decide!)

theorem exA_reachable : Reachable exA [(4112, 100)] := by
  have e := run_eq (MALLOC 5000 100 ex0) (by decide!)
  have hp : ptr_of (MALLOC 5000 100 ex0) = 4112 := by decide!
  rw [hp] at e
  exact Reachable.malloc ex0 [] 5000 100 4112 exA ex0_reachable (by decide!) (by decide!) e

theorem exB_reachable : Reachable exB [(4232, 8), (4112, 100)] := by
  have e := run_eq (MALLOC 5000 8 exA) (by decide!)
  have hp : ptr_of (MALLOC 5000 8 exA) = 4232 := by decide!
  rw [hp] at e
  exact Reachable.malloc exA _ 5000 8 4232 exB exA_reachable (by decide!) (by decide!) e

theorem exC_reachable : Reachable exC [(4232, 8)] := by
  have e := run_free_eq (FREE 5000 4112 exB) (by decide!)
  exact Reachable.free exB _ 5000 4112 100 exC exB_reachable (by decide!) (by simp) e

theorem exZ_reachable : Reachable exZ [(4112, 0)] := by
  have e := run_eq (MALLOC 5000 0 ex0) (by decide!)
  have hp : ptr_of (MALLOC 5000 0 ex0) = 4112 := by decide!
  rw [hp] at e
  exact Reachable.malloc ex0 [] 5000 0 4112 exZ ex0_reachable (by decide!) (by decide!) e

/-- The chain of a reachable state is the one the walk reads. -/
theorem Reachable_repr_of_walk (h : Heap) (L : List (Nat × Nat)) (hr : Reachable h L)
    (fuel : Nat) (hf : h.brk ≤ fuel) (bs0 : List Blk)
    (hw : chain_walk fuel h.mem h.first_block = some bs0) : Inv h L bs0 := by
  obtain ⟨bs, inv⟩ := reachable_inv h L hr
  have := Repr_walk h bs inv.repr inv.bound fuel
    (by have := Repr_fuel_ok h bs inv.repr fuel hf; omega)
  rw [this] at hw
  rw [← Option.some.inj hw]
  exact inv

theorem exC_inv : Inv exC [(4232, 8)] [⟨120, 0⟩, ⟨24, 1⟩] :=
  Reachable_repr_of_walk exC _ exC_reachable 5000 (by decide!) _ (by decide!)

/-- C3: in every reachable state the walk from `first_block` by size strides is
a finite chain `bs` of blocks of non-zero size that ends at a sentinel
(`size = 0`, `is_used = 1`), the only one met; the sentinel header sits at
`break - 16`, and the block sizes plus 16 add up to `break - first_block`. -/
theorem C3_chain_termination (h : Heap) (L : List (Nat × Nat)) (hr : Reachable h L) :
    ∃ bs, chain_walk (bs.length + 1) h.mem h.first_block = some bs ∧
      (∀ b ∈ bs, b.size ≠ 0) ∧
      IsSentinel h.mem (h.first_block + total bs) ∧
      h.first_block + total bs = h.brk - 16 ∧ 16 ≤ h.brk ∧
      total bs + 16 = h.brk - h.first_block := by
  obtain ⟨bs, inv⟩ := reachable_inv h L hr
  have hbrk := inv.repr.brk_eq
  refine ⟨bs, Repr_walk h bs inv.repr inv.bound _ (by omega),
    fun b hb => (Repr_sizes_lt h bs inv.repr inv.bound b hb).1, inv.repr.sent,
    by omega, by omega, by omega⟩

/-- Witness for C3 at the reachable state `exC`. -/
theorem C3_chain_termination_witness :
    ∃ bs, chain_walk (bs.length + 1) exC.mem exC.first_block = some bs ∧
      (∀ b ∈ bs, b.size ≠ 0) ∧
      IsSentinel exC.mem (exC.first_block + total bs) ∧
      exC.first_block + total bs = exC.brk - 16 ∧ 16 ≤ exC.brk ∧
      total bs + 16 = exC.brk - exC.first_block :=
  C3_chain_termination exC [(4232, 8)] exC_reachable

/-- C4: in every reachable state `first_block` is a multiple of 8, every block
header address of the chain and the sentinel address are multiples of 8, and
every live pointer handed out by `MALLOC` or `REALLOC` is a multiple of 8. -/
theorem C4_alignment (h : Heap) (L : List (Nat × Nat)) (hr : Reachable h L) :
    h.first_block % 8 = 0 ∧
    (∃ bs, chain_walk (bs.length + 1) h.mem h.first_block = some bs ∧
      (∀ e ∈ layout h.first_block bs, e.1 % 8 = 0) ∧
      h.first_block + total bs = h.brk - 16 ∧ (h.brk - 16) % 8 = 0) ∧
    ∀ q ∈ L, q.1 % 8 = 0 := by
  obtain ⟨bs, inv⟩ := reachable_inv h L hr
  have hbrk := inv.repr.brk_eq
  obtain ⟨a1, a2⟩ := layout_aligned bs inv.repr.valid h.first_block inv.repr.base_al
  refine ⟨inv.repr.base_al, ⟨bs, Repr_walk h bs inv.repr inv.bound _ (by omega), a1,
    by omega, by omega⟩, ?_⟩
  intro q hq
  obtain ⟨k1, blk, k2, _, _⟩ := inv.live q hq
  have := a1 _ k2
  dsimp only at this
  omega

/-- Witness for C4 at the reachable state `exB` with two live pointers. -/
theorem C4_alignment_witness :
    exB.first_block % 8 = 0 ∧
    (∃ bs, chain_walk (bs.length + 1) exB.mem exB.first_block = some bs ∧
      (∀ e ∈ layout exB.first_block bs, e.1 % 8 = 0) ∧
      exB.first_block + total bs = exB.brk - 16 ∧ (exB.brk - 16) % 8 = 0) ∧
    ∀ q ∈ [(4232, 8), (4112, 100)], q.1 % 8 = 0 :=
  C4_alignment exB _ exB_reachable

/-- C5: in every reachable state no two consecutive blocks of the chain are
both free. -/
theorem C5_no_adjacent_free (h : Heap) (L : List (Nat × Nat)) (hr : Reachable h L) :
    ∃ bs, chain_walk (bs.length + 1) h.mem h.first_block = some bs ∧
      List.Chain' (fun b c => ¬ (b.used = 0 ∧ c.used = 0)) bs := by
  obtain ⟨bs, inv⟩ := reachable_inv h L hr
  exact ⟨bs, Repr_walk h bs inv.repr inv.bound _ (by omega), inv.noadj⟩

/-- Witness for C5 at the reachable state `exC`. -/
theorem C5_no_adjacent_free_witness :
    ∃ bs, chain_walk (bs.length + 1) exC.mem exC.first_block = some bs ∧
      List.Chain' (fun b c => ¬ (b.used = 0 ∧ c.used = 0)) bs :=
  C5_no_adjacent_free exC [(4232, 8)] exC_reachable

/-- C6, as stated, fails: `MALLOC(0)` on the fresh heap `ex0` reaches a state whose
chain is one used block of size 16, below the claimed floor of 40. -/
theorem C6_counterexample :
    Reachable exZ [(4112, 0)] ∧
    chain_walk 5000 exZ.mem exZ.first_block = some [⟨16, 1⟩] ∧
    ∃ b ∈ [(⟨16, 1⟩ : Blk)], b.size < 16 + 24 :=
  ⟨exZ_reachable, by decide!, ⟨16, 1⟩, by simp, by decide⟩

/-- C6 (amended): in every reachable state every block of the chain has a size
of at least `sizeof(BlockHeader) = 16` that is a multiple of 8. -/
theorem C6_block_size_floor (h : Heap) (L : List (Nat × Nat)) (hr : Reachable h L) :
    ∃ bs, chain_walk (bs.length + 1) h.mem h.first_block = some bs ∧
      ∀ b ∈ bs, 16 ≤ b.size ∧ b.size % 8 = 0 := by
  obtain ⟨bs, inv⟩ := reachable_inv h L hr
  exact ⟨bs, Repr_walk h bs inv.repr inv.bound _ (by omega),
    fun b hb => ⟨(inv.repr.valid b hb).1, (inv.repr.valid b hb).2.1⟩⟩

/-- Witness for C6 (amended) at the reachable state `exZ`. -/
theorem C6_block_size_floor_witness :
    ∃ bs, chain_walk (bs.length + 1) exZ.mem exZ.first_block = some bs ∧
      ∀ b ∈ bs, 16 ≤ b.size ∧ b.size % 8 = 0 :=
  C6_block_size_floor exZ [(4112, 0)] exZ_reachable

/-- C7: in every reachable state the chain is either empty (only the sentinel)
or its last block, the one right before the sentinel, is marked used. -/
theorem C7_trailing_used (h : Heap) (L : List (Nat × Nat)) (hr : Reachable h L) :
    ∃ bs, chain_walk (bs.length + 1) h.mem h.first_block = some bs ∧
      (bs = [] ∨ ∃ init l, bs = init ++ [l] ∧ l.used = 1 ∧
        get_is_used h.mem (h.brk - 16 - l.size) = 1) := by
  obtain ⟨bs, inv⟩ := reachable_inv h L hr
  refine ⟨bs, Repr_walk h bs inv.repr inv.bound _ (by omega), ?_⟩
  rcases list_nil_or_snoc bs with h1 | ⟨init, l, h1⟩
  · exact Or.inl h1
  · right
    have hl := inv.last
    rw [h1, LastUsed_snoc_iff] at hl
    have hv := inv.repr.valid l (by rw [h1]; simp)
    have hu : l.used = 1 := by omega
    refine ⟨init, l, h1, hu, ?_⟩
    have hseg := inv.repr.seg
    have hbrk := inv.repr.brk_eq
    rw [h1] at hseg hbrk
    rw [Seg_append_iff, Seg_cons_iff] at hseg
    rw [total_append] at hbrk
    simp only [total, Nat.add_zero] at hbrk
    have : h.brk - 16 - l.size = h.first_block + total init := by omega
    rw [this, hseg.2.2.1, hu]

/-- Witness for C7 at the reachable state `exC`. -/
theorem C7_trailing_used_witness :
    ∃ bs, chain_walk (bs.length + 1) exC.mem exC.first_block = some bs ∧
      (bs = [] ∨ ∃ init l, bs = init ++ [l] ∧ l.used = 1 ∧
        get_is_used exC.mem (exC.brk - 16 - l.size) = 1) :=
  C7_trailing_used exC [(4232, 8)] exC_reachable

theorem exD_reachable : Reachable exD [(4112, 48)] := by
  have e := run_eq (MALLOC 5000 48 ex0) (by decide!)
  have hp : ptr_of (MALLOC 5000 48 ex0) = 4112 := by decide!
  rw [hp] at e
  exact Reachable.malloc ex0 [] 5000 48 4112 exD ex0_reachable (by decide!) (by decide!) e

theorem exE_reachable : Reachable exE [(4112, 48)] :=
  Reachable.write exD _ 4112 48 0 170 exD_reachable (by simp) (by decide)

theorem exF_reachable : Reachable exF [(4112, 8)] :=
  Reachable.write ex1 _ 4112 8 0 170 ex1_reachable (by simp) (by decide)

theorem exG_reachable : Reachable exG [(4112, 16)] := by
  have e := run_eq (MALLOC 5000 16 ex0) (by decide!)
  have hp : ptr_of (MALLOC 5000 16 ex0) = 4112 := by decide!
  rw [hp] at e
  exact Reachable.malloc ex0 [] 5000 16 4112 exG ex0_reachable (by decide!) (by decide!) e

theorem exH_reachable : Reachable exH [(4112, 16)] :=
  Reachable.write exG _ 4112 16 8 255 exG_reachable (by simp) (by decide)

theorem exI_reachable : Reachable exI [(4144, 8), (4112, 16)] := by
  have e := run_eq (MALLOC 5000 8 exH) (by decide!)
  have hp : ptr_of (MALLOC 5000 8 exH) = 4144 := by decide!
  rw [hp] at e
  exact Reachable.malloc exH _ 5000 8 4144 exI exH_reachable (by decide!) (by decide!) e

theorem exJ_reachable : Reachable exJ [(4144, 8)] := by
  have e := run_free_eq (FREE 5000 4112 exI) (by decide!)
  exact Reachable.free exI _ 5000 4112 16 exJ exI_reachable (by decide!) (by simp) e

/-- C8, as stated, fails: in the reachable state `exE` the live allocation at `4112`
(requested size 48) holds `0xAA` in its first byte; `REALLOC` to the new size
`s' = 2 ^ 64 - 8 > 0` returns the same pointer, but the first byte has changed:
the footprint wraps to 8 and the split writes a header into the payload. -/
theorem C8_counterexample :
    Reachable exE [(4112, 48)] ∧ 0 < 2 ^ 64 - 8 ∧
    ∃ q h', REALLOC 5000 4112 (2 ^ 64 - 8) exE = some (q, h') ∧
      0 < min 48 (2 ^ 64 - 8) ∧ h'.mem (q + 0) ≠ exE.mem (4112 + 0) := by
  refine ⟨exE_reachable, by decide, _, _,
    run_eq (REALLOC 5000 4112 (2 ^ 64 - 8) exE) (by decide!), by decide, by decide!⟩

/-- C10, evaluated at a failing input: in the reachable state `exJ` the first block
is free, 32 bytes long, and still holds `0xFF` at payload offset 8;
`CALLOC(2, 8)` reuses it and returns `p` with `p[8] = 0xFF`, because `memset`
is given `size` (8) instead of `nmemb * size` (16). -/
theorem C10_calloc_stale_byte :
    Reachable exJ [(4144, 8)] ∧ 2 * 8 < 2 ^ 64 ∧
    ∃ p h', CALLOC 5000 2 8 exJ = some (p, h') ∧ 8 < 2 * 8 ∧ h'.mem (p + 8) = 255 := by
  refine ⟨exJ_reachable, by decide, _, _,
    run_eq (CALLOC 5000 2 8 exJ) (by decide!), by decide, by decide!⟩

theorem exK_reachable : Reachable exK [(4128, 8), (4112, 0)] := by
  have e := run_eq (MALLOC 5000 8 exZ) (by decide!)
  have hp : ptr_of (MALLOC 5000 8 exZ) = 4128 := by decide!
  rw [hp] at e
  exact Reachable.malloc exZ _ 5000 8 4128 exK exZ_reachable (by decide!) (by decide!) e

theorem exL_reachable : Reachable exL [(4128, 8), (4112, 0)] :=
  Reachable.write exK _ 4128 8 0 170 exK_reachable (by simp) (by decide)

theorem exM_reachable : Reachable exM [(4128, 8)] := by
  have e := run_free_eq (FREE 5000 4112 exL) (by decide!)
  exact Reachable.free exL _ 5000 4112 0 exM exL_reachable (by decide!) (by simp) e

/-- `CALLOC` of at least one element from a state that satisfies the invariant:
the bytes requested by the live allocations are kept and the first `w` bytes
of the new allocation are zero. -/
theorem CALLOC_frame (h : Heap) (L : List (Nat × Nat)) (bs : List Blk) (fuel n w : Nat)
    (inv : Inv h L bs) (hf : h.brk ≤ fuel) (hn : 0 < n)
    (hroom : h.brk + n * w + 24 ≤ 2 ^ 63) :
    ∃ q h', CALLOC fuel n w h = some (q, h') ∧
      (∀ r ∈ L, ∀ i, i < r.2 → h'.mem (r.1 + i) = h.mem (r.1 + i)) ∧
      ∀ i, i < w → h'.mem (q + i) = 0 := by
  obtain ⟨h1, a1, a2, a3, a4⟩ := MALLOC_inv h L bs fuel (n * w) inv hf hroom
  have hw : w ≤ n * w := Nat.le_mul_of_pos_left w hn
  have hmod : n * w % 2 ^ 64 = n * w := Nat.mod_eq_of_lt (by omega)
  refine ⟨h.first_block + allocOff (footprint (n * w)) bs + 16,
    { h1 with mem := memset h1.mem (h.first_block + allocOff (footprint (n * w)) bs + 16) 0 w },
    ?_, ?_, ?_⟩
  · unfold CALLOC
    rw [hmod, a1]
    dsimp only
    rw [if_neg (by omega)]
  · intro r hr i hi
    dsimp only
    obtain ⟨q1, bq, q2, q3, q4⟩ := a2.live _ (List.mem_cons_self _ _)
    obtain ⟨r1, br, r2, r3, r4⟩ := a2.live r (List.mem_cons_of_mem _ hr)
    dsimp only at q1 q2 q4
    have hne : r.1 ≠ h.first_block + allocOff (footprint (n * w)) bs + 16 := by
      intro hc
      have nd := a2.nodup
      rw [List.map_cons, List.nodup_cons] at nd
      apply nd.1
      dsimp only
      rw [← hc]
      exact List.mem_map_of_mem Prod.fst hr
    have hout : r.1 + i < h.first_block + allocOff (footprint (n * w)) bs + 16 ∨
        h.first_block + allocOff (footprint (n * w)) bs + 16 + w ≤ r.1 + i := by
      rcases layout_disjoint _ a2.repr.valid _ _ _ q2 r2 with d | d | d
      · have := congrArg Prod.fst d
        dsimp only at this
        omega
      · dsimp only at d
        omega
      · dsimp only at d
        omega
    have e1 : memset h1.mem (h.first_block + allocOff (footprint (n * w)) bs + 16) 0 w
        (r.1 + i) = h1.mem (r.1 + i) := by
      unfold memset
      rw [if_neg (by omega)]
    rw [e1]
    exact a4 _ (LiveOK_own _ _ _ inv.live r hr i hi)
  · intro i hi
    dsimp only
    unfold memset
    rw [if_pos (by omega)]

/-- C9, as stated, fails, in two ways.  In the reachable state `exM` the live
allocation at `4128` (requested size 8) holds `0xAA` in its first byte and
the 16-byte block before it is free; `CALLOC(0, 24)` obtains that block, whose
payload is empty, and zeroes 24 bytes from its pointer on, through the header
and the payload of the live allocation.  In the reachable state `exF` the
live allocation at `4112` holds `0xAA` in its first byte; `MALLOC` of
`2 ^ 64 - 24` bytes lowers the break and installs the sentinel inside that
payload.  Neither call received the live pointer. -/
theorem C9_counterexample :
    (Reachable exM [(4128, 8)] ∧
      ∃ q h', CALLOC 5000 0 24 exM = some (q, h') ∧
        h'.mem (4128 + 0) ≠ exM.mem (4128 + 0)) ∧
    (Reachable exF [(4112, 8)] ∧
      ∃ q h', MALLOC 5000 (2 ^ 64 - 24) exF = some (q, h') ∧
        h'.mem (4112 + 0) ≠ exF.mem (4112 + 0)) := by
  refine ⟨⟨exM_reachable, _, _, run_eq (CALLOC 5000 0 24 exM) (by decide!), by decide!⟩,
    ⟨exF_reachable, _, _, run_eq (MALLOC 5000 (2 ^ 64 - 24) exF) (by decide!), by decide!⟩⟩

theorem coalesce_of_noAdjFree (bs : List Blk) (h : NoAdjFree bs) : coalesce bs = bs := by
  induction bs with
  | nil => rfl
  | cons b bs ih =>
    have ht : NoAdjFree bs := List.Chain'.tail h
    rw [coalesce, ih ht]
    cases bs with
    | nil => rfl
    | cons c cs =>
      have hrel : ¬ (b.used = 0 ∧ c.used = 0) := (List.chain'_cons.mp h).1
      simp only [if_neg hrel]

theorem releaseLast_of_lastUsed (bs : List Blk) (h : LastUsed bs) : releaseLast bs = bs := by
  induction bs with
  | nil => rfl
  | cons b bs ih =>
    cases bs with
    | nil =>
      have hb : b.used ≠ 0 := h b (by simp)
      simp [releaseLast, hb]
    | cons c cs =>
      have hl : LastUsed (c :: cs) := by
        intro l hl
        apply h l
        simpa [List.getLast?_cons_cons] using hl
      rw [releaseLast, ih hl]

theorem splitBlk_same (b : Blk) (sz : Nat) (h : b.size ≤ sz ∨ b.size - sz < 40) :
    splitBlk b sz = [b] := by
  unfold splitBlk
  rcases h with h | h
  · rw [if_pos h]
  · by_cases h1 : sz ≥ b.size
    · rw [if_pos h1]
    · rw [if_neg h1, if_pos h]

/-- C11: on a freshly initialised heap (the chain is the sentinel alone at
`first_block`, the break is `first_block + 16`) and for a request `s` that
does not wrap (`brk + s + 24 ≤ 2 ^ 63`), `MALLOC(s)` returns `first_block + 16`
and leaves one used block of `need = round_up(s + 16, 8)` bytes with the break at
`first_block + need + 16`; `FREE` of that pointer then gives back the heap whose
chain is the sentinel alone at `first_block` with the break at
`first_block + 16`. -/
theorem C11_alloc_release_fresh (h : Heap) (s fuel : Nat) (hr : Repr h [])
    (hs : h.brk + s + 24 ≤ 2 ^ 63) (hf : 2 ≤ fuel) :
    h.brk = h.first_block + 16 ∧ footprint s = round_up (s + 16) 8 ∧
    ∃ h1 h2, MALLOC fuel s h = some (h.first_block + 16, h1) ∧
      Repr h1 [⟨footprint s, 1⟩] ∧ h1.brk = h.first_block + footprint s + 16 ∧
      h1.first_block = h.first_block ∧
      FREE fuel (h.first_block + 16) h1 = some h2 ∧
      Repr h2 [] ∧ h2.brk = h.first_block + 16 ∧ h2.first_block = h.first_block := by
  have hb := hr.brk_eq
  simp only [total, Nat.add_zero] at hb
  obtain ⟨f1, f2, f3⟩ := footprint_spec s (by omega)
  obtain ⟨h1, a1, a2, a3, a4, _⟩ := MALLOC_grow h [] s fuel hr (by omega) (by omega)
    (by intro b hb; simp at hb) (by simp; omega)
  simp only [total, Nat.add_zero, List.nil_append] at a1 a2
  have a2' : Repr h1 ([] ++ (⟨footprint s, 1⟩ : Blk) :: []) := a2
  obtain ⟨h2, b1, b2, b3, _⟩ := FREE_repr h1 [] [] ⟨footprint s, 1⟩ fuel a2' (by omega) rfl
    (by simp; omega)
  simp only [total, Nat.add_zero, List.nil_append, a4] at b1
  have hnil : releaseLast (coalesce ([] ++ (⟨footprint s, 0⟩ : Blk) :: [])) = [] := by
    simp [coalesce, releaseLast]
  rw [hnil] at b2
  have hb2 := b2.brk_eq
  simp only [total, Nat.add_zero] at hb2
  refine ⟨hb, ?_, h1, h2, a1, a2, by omega, a4, b1, b2, by rw [hb2, b3, a4], by rw [b3, a4]⟩
  unfold footprint sizeof_BlockHeader ALIGN_BYTES
  rw [Nat.mod_eq_of_lt (by omega)]

/-- Witness for C11: `s = 100` on the fresh heap `ex0` based at `4096`; the block
is 120 bytes long. -/
theorem C11_alloc_release_fresh_witness :
    footprint 100 = 120 ∧ ex0.brk = ex0.first_block + 16 ∧
    footprint 100 = round_up (100 + 16) 8 ∧
    ∃ h1 h2, MALLOC 5000 100 ex0 = some (ex0.first_block + 16, h1) ∧
      Repr h1 [⟨footprint 100, 1⟩] ∧ h1.brk = ex0.first_block + footprint 100 + 16 ∧
      h1.first_block = ex0.first_block ∧
      FREE 5000 (ex0.first_block + 16) h1 = some h2 ∧
      Repr h2 [] ∧ h2.brk = ex0.first_block + 16 ∧ h2.first_block = ex0.first_block :=
  ⟨by decide, C11_alloc_release_fresh ex0 100 5000
    (heap_init_fresh_repr ⟨fun _ => 0, 4096, 0⟩ rfl (by decide)) (by decide!) (by decide)⟩

/-- C12: in a reachable state whose chain is `pre ++ blk :: suf`, where `blk` is the
first free block that fits the footprint of `s` and is too small to be split
(so `MALLOC(s)` neither splits nor grows the heap), `MALLOC(s)` followed by `FREE`
of the returned pointer gives a heap with the same chain (same walk from
`first_block`: addresses, sizes and flags), the same base and the same break. -/
theorem C12_alloc_release_nosplit (h : Heap) (L : List (Nat × Nat)) (pre suf : List Blk)
    (blk : Blk) (s fuel : Nat) (hr : Reachable h L) (hrep : Repr h (pre ++ blk :: suf))
    (hpre : ∀ b ∈ pre, ¬ (b.used = 0 ∧ footprint s ≤ b.size))
    (hfree : blk.used = 0) (hfit : footprint s ≤ blk.size)
    (hns : blk.size - footprint s < 40)
    (hs : h.brk + s + 24 ≤ 2 ^ 63) (hf : h.brk ≤ fuel) :
    ∃ p h1 h2, MALLOC fuel s h = some (p, h1) ∧ FREE fuel p h1 = some h2 ∧
      Repr h2 (pre ++ blk :: suf) ∧ h2.brk = h.brk ∧ h2.first_block = h.first_block ∧
      chain_walk fuel h2.mem h2.first_block = chain_walk fuel h.mem h.first_block := by
  obtain ⟨bs, inv⟩ := reachable_inv h L hr
  have hbs := Repr_unique h bs _ inv.repr hrep inv.bound
  have hna : NoAdjFree (pre ++ blk :: suf) := hbs ▸ inv.noadj
  have hlu : LastUsed (pre ++ blk :: suf) := hbs ▸ inv.last
  have hfuel := Repr_fuel_ok h _ hrep fuel hf
  obtain ⟨h1, a1, a2, a3, a4, _⟩ := MALLOC_fit h pre suf blk s fuel hrep inv.bound (by omega)
    hpre hfree hfit (by simp at hfuel; omega)
  rw [splitBlk_same ⟨blk.size, 1⟩ (footprint s) (Or.inr hns)] at a2
  have a2' : Repr h1 (pre ++ (⟨blk.size, 1⟩ : Blk) :: suf) := by simpa using a2
  obtain ⟨h2, b1, b2, b3, _⟩ := FREE_repr h1 pre suf ⟨blk.size, 1⟩ fuel a2'
    (by rw [a3]; exact inv.bound) rfl (by simp at hfuel ⊢; omega)
  have hblk : (⟨blk.size, 0⟩ : Blk) = blk := by
    cases blk
    simp only at hfree
    simp [hfree]
  dsimp only at b2
  rw [hblk, coalesce_of_noAdjFree _ hna, releaseLast_of_lastUsed _ hlu] at b2
  rw [a4] at b1
  have hbrk : h2.brk = h.brk := by
    rw [b2.brk_eq, hrep.brk_eq, b3, a4]
  refine ⟨_, h1, h2, a1, b1, b2, hbrk, by rw [b3, a4], ?_⟩
  rw [Repr_walk h2 _ b2 (by rw [hbrk]; exact inv.bound) fuel (by omega),
    Repr_walk h _ hrep inv.bound fuel (by omega)]

theorem exC_repr : Repr exC ([] ++ (⟨120, 0⟩ : Blk) :: [⟨24, 1⟩]) :=
  (Reachable_repr_of_walk exC _ exC_reachable 5000 (by decide!) _ (by decide!)).repr

/-- Witness for C12: in `exC` (a free block of 120 bytes, then a used block)
`MALLOC(96)` needs 112 bytes and takes the free block whole. -/
theorem C12_alloc_release_nosplit_witness :
    ∃ p h1 h2, MALLOC 5000 96 exC = some (p, h1) ∧ FREE 5000 p h1 = some h2 ∧
      Repr h2 ([] ++ (⟨120, 0⟩ : Blk) :: [⟨24, 1⟩]) ∧ h2.brk = exC.brk ∧
      h2.first_block = exC.first_block ∧
      chain_walk 5000 h2.mem h2.first_block = chain_walk 5000 exC.mem exC.first_block :=
  C12_alloc_release_nosplit exC _ [] [⟨24, 1⟩] ⟨120, 0⟩ 96 5000 exC_reachable exC_repr
    (by simp) rfl (by decide) (by decide) (by decide!) (by decide!)

theorem exZ_repr : Repr exZ [⟨16, 1⟩] :=
  (Reachable_repr_of_walk exZ _ exZ_reachable 5000 (by decide!) _ (by decide!)).repr

/-- C13, as stated, fails: in the reachable state `exZ` the only block, handed out
by `MALLOC(0)`, is live and 16 bytes long; `REALLOC` of its pointer `4112` with the
current payload size `16 - 16 = 0` takes the `sz == 0` branch, frees the block,
lowers the break and returns `NULL`. -/
theorem C13_counterexample :
    Reachable exZ [(4112, 0)] ∧ Repr exZ [⟨16, 1⟩] ∧ exZ.first_block + 16 = 4112 ∧
    get_size exZ.mem (4112 - 16) - 16 = 0 ∧
    ∃ q h', REALLOC 5000 4112 0 exZ = some (q, h') ∧ q ≠ 4112 ∧
      h'.brk ≠ exZ.brk ∧ Repr h' [] := by
  have e := run_eq (REALLOC 5000 4112 0 exZ) (by decide!)
  have hr : Reachable (after (REALLOC 5000 4112 0 exZ)) [] :=
    Reachable.realloc_zero exZ _ 5000 4112 0 _ _ exZ_reachable (by decide!) (by simp) e
  have hrep : Repr (after (REALLOC 5000 4112 0 exZ)) [] :=
    (Reachable_repr_of_walk _ _ hr 5000 (by decide!) _ (by decide!)).repr
  have h1 : ptr_of (REALLOC 5000 4112 0 exZ) ≠ 4112 := by decide!
  have h2 : (after (REALLOC 5000 4112 0 exZ)).brk ≠ exZ.brk := by decide!
  exact ⟨exZ_reachable, exZ_repr, by decide!, by decide!, _, _, e, h1, h2, hrep⟩

/-- `REALLOC` of a block to its current payload size, on a state that satisfies
the invariant: nothing changes in the chain. -/
theorem REALLOC_same_size_repr (h : Heap) (L : List (Nat × Nat)) (pre suf : List Blk)
    (blk : Blk) (fuel : Nat) (inv : Inv h L (pre ++ blk :: suf))
    (hsz : 16 < blk.size) (hf : h.brk ≤ fuel) :
    ∃ h', REALLOC fuel (h.first_block + total pre + 16) (blk.size - 16) h =
        some (h.first_block + total pre + 16, h') ∧
      Repr h' (pre ++ blk :: suf) ∧ h'.brk = h.brk ∧ h'.first_block = h.first_block ∧
      chain_walk fuel h'.mem h'.first_block = some (pre ++ blk :: suf) ∧
      chain_walk fuel h.mem h.first_block = some (pre ++ blk :: suf) := by
  have hrep := inv.repr
  have hfuel := Repr_fuel_ok h _ hrep fuel hf
  have hv := hrep.valid blk (by simp)
  have hlt := Repr_sizes_lt h _ hrep inv.bound blk (by simp)
  have hb := inv.bound
  obtain ⟨f1, f2, f3⟩ := footprint_spec (blk.size - 16) (by omega)
  have hfp : footprint (blk.size - 16) = blk.size := by omega
  obtain ⟨h', a1, a2, a3, _⟩ := REALLOC_shrink_repr h pre suf blk (blk.size - 16) fuel hrep
    inv.bound (by omega) (by omega) (by omega) hfuel
  rw [hfp, splitBlk_same blk blk.size (Or.inl (le_refl _))] at a2
  have e : pre ++ [blk] ++ suf = pre ++ blk :: suf := by simp
  rw [e, coalesce_of_noAdjFree _ inv.noadj, releaseLast_of_lastUsed _ inv.last] at a2
  have hbrk : h'.brk = h.brk := by
    rw [a2.brk_eq, hrep.brk_eq, a3]
  exact ⟨h', a1, a2, hbrk, a3,
    Repr_walk h' _ a2 (by rw [hbrk]; exact inv.bound) fuel (by omega),
    Repr_walk h _ hrep inv.bound fuel (by omega)⟩

theorem round_up_lt (n : Nat) (h : n < 2 ^ 64) : round_up n ALIGN_BYTES < 2 ^ 64 := by
  unfold round_up ALIGN_BYTES
  simp only
  split
  · exact h
  · exact Nat.mod_lt _ (by norm_num)

theorem ex1_repr : Repr ex1 [⟨24, 1⟩] :=
  (Reachable_repr_of_walk ex1 _ ex1_reachable 5000 (by decide!) _ (by decide!)).repr

/-- C14, as stated, fails: the freshly initialised heap `ex0` is well formed and
has no block at all, hence no free block of any size; for `s = 2 ^ 64 - 24` the
footprint is `need = 2 ^ 64 - 8`, yet `MALLOC(s)` lowers the break instead of
raising it by `need`, and the header at the old sentinel does not hold `need`
afterwards: `sbrk` is given `need - 16`, which is negative as an `intptr_t`. -/
theorem C14_counterexample :
    WellFormed ex0 ∧ Repr ex0 [] ∧ footprint (2 ^ 64 - 24) = 2 ^ 64 - 8 ∧
    ∃ p h', MALLOC 5000 (2 ^ 64 - 24) ex0 = some (p, h') ∧ h'.brk < ex0.brk ∧
      get_size h'.mem (ex0.brk - 16) ≠ footprint (2 ^ 64 - 24) := by
  refine ⟨Reachable_wellFormed _ _ ex0_reachable,
    heap_init_fresh_repr ⟨fun _ => 0, 4096, 0⟩ rfl (by decide), by decide, _, _,
    run_eq (MALLOC 5000 (2 ^ 64 - 24) ex0) (by decide!), by decide!, by decide!⟩

/-- C14 (amended): in a well-formed heap with chain `bs` (sentinel at
`first_block + total bs = brk - 16`), for a request `s ≤ 2 ^ 63 - 8` with
`need = round_up(s + 16, 8)`, if no free block has `size ≥ need` then `MALLOC(s)`
returns `old_sentinel + 16`, the header at the old sentinel becomes a used block
of size exactly `need`, no byte below the old sentinel changes (every earlier
block is unchanged), the break rises by exactly `need`, and the new sentinel
(`size = 0`, `is_used = 1`) sits at `old_sentinel + need`. -/
theorem C14_heap_growth (h : Heap) (bs : List Blk) (s fuel : Nat)
    (hr : Repr h bs) (hb : h.brk < 2 ^ 63) (hs : s ≤ 2 ^ 63 - 8)
    (hno : ∀ b ∈ bs, ¬ (b.used = 0 ∧ footprint s ≤ b.size)) (hf : h.brk ≤ fuel) :
    footprint s = round_up (s + 16) 8 ∧ h.brk - 16 = h.first_block + total bs ∧
    ∃ h', MALLOC fuel s h = some (h.brk - 16 + 16, h') ∧
      get_size h'.mem (h.brk - 16) = footprint s ∧
      get_is_used h'.mem (h.brk - 16) = 1 ∧
      (∀ x, x < h.brk - 16 → h'.mem x = h.mem x) ∧
      Seg h'.mem h.first_block bs ∧
      h'.brk = h.brk + footprint s ∧
      h'.brk = h.brk + (footprint s - 16) + 16 ∧
      IsSentinel h'.mem (h.brk - 16 + footprint s) ∧
      h'.first_block = h.first_block ∧
      Repr h' (bs ++ [⟨footprint s, 1⟩]) := by
  have hbrk := hr.brk_eq
  have hfuel := Repr_fuel_ok h bs hr fuel hf
  obtain ⟨f1, f2, f3⟩ := footprint_spec s (by omega)
  obtain ⟨h', a1, a2, a3, a4, a5⟩ := MALLOC_grow h bs s fuel hr hb hs hno (by omega)
  have e : h.brk - 16 = h.first_block + total bs := by omega
  have hseg := a2.seg
  rw [a4, Seg_append_iff, Seg_cons_iff] at hseg
  obtain ⟨g1, g2, g3, _⟩ := hseg
  have hsent := a2.sent
  rw [a4, total_append] at hsent
  simp only [total, Nat.add_zero] at hsent
  refine ⟨?_, e, h', ?_, ?_, ?_, ?_, g1, a3, by omega, ?_, a4, a2⟩
  · unfold footprint sizeof_BlockHeader ALIGN_BYTES
    rw [Nat.mod_eq_of_lt (by omega)]
  · rw [e]; exact a1
  · rw [e]; exact g2
  · rw [e]; exact g3
  · intro x hx
    exact a5 x (Or.inl (by omega)) (Or.inl (by omega))
  · rw [e, Nat.add_assoc]; exact hsent

/-- Witness for C14 (amended): `MALLOC(100)` on `ex1`, whose only block is used. -/
theorem C14_heap_growth_witness :
    footprint 100 = round_up (100 + 16) 8 ∧ ex1.brk - 16 = ex1.first_block + total [⟨24, 1⟩] ∧
    ∃ h', MALLOC 5000 100 ex1 = some (ex1.brk - 16 + 16, h') ∧
      get_size h'.mem (ex1.brk - 16) = footprint 100 ∧
      get_is_used h'.mem (ex1.brk - 16) = 1 ∧
      (∀ x, x < ex1.brk - 16 → h'.mem x = ex1.mem x) ∧
      Seg h'.mem ex1.first_block [⟨24, 1⟩] ∧
      h'.brk = ex1.brk + footprint 100 ∧
      h'.brk = ex1.brk + (footprint 100 - 16) + 16 ∧
      IsSentinel h'.mem (ex1.brk - 16 + footprint 100) ∧
      h'.first_block = ex1.first_block ∧
      Repr h' ([⟨24, 1⟩] ++ [⟨footprint 100, 1⟩]) :=
  C14_heap_growth ex1 [⟨24, 1⟩] 100 5000 ex1_repr (by decide!) (by decide) (by simp)
    (by decide!)

/-- C15, as stated, fails for the target `need = 0`, which `MALLOC` reaches with the
request `2 ^ 64 - 16`: on a block of size 200 the split is performed (leftover
`200 ≥ 40`), but the header at `B + need = B` ends with size `0`, not with
`round_up(leftover, 8) = 200`: the last write `b->size = sz` lands on the header
just set up, and the two blocks do not tile the original one. -/
theorem C15_counterexample :
    get_size exS 4096 = 200 ∧ footprint (2 ^ 64 - 16) = 0 ∧ ¬ (0 ≥ 200) ∧ ¬ (200 - 0 < 40) ∧
    get_size (try_split exS 4096 0) (4096 + 0) ≠ round_up (200 - 0) 8 ∧
    get_size (try_split exS 4096 0) 4096 + get_size (try_split exS 4096 0) (4096 + 0) ≠ 200 := by
  refine ⟨by decide!, by decide, by decide, by decide, by decide!, by decide!⟩

/-- C15 (amended): for a block header at `b` of size `old` and a target `need`,
`try_split` changes nothing when `need ≥ old` or `old - need < 40`; otherwise,
provided `8 ≤ need < 2 ^ 63`, it sets the size at `b` to `need` and leaves at
`b + need` a free header of size `round_up(old - need, 8)`; this is `old - need`
when `old` and `need` are multiples of 8, so that the two sizes add up to
`old`; the used flag of `b` is kept when `need ≥ 16`, and no byte outside the
two headers changes. -/
theorem C15_split_policy (m : Mem) (b need old : Nat) (hold : get_size m b = old) :
    (need ≥ old ∨ old - need < 40 → try_split m b need = m) ∧
    (need < old → 40 ≤ old - need → 8 ≤ need → need < 2 ^ 63 →
      get_size (try_split m b need) b = need ∧
      get_size (try_split m b need) (b + need) = round_up (old - need) 8 ∧
      get_is_used (try_split m b need) (b + need) = 0 ∧
      (old % 8 = 0 → need % 8 = 0 → round_up (old - need) 8 = old - need ∧
        need + round_up (old - need) 8 = old) ∧
      (16 ≤ need → get_is_used (try_split m b need) b = get_is_used m b) ∧
      ∀ x, (x < b ∨ b + 8 ≤ x) → (x < b + need ∨ b + need + 12 ≤ x) →
        try_split m b need x = m x) := by
  subst hold
  have hlt := get_size_lt m b
  refine ⟨fun h => try_split_noop m b need (by omega), ?_⟩
  intro h1 h2 h3 h4
  have hR := round_up_lt (get_size m b - need) (by omega)
  rw [try_split_eq m b need h1 h2 h4]
  refine ⟨?_, ?_, ?_, ?_, ?_, ?_⟩
  · rw [get_size_set_size, Nat.mod_eq_of_lt (by omega)]
  · rw [get_size_set_size_other _ _ _ _ (by omega),
      get_size_set_is_used _ _ _ _ (Or.inl (le_refl _)), get_size_set_size,
      Nat.mod_eq_of_lt hR]
    rfl
  · rw [get_is_used_set_size _ _ _ _ (by omega), get_is_used_set_is_used]
    rfl
  · intro h5 h6
    have e : round_up (get_size m b - need) 8 = get_size m b - need :=
      round_up_of_aligned _ (by omega)
    rw [e]
    exact ⟨rfl, by omega⟩
  · intro h5
    rw [get_is_used_set_size _ _ _ _ (Or.inr (le_refl b)),
      get_is_used_set_is_used_other _ _ _ _ (by omega),
      get_is_used_set_size _ _ _ _ (by omega)]
  · intro x hx1 hx2
    rw [set_size_outside _ _ _ _ hx1, set_is_used_outside _ _ _ _ (by omega),
      set_size_outside _ _ _ _ (by omega)]

/-- Witness for C15 (amended) on the block of size 200 of `exS`: targets 176 and
161 (leftover 24 and 39) do not split, target 160 (leftover exactly 40) and
target 32 split into `[0, 160)`, `[160, 200)` and `[0, 32)`, `[32, 200)`. -/
theorem C15_split_policy_witness :
    try_split exS 4096 176 = exS ∧ try_split exS 4096 161 = exS ∧
    (get_size (try_split exS 4096 160) 4096 = 160 ∧
      get_size (try_split exS 4096 160) (4096 + 160) = round_up (200 - 160) 8 ∧
      get_is_used (try_split exS 4096 160) (4096 + 160) = 0) ∧
    (get_size (try_split exS 4096 32) 4096 = 32 ∧
      get_size (try_split exS 4096 32) (4096 + 32) = round_up (200 - 32) 8 ∧
      get_is_used (try_split exS 4096 32) (4096 + 32) = 0 ∧
      round_up (200 - 32) 8 = 200 - 32 ∧ 32 + round_up (200 - 32) 8 = 200 ∧
      get_is_used (try_split exS 4096 32) 4096 = get_is_used exS 4096) :=
  ⟨(C15_split_policy exS 4096 176 200 (by decide!)).1 (Or.inr (by decide)),
   (C15_split_policy exS 4096 161 200 (by decide!)).1 (Or.inr (by decide)),
   (fun r => ⟨r.1, r.2.1, r.2.2.1⟩)
     ((C15_split_policy exS 4096 160 200 (by decide!)).2 (by decide) (by decide) (by decide)
       (by decide)),
   (fun r => ⟨r.1, r.2.1, r.2.2.1, (r.2.2.2.1 (by decide) (by decide)).1,
       (r.2.2.2.1 (by decide) (by decide)).2, r.2.2.2.2.1 (by decide)⟩)
     ((C15_split_policy exS 4096 32 200 (by decide!)).2 (by decide) (by decide) (by decide)
       (by decide))⟩

theorem chain_walk_sound (m : Mem) : ∀ (fuel a : Nat) (bs : List Blk),
    chain_walk fuel m a = some bs → (∀ b ∈ bs, b.size < 2 ^ 63) →
    Seg m a bs ∧ get_size m (a + total bs) = 0 := by
  intro fuel
  induction fuel with
  | zero =>
    intro a bs h _
    have e : chain_walk 0 m a = none := rfl
    rw [e] at h
    exact absurd h (by simp)
  | succ k ih =>
    intro a bs h hlt
    rw [chain_walk_succ] at h
    by_cases hz : get_size m a ≠ 0
    · rw [if_pos hz] at h
      cases hc : chain_walk k m (offset_ptr a (toSigned (get_size m a))) with
      | none => rw [hc] at h; exact absurd h (by simp)
      | some bs' =>
        rw [hc] at h
        have hbs : (⟨get_size m a, get_is_used m a⟩ : Blk) :: bs' = bs := Option.some.inj h
        subst hbs
        have h1 : get_size m a < 2 ^ 63 := hlt _ (List.mem_cons_self _ _)
        rw [offset_ptr_toSigned _ _ h1] at hc
        obtain ⟨i1, i2⟩ := ih _ bs' hc (fun b hb => hlt b (List.mem_cons_of_mem _ hb))
        rw [Seg_cons_iff]
        refine ⟨⟨rfl, rfl, i1⟩, ?_⟩
        simp only [total]
        rw [← Nat.add_assoc]
        exact i2
    · rw [if_neg hz] at h
      have hbs : [] = bs := Option.some.inj h
      subst hbs
      refine ⟨Seg_nil _ _, ?_⟩
      simp only [total, Nat.add_zero]
      omega

/-- A state whose walk reads a chain of valid blocks that ends at a used
header right below the break is represented by that chain. -/
theorem Repr_of_walk (h : Heap) (bs : List Blk) (fuel : Nat)
    (hw : chain_walk fuel h.mem h.first_block = some bs) (hv : Valid bs)
    (hlt : ∀ b ∈ bs, b.size < 2 ^ 63) (h1 : h.first_block ≠ 0) (h2 : h.first_block % 8 = 0)
    (h3 : get_is_used h.mem (h.first_block + total bs) = 1)
    (h4 : h.brk = h.first_block + total bs + 16) : Repr h bs := by
  obtain ⟨s1, s2⟩ := chain_walk_sound h.mem fuel h.first_block bs hw hlt
  exact ⟨h1, h2, s1, ⟨s2, h3⟩, h4, hv⟩

theorem coalesce_merge_free (r b : Blk) (bs : List Blk) (hr : r.used = 0) (hb : b.used = 0) :
    coalesce (r :: b :: bs) = coalesce (⟨r.size + b.size, 0⟩ :: bs) := by
  rw [coalesce, coalesce, coalesce]
  cases coalesce bs with
  | nil => simp [hr, hb]
  | cons c cs =>
    by_cases hc : c.used = 0
    · simp [hr, hb, hc, Nat.add_assoc]
    · simp [hr, hb, hc]

theorem coalesce_eq_mergeRunsAux (bs : List Blk) :
    mergeRunsAux none bs = coalesce bs ∧
    ∀ r : Blk, r.used = 0 → mergeRunsAux (some r) bs = coalesce (r :: bs) := by
  induction bs with
  | nil =>
    refine ⟨rfl, fun r _ => ?_⟩
    simp [mergeRunsAux, coalesce]
  | cons b bs ih =>
    obtain ⟨ih1, ih2⟩ := ih
    by_cases hb : b.used = 0
    · have eb : (⟨b.size, 0⟩ : Blk) = b := by
        cases b
        simp only at hb
        simp [hb]
      refine ⟨?_, fun r hr => ?_⟩
      · rw [mergeRunsAux, if_pos hb, ih2 _ rfl, eb]
      · rw [mergeRunsAux, if_pos hb, ih2 _ rfl, coalesce_merge_free r b bs hr hb]
    · refine ⟨?_, fun r hr => ?_⟩
      · rw [mergeRunsAux, if_neg hb, ih1, coalesce_cons_used b bs hb]
      · rw [mergeRunsAux, if_neg hb, ih1, coalesce, coalesce_cons_used b bs hb]
        simp [hb]

/-- The list view of `try_merge_all` is the coalescing of the specification. -/
theorem coalesce_eq_mergeRuns (bs : List Blk) : coalesce bs = mergeRuns bs :=
  (coalesce_eq_mergeRunsAux bs).1.symm

/-- The loop of `try_merge_all` writes `size` fields only. -/
theorem try_merge_all_loop_sizes (inner : Nat) : ∀ (n : Nat) (bs : List Blk), bs.length ≤ n →
    ∀ (m : Mem) (a fuel : Nat) (m' : Mem), Seg m a bs → IsSentinel m (a + total bs) →
    Valid bs → a + total bs < 2 ^ 63 → bs.length < fuel → bs.length < inner →
    try_merge_all_loop inner fuel m a = some m' →
      ∀ x, ¬ SizeByte a bs x → m' x = m x := by
  intro n
  induction n with
  | zero =>
    intro bs hn m a fuel m' _ hsent _ _ hfuel _ hloop
    have hbs : bs = [] := List.length_eq_zero.mp (by omega)
    subst hbs
    obtain ⟨k, rfl⟩ : ∃ k, fuel = k + 1 := ⟨fuel - 1, by simp at hfuel; omega⟩
    simp only [total, Nat.add_zero] at hsent
    rw [try_merge_all_loop_succ, hsent.1] at hloop
    simp only [ne_eq, not_true_eq_false, if_false] at hloop
    have e : m = m' := Option.some.inj hloop
    subst e
    exact fun _ _ => rfl
  | succ n ih =>
    intro bs hn m a fuel m' hseg hsent hv hb hfuel hinner hloop
    obtain ⟨k, rfl⟩ : ∃ k, fuel = k + 1 := ⟨fuel - 1, by omega⟩
    cases bs with
    | nil =>
      simp only [total, Nat.add_zero] at hsent
      rw [try_merge_all_loop_succ, hsent.1] at hloop
      simp only [ne_eq, not_true_eq_false, if_false] at hloop
      have e : m = m' := Option.some.inj hloop
      subst e
      exact fun _ _ => rfl
    | cons b rest =>
      rw [Seg_cons_iff] at hseg
      obtain ⟨g1, g2, g3⟩ := hseg
      rw [Valid_cons_iff] at hv
      obtain ⟨⟨v1, v2, v3⟩, hvr⟩ := hv
      simp only [total] at hsent hb
      simp only [List.length_cons] at hn hfuel hinner
      by_cases hu : b.used = 0
      · obtain ⟨fs, rest', e1, e2, e3⟩ := free_run_split rest
        subst e1
        rw [Seg_append_iff] at g3
        rw [Valid_append_iff] at hvr
        rw [total_append] at hsent hb
        simp only [List.length_append] at hn hfuel hinner
        have hflag : get_is_used m (a + b.size + total fs) = 1 := by
          rcases e3 with e3 | ⟨u, r, e3, hu1⟩
          · subst e3
            simp only [total, Nat.add_zero] at hsent
            rw [← hsent.2]; congr 1; omega
          · subst e3
            have := g3.2
            rw [Seg_cons_iff] at this
            rw [this.2.1]
            have := (hvr.2 u (by simp)).2.2
            omega
        obtain ⟨m1, f1, f2, f3⟩ := try_merge_spec a fs m b.size inner g1 (by omega) g3.1
          (fun f hf => by rw [e2 f hf]; decide) hflag (by omega) (by omega)
        have hseg1 : Seg m1 (a + (b.size + total fs)) rest' := by
          rw [← Nat.add_assoc]
          exact Seg_frame_above _ _ _ _ (fun x hx => f3 x (by omega)) g3.2
        have hsent1 : IsSentinel m1 (a + (b.size + total fs) + total rest') := by
          apply IsSentinel_congr m m1 _ (fun x hx1 _ => f3 x (by omega))
          have : a + (b.size + total fs) + total rest' = a + (b.size + (total fs + total rest')) := by
            omega
          rw [this]; exact hsent
        rw [try_merge_all_loop_succ, g1, if_pos (by omega), g2] at hloop
        simp only [BLOCK_FREE, hu, if_true, f1] at hloop
        rw [f2, offset_ptr_toSigned _ _ (by omega)] at hloop
        have i3 := ih rest' (by omega) m1 (a + (b.size + total fs)) k m' hseg1 hsent1
          hvr.2 (by omega) (by omega) (by omega) hloop
        have hlay : ∀ e ∈ layout (a + (b.size + total fs)) rest',
            e ∈ layout a (b :: (fs ++ rest')) := by
          intro e he
          simp only [layout, layout_append, List.mem_cons, List.mem_append]
          right; right
          have : a + b.size + total fs = a + (b.size + total fs) := by omega
          rw [this]; exact he
        intro x hx
        have h1 : ¬ SizeByte (a + (b.size + total fs)) rest' x := by
          rintro ⟨e, he, he1, he2⟩
          exact hx ⟨e, hlay e he, he1, he2⟩
        have h2 : x < a ∨ a + 8 ≤ x := by
          by_contra hc
          exact hx ⟨(a, b), by simp [layout], by simp; omega, by simp; omega⟩
        rw [i3 x h1, f3 x h2]
      · have hu1 : b.used = 1 := by omega
        rw [try_merge_all_loop_succ, g1, if_pos (by omega), g2] at hloop
        simp only [BLOCK_FREE, hu, if_false] at hloop
        rw [g1, offset_ptr_toSigned _ _ (by omega)] at hloop
        have i3 := ih rest (by omega) m (a + b.size) k m' g3
          (by rw [Nat.add_assoc]; exact hsent) hvr (by omega) (by omega) (by omega) hloop
        intro x hx
        apply i3
        rintro ⟨e, he, he1, he2⟩
        exact hx ⟨e, by simp only [layout, List.mem_cons]; right; exact he, he1, he2⟩

/-- The `is_used` field of a block of the chain holds no byte of a `size` field. -/
theorem flag_not_sizeByte (a : Nat) (bs : List Blk) (hv : Valid bs) (e : Nat × Blk)
    (he : e ∈ layout a bs) (x : Nat) (h1 : e.1 + 8 ≤ x) (h2 : x < e.1 + 12) :
    ¬ SizeByte a bs x := by
  rintro ⟨e', he', h3, h4⟩
  have v := mem_layout_valid bs hv a e he
  have v' := mem_layout_valid bs hv a e' he'
  rcases layout_disjoint bs hv a e e' he he' with d | d | d
  · subst d; omega
  · omega
  · omega

/-- C16: on a well-formed heap with chain `bs` (any runs of adjacent free blocks),
`try_merge_all` returns and leaves the chain `mergeRuns bs`, in which every
maximal run of consecutive free blocks is one free block, at the address of
the first block of the run, whose size is the sum of the sizes of the run.  No
two adjacent blocks are free afterwards, the used blocks of the new chain are
the used blocks of the old one (same address, size and flag), the `is_used` field
of every old header is unchanged, only `size` fields are written, and the
total of the sizes, the base and the break are unchanged. -/
theorem C16_coalescing (h : Heap) (bs : List Blk) (fuel : Nat)
    (hr : Repr h bs) (hb : h.brk < 2 ^ 63) (hf : bs.length < fuel) :
    ∃ h', try_merge_all fuel h = some h' ∧ Repr h' (mergeRuns bs) ∧
      NoAdjFree (mergeRuns bs) ∧
      (∀ e : Nat × Blk, e.2.used ≠ 0 →
        (e ∈ layout h.first_block (mergeRuns bs) ↔ e ∈ layout h.first_block bs)) ∧
      (∀ e ∈ layout h.first_block bs, get_is_used h'.mem e.1 = get_is_used h.mem e.1) ∧
      (∀ x, ¬ SizeByte h.first_block bs x → h'.mem x = h.mem x) ∧
      total (mergeRuns bs) = total bs ∧ h'.brk = h.brk ∧ h'.first_block = h.first_block := by
  have hlt := Repr_total_lt h bs hr hb
  obtain ⟨h', a1, a2, a3, a4, _⟩ := try_merge_all_repr h bs fuel hr hb hf
  have hsz : ∀ x, ¬ SizeByte h.first_block bs x → h'.mem x = h.mem x := by
    have e := a1
    unfold try_merge_all at e
    cases hc : try_merge_all_loop fuel fuel h.mem h.first_block with
    | none => rw [hc] at e; exact absurd e (by simp)
    | some m' =>
      rw [hc] at e
      have e' : { h with mem := m' } = h' := Option.some.inj e
      subst e'
      exact try_merge_all_loop_sizes fuel bs.length bs (le_refl _) h.mem h.first_block fuel m'
        hr.seg hr.sent hr.valid (by omega) hf hf hc
  rw [coalesce_eq_mergeRuns] at a2
  refine ⟨h', a1, a2, ?_, ?_, ?_, hsz, ?_, a3, a4⟩
  · rw [← coalesce_eq_mergeRuns]; exact noAdjFree_coalesce bs
  · intro e he
    rw [← coalesce_eq_mergeRuns]
    exact layout_coalesce_used bs h.first_block e he
  · intro e he
    exact get_is_used_congr h.mem h'.mem e.1
      (fun x h1 h2 => hsz x (flag_not_sizeByte _ _ hr.valid e he x h1 h2))
  · rw [← coalesce_eq_mergeRuns]; exact total_coalesce bs

theorem exP_repr : Repr exP [⟨120, 0⟩, ⟨24, 0⟩, ⟨24, 1⟩] :=
  Repr_of_walk exP _ 5000 (by decide!) (by simp [Valid]) (by simp) (by decide!) (by decide!)
    (by decide!) (by decide!)

/-- Witness for C16: in `exP` the free blocks of 120 and 24 bytes become one
free block of 144 bytes. -/
theorem C16_coalescing_witness :
    mergeRuns [⟨120, 0⟩, ⟨24, 0⟩, ⟨24, 1⟩] = [⟨144, 0⟩, ⟨24, 1⟩] ∧
    ∃ h', try_merge_all 5000 exP = some h' ∧
      Repr h' (mergeRuns [⟨120, 0⟩, ⟨24, 0⟩, ⟨24, 1⟩]) ∧
      NoAdjFree (mergeRuns [⟨120, 0⟩, ⟨24, 0⟩, ⟨24, 1⟩]) ∧
      (∀ e : Nat × Blk, e.2.used ≠ 0 →
        (e ∈ layout exP.first_block (mergeRuns [⟨120, 0⟩, ⟨24, 0⟩, ⟨24, 1⟩]) ↔
          e ∈ layout exP.first_block [⟨120, 0⟩, ⟨24, 0⟩, ⟨24, 1⟩])) ∧
      (∀ e ∈ layout exP.first_block [⟨120, 0⟩, ⟨24, 0⟩, ⟨24, 1⟩],
        get_is_used h'.mem e.1 = get_is_used exP.mem e.1) ∧
      (∀ x, ¬ SizeByte exP.first_block [⟨120, 0⟩, ⟨24, 0⟩, ⟨24, 1⟩] x →
        h'.mem x = exP.mem x) ∧
      total (mergeRuns [⟨120, 0⟩, ⟨24, 0⟩, ⟨24, 1⟩]) = total [⟨120, 0⟩, ⟨24, 0⟩, ⟨24, 1⟩] ∧
      h'.brk = exP.brk ∧ h'.first_block = exP.first_block :=
  ⟨by decide, C16_coalescing exP _ 5000 exP_repr (by decide!) (by decide)⟩

/-- The loop of `try_release_memory` ends with `prev` at the last block. -/
theorem last_block_loop_repr (h : Heap) (bs : List Blk) (fuel : Nat)
    (hr : Repr h bs) (hb : h.brk < 2 ^ 63) (hfuel : bs.length < fuel) :
    last_block_loop fuel h.mem 0 h.first_block = some (lastAddr 0 h.first_block bs) := by
  obtain ⟨k, rfl⟩ : ∃ k, fuel = bs.length + (k + 1) := ⟨fuel - bs.length - 1, by omega⟩
  rw [last_block_loop_skip h.mem bs 0 h.first_block (k + 1) hr.seg
    (fun b hb' => Repr_sizes_lt h _ hr hb b hb')]
  have e : ∀ prev, last_block_loop (k + 1) h.mem prev (h.first_block + total bs) =
      if get_size h.mem (h.first_block + total bs) ≠ 0 then
        last_block_loop k h.mem (h.first_block + total bs)
          (offset_ptr (h.first_block + total bs)
            (toSigned (get_size h.mem (h.first_block + total bs))))
      else some prev := fun _ => rfl
  rw [e, if_neg (by simp [hr.sent.1])]

/-- C17: on a well-formed heap with chain `bs`, `try_release_memory` returns the
state unchanged when the chain is the sentinel alone or when the last block
`P` is used.  When `P` is free the break is first lowered by `P.size + 16` and
the sentinel is installed again: afterwards the sentinel sits at the former
address of `P`, the break is that address plus 16, a net decrease of exactly
`P.size`, no byte below `P` has changed and the chain is the one of the blocks
before `P`. -/
theorem C17_heap_shrink (h : Heap) (bs : List Blk) (fuel : Nat)
    (hr : Repr h bs) (hb : h.brk < 2 ^ 63) (hf : bs.length < fuel) :
    (bs = [] → try_release_memory fuel h = some h) ∧
    (∀ init P, bs = init ++ [P] → P.used ≠ 0 → try_release_memory fuel h = some h) ∧
    (∀ init P, bs = init ++ [P] → P.used = 0 →
      ∃ h', try_release_memory fuel h = some h' ∧
        h' = add_sentinel { h with brk := h.brk - (P.size + 16) } ∧
        h'.brk = h.brk - P.size ∧ h'.brk = h.first_block + total init + 16 ∧
        IsSentinel h'.mem (h.first_block + total init) ∧
        (∀ x, x < h.first_block + total init → h'.mem x = h.mem x) ∧
        h'.first_block = h.first_block ∧ Repr h' init) := by
  have hlt := Repr_total_lt h bs hr hb
  have hloop := last_block_loop_repr h bs fuel hr hb hf
  have hbase := hr.base_ne
  refine ⟨?_, ?_, ?_⟩
  · intro hnil
    subst hnil
    unfold try_release_memory
    rw [hloop]
    simp [lastAddr]
  · intro init l hsnoc hu
    subst hsnoc
    rw [lastAddr_append_singleton] at hloop
    have hseg := hr.seg
    rw [Seg_append_iff, Seg_cons_iff] at hseg
    obtain ⟨g1, g2, g3, _⟩ := hseg
    unfold try_release_memory
    rw [hloop]
    simp only
    rw [if_neg (by omega), g3, if_pos hu]
  · intro init l hsnoc hu
    subst hsnoc
    rw [lastAddr_append_singleton] at hloop
    have hseg := hr.seg
    rw [Seg_append_iff, Seg_cons_iff] at hseg
    obtain ⟨g1, g2, g3, _⟩ := hseg
    have hv := hr.valid
    rw [Valid_append_iff, Valid_cons_iff] at hv
    obtain ⟨v1, ⟨v2, v3, v4⟩, _⟩ := hv
    have hbrk := hr.brk_eq
    rw [total_append] at hbrk hlt
    simp only [total, Nat.add_zero] at hbrk hlt
    have e : h.brk - (l.size + 16) = h.first_block + total init := by omega
    have hstep : try_release_memory (List.length (init ++ [l]) + 0 + fuel -
        (List.length (init ++ [l]) + 0)) h =
        some (add_sentinel { h with brk := h.brk - (l.size + 16) }) := by
      have ef : List.length (init ++ [l]) + 0 + fuel - (List.length (init ++ [l]) + 0) = fuel := by
        omega
      rw [ef]
      unfold try_release_memory
      rw [hloop]
      simp only
      rw [if_neg (by omega), g3, hu, if_neg (by simp), g2,
        sbrk_shrink _ _ (by unfold sizeof_BlockHeader; omega)
          (by unfold sizeof_BlockHeader; omega)]
      rfl
    have ef : List.length (init ++ [l]) + 0 + fuel - (List.length (init ++ [l]) + 0) = fuel := by
      omega
    rw [ef] at hstep
    refine ⟨_, hstep, rfl, ?_, ?_, ?_, ?_, ?_, ?_⟩
    · rw [add_sentinel_eq]; dsimp only; omega
    · rw [add_sentinel_eq]; dsimp only; omega
    · rw [add_sentinel_eq]; dsimp only
      rw [e]
      exact isSentinel_written _ _
    · intro x hx
      rw [add_sentinel_eq]; dsimp only
      rw [e]
      exact sentinel_write_outside _ _ _ (Or.inl hx)
    · rw [add_sentinel_eq]
    · rw [add_sentinel_eq]
      refine ⟨hr.base_ne, hr.base_al, ?_, ?_, ?_, v1⟩
      · dsimp only
        rw [e]
        exact Seg_frame _ _ _ _ v1
          (fun x _ hx => sentinel_write_outside _ _ _ (Or.inl hx)) g1
      · dsimp only
        rw [e]
        exact isSentinel_written _ _
      · dsimp only
        omega

theorem exT_repr : Repr exT ([] ++ [⟨24, 0⟩]) :=
  Repr_of_walk exT _ 5000 (by decide!) (by simp [Valid]) (by simp) (by decide!) (by decide!)
    (by decide!) (by decide!)

/-- Witness for C17: in `exT` the only block is free and 24 bytes long; the break
comes down from `4136` to `4112` and the sentinel sits at `4096`. -/
theorem C17_heap_shrink_witness :
    exT.brk = 4136 ∧ exT.first_block = 4096 ∧
    (([] : List Blk) ++ [⟨24, 0⟩] = [] → try_release_memory 5000 exT = some exT) ∧
    (∀ init P, ([] : List Blk) ++ [⟨24, 0⟩] = init ++ [P] → P.used ≠ 0 →
      try_release_memory 5000 exT = some exT) ∧
    (∀ init P, ([] : List Blk) ++ [⟨24, 0⟩] = init ++ [P] → P.used = 0 →
      ∃ h', try_release_memory 5000 exT = some h' ∧
        h' = add_sentinel { exT with brk := exT.brk - (P.size + 16) } ∧
        h'.brk = exT.brk - P.size ∧ h'.brk = exT.first_block + total init + 16 ∧
        IsSentinel h'.mem (exT.first_block + total init) ∧
        (∀ x, x < exT.first_block + total init → h'.mem x = exT.mem x) ∧
        h'.first_block = exT.first_block ∧ Repr h' init) :=
  ⟨by decide!, by decide!, C17_heap_shrink exT _ 5000 exT_repr (by decide!) (by decide)⟩

/-- C18: the first `heap_init` (when `first_block` is still null) sets `first_block` to
the least multiple of 8 that is at least the initial break `B0`: `B0` itself
when `B0 % 8 = 0`, and `B0 + 8 - B0 % 8` otherwise; it installs a sentinel
(`size = 0`, `is_used = 1`) there, writes nothing else and leaves the break at
`first_block + 16`.  A call with `first_block` already non-null returns the state
unchanged, in particular a second call after the first. -/
theorem C18_heap_init (h : Heap) :
    (h.first_block = 0 →
      (heap_init h).first_block % 8 = 0 ∧ h.brk ≤ (heap_init h).first_block ∧
      (∀ k, k % 8 = 0 → h.brk ≤ k → (heap_init h).first_block ≤ k) ∧
      (h.brk % 8 = 0 → (heap_init h).first_block = h.brk) ∧
      (h.brk % 8 ≠ 0 → (heap_init h).first_block = h.brk + 8 - h.brk % 8) ∧
      IsSentinel (heap_init h).mem (heap_init h).first_block ∧
      (∀ x, x < (heap_init h).first_block ∨ (heap_init h).first_block + 12 ≤ x →
        (heap_init h).mem x = h.mem x) ∧
      (heap_init h).brk = (heap_init h).first_block + 16 ∧
      (0 < h.brk → heap_init (heap_init h) = heap_init h)) ∧
    (h.first_block ≠ 0 → heap_init h = h) := by
  have hne : ∀ g : Heap, g.first_block ≠ 0 → heap_init g = g := by
    intro g hg
    unfold heap_init
    rw [if_pos hg]
  refine ⟨?_, hne h⟩
  intro h0
  have e := heap_init_fresh h h0
  have e1 : (heap_init h).first_block = (h.brk + 7) / 8 * 8 := by rw [e]
  have e2 : (heap_init h).brk = (h.brk + 7) / 8 * 8 + 16 := by rw [e]
  have e3 : (heap_init h).mem =
      set_is_used (set_size h.mem ((h.brk + 7) / 8 * 8) 0) ((h.brk + 7) / 8 * 8) 1 := by rw [e]
  rw [e1, e2, e3]
  refine ⟨by omega, by omega, fun k hk1 hk2 => by omega, fun hm => by omega,
    fun hm => by omega, isSentinel_written _ _,
    fun x hx => sentinel_write_outside _ _ _ hx, rfl, fun hpos => ?_⟩
  apply hne
  rw [e1]
  omega

/-- Witness for C18: an initial break of `4100` gives the base `4104`. -/
theorem C18_heap_init_witness :
    (heap_init ⟨fun _ => 0, 4100, 0⟩).first_block = 4104 ∧
    (heap_init ⟨fun _ => 0, 4100, 0⟩).brk = 4120 ∧
    (heap_init ⟨fun _ => 0, 4096, 0⟩).first_block = 4096 ∧
    heap_init (heap_init ⟨fun _ => 0, 4100, 0⟩) = heap_init ⟨fun _ => 0, 4100, 0⟩ ∧
    heap_init ex1 = ex1 :=
  ⟨((C18_heap_init ⟨fun _ => 0, 4100, 0⟩).1 rfl).2.2.2.2.1 (by decide),
   by rw [((C18_heap_init ⟨fun _ => 0, 4100, 0⟩).1 rfl).2.2.2.2.2.2.2.1,
        ((C18_heap_init ⟨fun _ => 0, 4100, 0⟩).1 rfl).2.2.2.2.1 (by decide)]
      rfl,
   ((C18_heap_init ⟨fun _ => 0, 4096, 0⟩).1 rfl).2.2.2.1 (by decide),
   ((C18_heap_init ⟨fun _ => 0, 4100, 0⟩).1 rfl).2.2.2.2.2.2.2.2 (by decide),
   (C18_heap_init ex1).2 (by decide!)⟩

theorem exQ_reachable : Reachable exQ [(4112, 184)] := by
  have e := run_eq (MALLOC 5000 184 ex0) (by decide!)
  have hp : ptr_of (MALLOC 5000 184 ex0) = 4112 := by decide!
  rw [hp] at e
  exact Reachable.malloc ex0 [] 5000 184 4112 exQ ex0_reachable (by decide!) (by decide!) e

theorem exR_reachable : Reachable exR [(4312, 8), (4112, 184)] := by
  have e := run_eq (MALLOC 5000 8 exQ) (by decide!)
  have hp : ptr_of (MALLOC 5000 8 exQ) = 4312 := by decide!
  rw [hp] at e
  exact Reachable.malloc exQ _ 5000 8 4312 exR exQ_reachable (by decide!) (by decide!) e

theorem exU_reachable : Reachable exU [(4312, 8)] := by
  have e := run_free_eq (FREE 5000 4112 exR) (by decide!)
  exact Reachable.free exR _ 5000 4112 184 exU exR_reachable (by decide!) (by simp) e

/-- C19, evaluated at a failing input: in the reachable state `exU` the live
allocation at `4312` has a payload of 8 bytes (block of 24 bytes); `REALLOC` to
100 bytes relocates it to `q`, and the byte at offset 16 of the new payload,
`0` before the call, holds `1` afterwards: it was copied from offset 16 behind
the old pointer, the `is_used` field of the sentinel, because `memcpy` is given
the new size `orig_sz = 100`, not `min(8, 100)`.  The 100 bytes read from `4312`
end above the break. -/
theorem C19_copy_overrun :
    Reachable exU [(4312, 8)] ∧ get_size exU.mem (4312 - 16) - 16 = 8 ∧
    ∃ q h', REALLOC 5000 4312 100 exU = some (q, h') ∧ q ≠ 4312 ∧ min 8 100 ≤ 16 ∧
      exU.mem (q + 16) = 0 ∧ h'.mem (q + 16) = 1 ∧ exU.mem (4312 + 16) = 1 ∧
      exU.brk < 4312 + 100 := by
  refine ⟨exU_reachable, by decide!, _, _, run_eq (REALLOC 5000 4312 100 exU) (by decide!),
    by decide!, by decide, by decide!, by decide!, by decide!, by decide!⟩

theorem exW_repr : Repr exW [⟨32, 1⟩, ⟨168, 0⟩] :=
  Repr_of_walk exW _ 5000 (by decide!) (by simp [Valid]) (by simp) (by decide!) (by decide!)
    (by decide!) (by decide!)

/-- `REALLOC` to 100 bytes of the first block of the chain `used 32`, `free 168`:
growth in place. -/
theorem REALLOC_grow_scenario (h : Heap) (fuel : Nat) (hr : Repr h [⟨32, 1⟩, ⟨168, 0⟩])
    (hb : h.brk < 2 ^ 63) (hf : 2 ≤ fuel) :
    ∃ m1 h', try_merge fuel h.mem h.first_block = some m1 ∧
      get_size m1 h.first_block = 200 ∧
      REALLOC fuel (h.first_block + 16) 100 h = some (h.first_block + 16, h') ∧
      Repr h' [⟨120, 1⟩, ⟨80, 0⟩] ∧ h'.brk = h.brk ∧ h'.first_block = h.first_block := by
  have hr' : Repr h ([] ++ (⟨32, 1⟩ : Blk) :: ([⟨168, 0⟩] ++ [])) := hr
  obtain ⟨m1, a1, a2, _⟩ := try_merge_repr h [] [⟨168, 0⟩] [] ⟨32, 1⟩ fuel hr' hb
    (by simp) (Or.inl rfl) (by simp; omega)
  obtain ⟨h', b1, b2, b3, b4, _⟩ := REALLOC_inplace_repr h [] [⟨168, 0⟩] [] ⟨32, 1⟩ 100 fuel
    hr' hb (by decide) (by decide) (by simp) (Or.inl rfl) (by decide) (by decide)
    (by simp; omega)
  simp only [total, Nat.add_zero] at a1 b1
  have e1 : ([] : List Blk) ++
      splitBlk ⟨(⟨32, 1⟩ : Blk).size + total [⟨168, 0⟩], (⟨32, 1⟩ : Blk).used⟩ (footprint 100) ++ []
      = [⟨120, 1⟩, ⟨80, 0⟩] := by decide
  rw [e1] at b2
  have hseg := a2.seg (h.first_block, ⟨200, 1⟩) (by simp [layout, total])
  exact ⟨m1, h', a1, hseg.1, b1, b2, b4, b3⟩

/-- C20, as stated, fails: on the chain `used [0, 32)`, `free [32, 200)`, sentinel at
`200` of `exW`, `REALLOC(base + 16, 100)` returns `base + 16` and leaves the chain
`used [0, 120)`, `free [120, 200)` with the sentinel still at `200`: merging 32
and 168 bytes gives `[0, 200)`, not `[0, 232)`, and the chain
`used [0, 120)`, `free [120, 232)` does not describe the result. -/
theorem C20_counterexample :
    Repr exW [⟨32, 1⟩, ⟨168, 0⟩] ∧
    ∃ m1 h', try_merge 5000 exW.mem exW.first_block = some m1 ∧
      get_size m1 exW.first_block ≠ 232 ∧
      REALLOC 5000 (exW.first_block + 16) 100 exW = some (exW.first_block + 16, h') ∧
      Repr h' [⟨120, 1⟩, ⟨80, 0⟩] ∧ h'.brk = h'.first_block + 200 + 16 ∧
      ¬ Repr h' [⟨120, 1⟩, ⟨112, 0⟩] := by
  obtain ⟨m1, h', a1, a2, a3, a4, a5, a6⟩ := REALLOC_grow_scenario exW 5000 exW_repr
    (by decide!) (by decide)
  have hb := a4.brk_eq
  simp only [total] at hb
  refine ⟨exW_repr, m1, h', a1, by rw [a2]; decide, a3, a4, hb, ?_⟩
  intro hc
  have hb' := hc.brk_eq
  simp only [total] at hb'
  omega

/-- C20 (amended): on every heap whose chain is `used [0, 32)`, `free [32, 200)`,
sentinel at `200`, `REALLOC(base + 16, 100)` computes `need = 120`, `try_merge`
extends the block `[0, 32)` to `[0, 200)`, the split at 120 yields the chain
`used [0, 120)`, `free [120, 200)` with the sentinel at `200` (base and break
unchanged), and the original pointer `base + 16` is returned. -/
theorem C20_inplace_growth (h : Heap) (fuel : Nat) (hr : Repr h [⟨32, 1⟩, ⟨168, 0⟩])
    (hb : h.brk < 2 ^ 63) (hf : 2 ≤ fuel) :
    footprint 100 = 120 ∧
    ∃ m1 h', try_merge fuel h.mem h.first_block = some m1 ∧
      get_size m1 h.first_block = 200 ∧
      REALLOC fuel (h.first_block + 16) 100 h = some (h.first_block + 16, h') ∧
      Repr h' [⟨120, 1⟩, ⟨80, 0⟩] ∧ IsSentinel h'.mem (h.first_block + 200) ∧
      h'.brk = h.brk ∧ h'.first_block = h.first_block := by
  obtain ⟨m1, h', a1, a2, a3, a4, a5, a6⟩ := REALLOC_grow_scenario h fuel hr hb hf
  have hs := a4.sent
  simp only [total] at hs
  rw [a6] at hs
  exact ⟨by decide, m1, h', a1, a2, a3, a4, hs, a5, a6⟩

/-- Witness for C20 (amended): the state `exW`. -/
theorem C20_inplace_growth_witness :
    footprint 100 = 120 ∧
    ∃ m1 h', try_merge 5000 exW.mem exW.first_block = some m1 ∧
      get_size m1 exW.first_block = 200 ∧
      REALLOC 5000 (exW.first_block + 16) 100 exW = some (exW.first_block + 16, h') ∧
      Repr h' [⟨120, 1⟩, ⟨80, 0⟩] ∧ IsSentinel h'.mem (exW.first_block + 200) ∧
      h'.brk = exW.brk ∧ h'.first_block = exW.first_block :=
  C20_inplace_growth exW 5000 exW_repr (by decide!) (by decide)

theorem exO_repr : Repr exO [⟨32, 1⟩, ⟨32, 1⟩, ⟨136, 0⟩] :=
  Repr_of_walk exO _ 5000 (by decide!) (by simp [Valid]) (by simp) (by decide!) (by decide!)
    (by decide!) (by decide!)

/-- `REALLOC` to 100 bytes of the first block of the chain `used 32`, `used 32`,
`free 136`: relocation into the free block, which is taken whole. -/
theorem REALLOC_move_scenario (h : Heap) (fuel : Nat)
    (hr : Repr h [⟨32, 1⟩, ⟨32, 1⟩, ⟨136, 0⟩]) (hb : h.brk + 124 ≤ 2 ^ 63) (hf : 5 ≤ fuel) :
    ∃ h', REALLOC fuel (h.first_block + 16) 100 h = some (h.first_block + 80, h') ∧
      Repr h' [⟨32, 0⟩, ⟨32, 1⟩, ⟨136, 1⟩] ∧ h'.brk = h.brk ∧
      h'.first_block = h.first_block ∧
      ∀ i, i < 16 → h'.mem (h.first_block + 80 + i) = h.mem (h.first_block + 16 + i) := by
  have hr' : Repr h ([] ++ (⟨32, 1⟩ : Blk) :: ([] ++ [⟨32, 1⟩, ⟨136, 0⟩])) := hr
  obtain ⟨h', pre2, suf2, a1, a2, a3, a4, a5, _, a7⟩ := REALLOC_relocate_repr h []
    [] [⟨32, 1⟩, ⟨136, 0⟩] ⟨32, 1⟩ 100 fuel hr' (by omega) rfl (by decide) (by omega)
    (by simp) (Or.inr ⟨_, _, rfl, by decide⟩) (by decide) (by simp; omega)
  have e0 : ([] : List Blk) ++
      (⟨(⟨32, 1⟩ : Blk).size + total [], 1⟩ : Blk) :: [⟨32, 1⟩, ⟨136, 0⟩] =
      [⟨32, 1⟩, ⟨32, 1⟩, ⟨136, 0⟩] := by decide
  have e1 : allocOff (footprint 100) [⟨32, 1⟩, ⟨32, 1⟩, ⟨136, 0⟩] = 64 := by decide
  have e2 : allocL (footprint 100) [⟨32, 1⟩, ⟨32, 1⟩, ⟨136, 0⟩] =
      [⟨32, 1⟩, ⟨32, 1⟩, ⟨136, 1⟩] := by decide
  have e3 : (⟨32, 1⟩ : Blk).size + total [] = 32 := by decide
  rw [e0, e1] at a1 a7
  rw [e0, e2, e3] at a2
  rw [e3] at a4 a7
  simp only [total, Nat.add_zero] at a3 a1 a7
  have hpre : pre2 = [] := by
    cases pre2 with
    | nil => rfl
    | cons x xs =>
      have hx := (List.cons.inj a2).1
      simp only [total] at a3
      rw [← hx] at a3
      simp at a3
  subst hpre
  have hsuf : suf2 = [⟨32, 1⟩, ⟨136, 1⟩] := ((List.cons.inj a2).2).symm
  subst hsuf
  have e4 : releaseLast (coalesce (([] : List Blk) ++ (⟨32, 0⟩ : Blk) :: [⟨32, 1⟩, ⟨136, 1⟩])) =
      [⟨32, 0⟩, ⟨32, 1⟩, ⟨136, 1⟩] := by decide
  rw [e4] at a4
  have hb1 := a4.brk_eq
  have hb2 := hr.brk_eq
  simp only [total] at hb1 hb2
  have ep : h.first_block + 64 + 16 = h.first_block + 80 := by omega
  rw [ep] at a1 a7
  exact ⟨h', a1, a4, by omega, a5, fun i hi => a7 i (by omega) (by omega)⟩

/-- C21, as stated, fails: on the chain `used [0, 32)`, `used [32, 64)`,
`free [64, 200)` of `exO`, `REALLOC(base + 16, 100)` returns `base + 80`, but the free
block of 136 bytes is handed out whole, without a split and without a free
remainder (`136 - 120 = 16 < 40`): the block of the returned pointer is 136
bytes long and the chain ends with it.  Moreover more than 16 bytes are copied:
offset 16 of the new payload, `0` before the call, holds afterwards the byte
found 16 bytes behind the old pointer (the size field of the second block). -/
theorem C21_counterexample :
    Repr exO [⟨32, 1⟩, ⟨32, 1⟩, ⟨136, 0⟩] ∧ 136 - footprint 100 < 40 ∧
    ∃ q h', REALLOC 5000 (exO.first_block + 16) 100 exO = some (q, h') ∧
      q = exO.first_block + 80 ∧ get_size h'.mem (q - 16) = 136 ∧
      Repr h' [⟨32, 0⟩, ⟨32, 1⟩, ⟨136, 1⟩] ∧
      exO.mem (q + 16) = 0 ∧ h'.mem (q + 16) = 32 ∧
      exO.mem (exO.first_block + 16 + 16) = 32 := by
  have e := run_eq (REALLOC 5000 (exO.first_block + 16) 100 exO) (by decide!)
  have hrep : Repr (after (REALLOC 5000 (exO.first_block + 16) 100 exO))
      [⟨32, 0⟩, ⟨32, 1⟩, ⟨136, 1⟩] :=
    Repr_of_walk _ _ 5000 (by decide!) (by simp [Valid]) (by simp) (by decide!) (by decide!)
      (by decide!) (by decide!)
  exact ⟨exO_repr, by decide, _, _, e, by decide!, by decide!, hrep, by decide!, by decide!,
    by decide!⟩

/-- C21 (amended): on every heap whose chain is `used [0, 32)`, `used [32, 64)`,
`free [64, 200)`, sentinel at `200`, `REALLOC(base + 16, 100)` cannot grow in place,
takes the free block `[64, 200)` whole (no split), keeps the 16 bytes of the
original payload at the new pointer, frees the old block `[0, 32)` and returns
`base + 80`; the chain is then `free [0, 32)`, `used [32, 64)`, `used [64, 200)`
with the base and the break unchanged. -/
theorem C21_relocating_resize (h : Heap) (fuel : Nat)
    (hr : Repr h [⟨32, 1⟩, ⟨32, 1⟩, ⟨136, 0⟩]) (hb : h.brk + 124 ≤ 2 ^ 63) (hf : 5 ≤ fuel) :
    footprint 100 = 120 ∧ try_merge fuel h.mem h.first_block = some h.mem ∧
    ∃ h', REALLOC fuel (h.first_block + 16) 100 h = some (h.first_block + 80, h') ∧
      Repr h' [⟨32, 0⟩, ⟨32, 1⟩, ⟨136, 1⟩] ∧ h'.brk = h.brk ∧
      h'.first_block = h.first_block ∧
      ∀ i, i < 16 → h'.mem (h.first_block + 80 + i) = h.mem (h.first_block + 16 + i) := by
  refine ⟨by decide, ?_, REALLOC_move_scenario h fuel hr hb hf⟩
  obtain ⟨k, rfl⟩ : ∃ k, fuel = k + 1 := ⟨fuel - 1, by omega⟩
  have hseg := hr.seg
  rw [Seg_cons_iff, Seg_cons_iff] at hseg
  obtain ⟨g1, _, g2, g3, _⟩ := hseg
  dsimp only at g1 g2 g3
  rw [try_merge_succ, g1, offset_ptr_toSigned _ _ (by decide), g3]
  rfl

/-- Witness for C21 (amended): the state `exO`. -/
theorem C21_relocating_resize_witness :
    footprint 100 = 120 ∧ try_merge 5000 exO.mem exO.first_block = some exO.mem ∧
    ∃ h', REALLOC 5000 (exO.first_block + 16) 100 exO = some (exO.first_block + 80, h') ∧
      Repr h' [⟨32, 0⟩, ⟨32, 1⟩, ⟨136, 1⟩] ∧ h'.brk = exO.brk ∧
      h'.first_block = exO.first_block ∧
      ∀ i, i < 16 → h'.mem (exO.first_block + 80 + i) = exO.mem (exO.first_block + 16 + i) :=
  C21_relocating_resize exO 5000 exO_repr (by decide!) (by decide)

/-- The search loop of `MALLOC` returns for every footprint `sz`; when no block
fits it ends at the sentinel. -/
theorem MALLOC_loop_total (h : Heap) (bs : List Blk) (fuel sz : Nat) (hr : Repr h bs)
    (hb : h.brk < 2 ^ 63) (hf : bs.length < fuel) :
    ∃ r, MALLOC_loop fuel h h.first_block sz = some r ∧
      ((∀ b ∈ bs, ¬ (b.used = 0 ∧ sz ≤ b.size)) → r.1 = h.first_block + total bs + 16) := by
  rcases alloc_cases sz bs with ⟨pre, blk, suf, e1, e2, e3, e4, _, _⟩ | ⟨e1, _, _⟩
  · subst e1
    simp only [List.length_append, List.length_cons] at hf
    obtain ⟨k, rfl⟩ : ∃ k, fuel = pre.length + (k + 1) := ⟨fuel - pre.length - 1, by omega⟩
    have hseg := hr.seg
    rw [Seg_append_iff, Seg_cons_iff] at hseg
    obtain ⟨g1, g2, g3, _⟩ := hseg
    have hsz := Repr_sizes_lt h _ hr hb
    rw [MALLOC_loop_skip h sz pre h.first_block (k + 1) g1
      (fun b hb' => ⟨(hsz b (by simp [hb'])).1, (hsz b (by simp [hb'])).2, e2 b hb'⟩),
      MALLOC_loop_found k h _ sz (by rw [g2]; exact (hsz blk (by simp)).1) (by rw [g3]; exact e3)
        (by rw [g2]; exact e4)]
    exact ⟨_, rfl, fun hno => absurd ⟨e3, e4⟩ (hno blk (by simp))⟩
  · obtain ⟨k, rfl⟩ : ∃ k, fuel = bs.length + (k + 1) := ⟨fuel - bs.length - 1, by omega⟩
    have hsz := Repr_sizes_lt h _ hr hb
    rw [MALLOC_loop_skip h sz bs h.first_block (k + 1) hr.seg
      (fun b hb' => ⟨(hsz b hb').1, (hsz b hb').2, e1 b hb'⟩),
      MALLOC_loop_grow k h _ sz hr.sent.1 hr.sent.2]
    exact ⟨_, rfl, fun _ => rfl⟩

/-- C22: on a well-formed heap with chain `bs` every walk returns as soon as its
fuel exceeds the number of blocks.  `try_merge` on a block followed by the run
`fs` of free blocks and then a used block or the sentinel returns after
`fs.length + 1` tests, having absorbed exactly the run; the search loop of
`MALLOC` returns for every footprint and ends at the sentinel when no block
fits; `try_merge_all` returns; the loop of `try_release_memory` returns with `prev`
at the last block, after exactly one test per block and one for the sentinel
(fuel equal to the number of blocks is not enough); the walk by size strides
reads exactly `bs`. -/
theorem C22_walks_terminate (h : Heap) (bs : List Blk) (fuel : Nat) (hr : Repr h bs)
    (hb : h.brk < 2 ^ 63) (hf : bs.length < fuel) :
    (∀ pre blk fs rest, bs = pre ++ blk :: (fs ++ rest) → (∀ f ∈ fs, f.used = 0) →
      (rest = [] ∨ ∃ u r, rest = u :: r ∧ u.used ≠ 0) →
      ∃ m1, try_merge (fs.length + 1) h.mem (h.first_block + total pre) = some m1 ∧
        get_size m1 (h.first_block + total pre) = blk.size + total fs) ∧
    (∀ sz, ∃ r, MALLOC_loop fuel h h.first_block sz = some r ∧
      ((∀ b ∈ bs, ¬ (b.used = 0 ∧ sz ≤ b.size)) → r.1 = h.first_block + total bs + 16)) ∧
    (∃ h', try_merge_all fuel h = some h') ∧
    last_block_loop fuel h.mem 0 h.first_block = some (lastAddr 0 h.first_block bs) ∧
    last_block_loop bs.length h.mem 0 h.first_block = none ∧
    (∃ h', try_release_memory fuel h = some h') ∧
    chain_walk fuel h.mem h.first_block = some bs := by
  refine ⟨?_, fun sz => MALLOC_loop_total h bs fuel sz hr hb hf, ?_,
    last_block_loop_repr h bs fuel hr hb hf, ?_, ?_, Repr_walk h bs hr hb fuel hf⟩
  · intro pre blk fs rest e hfs hrest
    subst e
    obtain ⟨m1, a1, a2, _⟩ := try_merge_repr h pre fs rest blk (fs.length + 1) hr hb hfs hrest
      (by omega)
    have hseg := a2.seg _ (mem_layout_mid h.first_block pre rest ⟨blk.size + total fs, blk.used⟩)
    exact ⟨m1, a1, hseg.1⟩
  · obtain ⟨h', a1, _⟩ := try_merge_all_repr h bs fuel hr hb hf
    exact ⟨h', a1⟩
  · have e := last_block_loop_skip h.mem bs 0 h.first_block 0 hr.seg
      (fun b hb' => Repr_sizes_lt h _ hr hb b hb')
    rw [Nat.add_zero] at e
    rw [e]
    rfl
  · obtain ⟨h', a1, _⟩ := try_release_memory_repr h bs fuel hr hb hf
    exact ⟨h', a1⟩

/-- Witness for C22: the chain of `exP` (two free blocks, then a used one) with
fuel 4, one more than the number of blocks. -/
theorem C22_walks_terminate_witness :
    (∀ pre blk fs rest, [⟨120, 0⟩, ⟨24, 0⟩, ⟨24, 1⟩] = pre ++ blk :: (fs ++ rest) →
      (∀ f ∈ fs, f.used = 0) → (rest = [] ∨ ∃ u r, rest = u :: r ∧ u.used ≠ 0) →
      ∃ m1, try_merge (fs.length + 1) exP.mem (exP.first_block + total pre) = some m1 ∧
        get_size m1 (exP.first_block + total pre) = blk.size + total fs) ∧
    (∀ sz, ∃ r, MALLOC_loop 4 exP exP.first_block sz = some r ∧
      ((∀ b ∈ [(⟨120, 0⟩ : Blk), ⟨24, 0⟩, ⟨24, 1⟩], ¬ (b.used = 0 ∧ sz ≤ b.size)) →
        r.1 = exP.first_block + total [⟨120, 0⟩, ⟨24, 0⟩, ⟨24, 1⟩] + 16)) ∧
    (∃ h', try_merge_all 4 exP = some h') ∧
    last_block_loop 4 exP.mem 0 exP.first_block =
      some (lastAddr 0 exP.first_block [⟨120, 0⟩, ⟨24, 0⟩, ⟨24, 1⟩]) ∧
    last_block_loop [(⟨120, 0⟩ : Blk), ⟨24, 0⟩, ⟨24, 1⟩].length exP.mem 0 exP.first_block =
      none ∧
    (∃ h', try_release_memory 4 exP = some h') ∧
    chain_walk 4 exP.mem exP.first_block = some [⟨120, 0⟩, ⟨24, 0⟩, ⟨24, 1⟩] :=
  C22_walks_terminate exP _ 4 exP_repr (by decide!) (by decide)

theorem NoAdjFree_snoc_of_lastUsed (xs : List Blk) (y : Blk) (hx : NoAdjFree xs)
    (hl : LastUsed xs) : NoAdjFree (xs ++ [y]) := by
  unfold NoAdjFree at hx ⊢
  rw [List.chain'_append]
  refine ⟨hx, List.chain'_singleton _, ?_⟩
  intro x hx' z _ hc
  exact hl x hx' hc.1

theorem splitBlk_split (b : Blk) (sz : Nat) (h1 : sz < b.size) (h2 : 40 ≤ b.size - sz) :
    splitBlk b sz = [⟨sz, b.used⟩, ⟨b.size - sz, 0⟩] := by
  unfold splitBlk
  rw [if_neg (by omega), if_neg (by omega)]

theorem coalesce_congr_tail (pre xs ys : List Blk) (h : coalesce xs = coalesce ys) :
    coalesce (pre ++ xs) = coalesce (pre ++ ys) := by
  induction pre with
  | nil => exact h
  | cons p pre ih =>
    rw [List.cons_append, List.cons_append, coalesce, coalesce, ih]

/-- `MALLOC` followed by `FREE` of the returned pointer, from a chain without
adjacent free blocks whose last block is used: the chain is restored. -/
theorem alloc_free_roundtrip (h : Heap) (bs : List Blk) (s fuel : Nat) (hr : Repr h bs)
    (hna : NoAdjFree bs) (hlu : LastUsed bs) (hs : h.brk + s + 24 ≤ 2 ^ 63)
    (hf : h.brk ≤ fuel) :
    ∃ p h1 h2, MALLOC fuel s h = some (p, h1) ∧ FREE fuel p h1 = some h2 ∧
      Repr h2 bs ∧ h2.first_block = h.first_block := by
  obtain ⟨f1, f2, f3⟩ := footprint_spec s (by omega)
  have hfuel := Repr_fuel_ok h bs hr fuel hf
  rcases alloc_cases (footprint s) bs with ⟨pre, blk, suf, e1, e2, e3, e4, _, _⟩ | ⟨e1, _, _⟩
  · subst e1
    have hblk : (⟨blk.size, 0⟩ : Blk) = blk := by
      cases blk
      simp only at e3
      simp [e3]
    simp only [List.length_append, List.length_cons] at hfuel
    obtain ⟨h1, a1, a2, a3, a4, _⟩ := MALLOC_fit h pre suf blk s fuel hr (by omega) (by omega)
      e2 e3 e4 (by omega)
    by_cases hsp : blk.size - footprint s < 40
    · rw [splitBlk_same ⟨blk.size, 1⟩ (footprint s) (Or.inr hsp)] at a2
      have a2' : Repr h1 (pre ++ (⟨blk.size, 1⟩ : Blk) :: suf) := by simpa using a2
      obtain ⟨h2, b1, b2, b3, _⟩ := FREE_repr h1 pre suf ⟨blk.size, 1⟩ fuel a2'
        (by rw [a3]; omega) rfl (by simp only [List.length_append, List.length_cons]; omega)
      dsimp only at b2
      rw [hblk, coalesce_of_noAdjFree _ hna, releaseLast_of_lastUsed _ hlu] at b2
      rw [a4] at b1
      exact ⟨_, h1, h2, a1, b1, b2, by rw [b3, a4]⟩
    · have hlt : footprint s < blk.size := by omega
      rw [splitBlk_split ⟨blk.size, 1⟩ (footprint s) hlt (by dsimp only; omega)] at a2
      have a2' : Repr h1 (pre ++ (⟨footprint s, 1⟩ : Blk) ::
          ((⟨blk.size - footprint s, 0⟩ : Blk) :: suf)) := by simpa using a2
      obtain ⟨h2, b1, b2, b3, _⟩ := FREE_repr h1 pre (⟨blk.size - footprint s, 0⟩ :: suf)
        ⟨footprint s, 1⟩ fuel a2' (by rw [a3]; omega) rfl
        (by simp only [List.length_append, List.length_cons]; omega)
      dsimp only at b2
      have ec : coalesce ((⟨footprint s, 0⟩ : Blk) :: (⟨blk.size - footprint s, 0⟩ : Blk) :: suf) =
          coalesce (blk :: suf) := by
        rw [coalesce_merge_free _ _ _ rfl rfl]
        dsimp only
        have : footprint s + (blk.size - footprint s) = blk.size := by omega
        rw [this, hblk]
      rw [coalesce_congr_tail pre _ _ ec, coalesce_of_noAdjFree _ hna,
        releaseLast_of_lastUsed _ hlu] at b2
      rw [a4] at b1
      exact ⟨_, h1, h2, a1, b1, b2, by rw [b3, a4]⟩
  · have hbrk := hr.brk_eq
    obtain ⟨h1, a1, a2, a3, a4, _⟩ := MALLOC_grow h bs s fuel hr (by omega) (by omega) e1
      (by omega)
    have a2' : Repr h1 (bs ++ (⟨footprint s, 1⟩ : Blk) :: []) := a2
    obtain ⟨h2, b1, b2, b3, _⟩ := FREE_repr h1 bs [] ⟨footprint s, 1⟩ fuel a2'
      (by rw [a3]; omega) rfl (by simp; omega)
    dsimp only at b2
    rw [coalesce_of_noAdjFree _ (NoAdjFree_snoc_of_lastUsed bs _ hna hlu),
      releaseLast_append_singleton, if_pos rfl] at b2
    rw [a4] at b1
    exact ⟨_, h1, h2, a1, b1, b2, by rw [b3, a4]⟩

/-- C23: from every heap state whose chain `bs` satisfies the chain invariants (valid
blocks, no two adjacent free blocks, last block used or chain empty) and for
every request `s` that does not wrap (`brk + s + 24 ≤ 2 ^ 63`), `MALLOC(s)` followed
at once by `FREE` of the returned pointer gives a heap with exactly the chain
`bs` again (the walk reads the same sizes and flags), the same base and the
same break, whether `MALLOC` took a block whole, split one, or grew the heap. -/
theorem C23_alloc_release_roundtrip (h : Heap) (bs : List Blk) (s fuel : Nat)
    (hr : Repr h bs) (hna : NoAdjFree bs) (hlu : LastUsed bs)
    (hs : h.brk + s + 24 ≤ 2 ^ 63) (hf : h.brk ≤ fuel) :
    ∃ p h1 h2, MALLOC fuel s h = some (p, h1) ∧ FREE fuel p h1 = some h2 ∧
      Repr h2 bs ∧ h2.brk = h.brk ∧ h2.first_block = h.first_block ∧
      chain_walk fuel h2.mem h2.first_block = some bs ∧
      chain_walk fuel h.mem h.first_block = some bs := by
  obtain ⟨p, h1, h2, a1, a2, a3, a4⟩ := alloc_free_roundtrip h bs s fuel hr hna hlu hs hf
  have hfuel := Repr_fuel_ok h bs hr fuel hf
  have hbrk : h2.brk = h.brk := by rw [a3.brk_eq, hr.brk_eq, a4]
  exact ⟨p, h1, h2, a1, a2, a3, hbrk, a4,
    Repr_walk h2 bs a3 (by rw [hbrk]; omega) fuel (by omega),
    Repr_walk h bs hr (by omega) fuel (by omega)⟩

/-- Witness for C23: in `exC` (free block of 120 bytes, then a used block)
`MALLOC(8)` splits the free block and `FREE` merges the two parts again. -/
theorem C23_alloc_release_roundtrip_witness :
    allocL (footprint 8) [⟨120, 0⟩, ⟨24, 1⟩] = [⟨24, 1⟩, ⟨96, 0⟩, ⟨24, 1⟩] ∧
    ∃ p h1 h2, MALLOC 5000 8 exC = some (p, h1) ∧ FREE 5000 p h1 = some h2 ∧
      Repr h2 [⟨120, 0⟩, ⟨24, 1⟩] ∧ h2.brk = exC.brk ∧ h2.first_block = exC.first_block ∧
      chain_walk 5000 h2.mem h2.first_block = some [⟨120, 0⟩, ⟨24, 1⟩] ∧
      chain_walk 5000 exC.mem exC.first_block = some [⟨120, 0⟩, ⟨24, 1⟩] :=
  ⟨by decide, C23_alloc_release_roundtrip exC _ 8 5000 exC_inv.repr exC_inv.noadj exC_inv.last
    (by decide!) (by decide!)⟩

/-- C24: request-size wraparound.  The state `exC` is reachable; its first block is
free and 120 bytes long.  For `s = 2 ^ 64 - 16` the footprint
`round_up(s + 16, 8)` is `0` in 64-bit arithmetic; `MALLOC(s)` selects that block and
`try_split(B, 0)` leaves its header with `size = 0` and `is_used = 0`.  The call returns
`first_block + 16`; the walk from `first_block` now reads the empty chain and stops at
a header that is not a sentinel, while the used block at `4216` is still in
memory behind it. -/
theorem C24_size_wraparound :
    Reachable exC [(4232, 8)] ∧
    chain_walk 5000 exC.mem exC.first_block = some [⟨120, 0⟩, ⟨24, 1⟩] ∧
    (2 ^ 64 - 16 + 16) % 2 ^ 64 = 0 ∧ footprint (2 ^ 64 - 16) = 0 ∧
    ∃ p h', MALLOC 5000 (2 ^ 64 - 16) exC = some (p, h') ∧
      p = exC.first_block + 16 ∧ h'.first_block = exC.first_block ∧
      h'.mem = try_split (set_is_used exC.mem exC.first_block 1) exC.first_block 0 ∧
      get_size h'.mem (p - 16) = 0 ∧ get_is_used h'.mem (p - 16) = 0 ∧
      ¬ IsSentinel h'.mem h'.first_block ∧
      chain_walk 5000 h'.mem h'.first_block = some [] ∧
      get_size h'.mem 4216 = 24 ∧ get_is_used h'.mem 4216 = 1 ∧ 4216 + 16 = 4232 := by
  have e := run_eq (MALLOC 5000 (2 ^ 64 - 16) exC) (by decide!)
  have hm : (after (MALLOC 5000 (2 ^ 64 - 16) exC)).mem =
      try_split (set_is_used exC.mem exC.first_block 1) exC.first_block 0 := by
    have e1 := MALLOC_eq 5000 (2 ^ 64 - 16) exC _ exC_inv.repr
    have e2 : footprint (2 ^ 64 - 16) = 0 := by decide
    rw [e2] at e1
    have e3 : MALLOC_loop 5000 exC exC.first_block 0 =
        some (exC.first_block + 16,
          { exC with
            mem := (try_split (set_is_used exC.mem exC.first_block 1) exC.first_block 0) }) :=
      MALLOC_loop_found 4999 exC exC.first_block 0 (by decide!) (by decide!) (Nat.zero_le _)
    rw [e3] at e1
    rw [e1]
    rfl
  have hu : get_is_used (after (MALLOC 5000 (2 ^ 64 - 16) exC)).mem
      (after (MALLOC 5000 (2 ^ 64 - 16) exC)).first_block = 0 := by decide!
  exact ⟨exC_reachable, by decide!, by decide, by decide, _, _, e, by decide!, by decide!, hm,
    by decide!, by decide!, fun hc => absurd hc.2 (by rw [hu]; decide), by decide!, by decide!,
    by decide!, by decide⟩

theorem REALLOC_copy_eq (fuel p s : Nat) (h : Heap) (hp : 16 ≤ p) (hs : 0 < s) :
    REALLOC_copy fuel p s h =
      if footprint s > get_size h.mem (p - 16) then
        match try_merge fuel h.mem (p - 16) with
        | none => none
        | some m1 =>
          if get_size (try_split m1 (p - 16) (footprint s)) (p - 16) ≥ footprint s then none
          else
            match MALLOC fuel ((footprint s + negU sizeof_BlockHeader) % 2 ^ 64)
                { h with mem := try_split m1 (p - 16) (footprint s) } with
            | none => none
            | some (new_ptr, h3) => some (new_ptr, p, s, h3.brk)
      else none := by
  unfold REALLOC_copy
  rw [if_neg (by omega), if_neg (by omega), offset_ptr_neg_header]
  rfl

/-- The copy of `REALLOC` on a state that satisfies the invariant: it is made on the
relocation path only, from the old pointer, with the new size as its length,
into the block that `REALLOC` returns; the bytes requested at `p` lie outside the
destination; the copy stays below the break when the `s'` bytes behind `p` end
below the break or when no free block fits, so that the heap grows for the new
block. -/
theorem REALLOC_copy_inv (h : Heap) (L : List (Nat × Nat)) (bs : List Blk)
    (fuel p s s' : Nat) (inv : Inv h L bs) (hf : h.brk ≤ fuel) (hp : (p, s) ∈ L)
    (hs0 : 0 < s') (hroom : h.brk + s' + 24 ≤ 2 ^ 63)
    (hin : p + s' ≤ h.brk ∨ ∀ b ∈ bs, ¬ (b.used = 0 ∧ footprint s' ≤ b.size)) :
    ∀ dst src n b, REALLOC_copy fuel p s' h = some (dst, src, n, b) →
      src = p ∧ n = s' ∧ src + n ≤ b ∧ dst + n ≤ b ∧ (p + s ≤ dst ∨ dst + n ≤ p) ∧
      ∃ h', REALLOC fuel p s' h = some (dst, h') := by
  obtain ⟨pre, blk, suf, e1, e2, e3, e4⟩ := LiveOK_split _ _ _ inv.live p s hp
  subst e1 e2
  obtain ⟨f1, f2, f3⟩ := footprint_spec s' (by omega)
  have hb := inv.bound
  have hfuel := Repr_fuel_ok h _ inv.repr fuel hf
  have hseg := inv.repr.seg
  rw [Seg_append_iff, Seg_cons_iff] at hseg
  obtain ⟨g1, g2, g3, g4⟩ := hseg
  have hp16 : h.first_block + total pre + 16 - 16 = h.first_block + total pre := by omega
  intro dst src n b hc
  rw [REALLOC_copy_eq _ _ _ _ (by omega) hs0, hp16, g2] at hc
  by_cases hle : footprint s' ≤ blk.size
  · rw [if_neg (by omega)] at hc
    exact absurd hc (by simp)
  · obtain ⟨fs, rest, r1, r2, r3⟩ := free_run_split suf
    subst r1
    have hbrk := inv.repr.brk_eq
    simp only [total_append, total] at hbrk
    obtain ⟨m1, t1, t2, t3⟩ := try_merge_repr h pre fs rest blk fuel inv.repr hb r2 r3
      (by simp only [List.length_append, List.length_cons] at hfuel; omega)
    rw [if_pos (by omega), t1] at hc
    dsimp only at hc
    have hm1s : get_size m1 (h.first_block + total pre) = blk.size + total fs := by
      have := t2.seg
      rw [Seg_append_iff, Seg_cons_iff] at this
      exact this.2.1
    by_cases hin2 : footprint s' ≤ blk.size + total fs
    · have hnew := Repr_sizes_lt _ _ t2 hb ⟨blk.size + total fs, blk.used⟩ (by simp)
      dsimp only at hnew
      obtain ⟨r1', _⟩ := try_split_repr _ pre rest ⟨blk.size + total fs, blk.used⟩
        (footprint s') t2 (by omega) (by omega) f1
      dsimp only at r1'
      have hsz : footprint s' ≤
          get_size (try_split m1 (h.first_block + total pre) (footprint s'))
            (h.first_block + total pre) := by
        have := r1'.seg
        dsimp only at this
        rw [Seg_append_iff, Seg_append_iff] at this
        have := this.1.2
        rcases splitBlk_cases ⟨blk.size + total fs, blk.used⟩ (footprint s') with hc' | ⟨_, _, hc'⟩
        · rw [hc', Seg_cons_iff] at this
          rw [this.1]
          exact hin2
        · rw [hc', Seg_cons_iff] at this
          rw [this.1]
      rw [if_pos hsz] at hc
      exact absurd hc (by simp)
    · rw [e3] at t2
      have hnoop : try_split m1 (h.first_block + total pre) (footprint s') = m1 :=
        try_split_noop _ _ _ (by rw [hm1s]; omega)
      have hfp : footprint (footprint s' - 16) = footprint s' :=
        footprint_sub _ (by omega) f1 (by omega)
      obtain ⟨h3, a1, a2, a3, _, _⟩ := MALLOC_repr _ _ (footprint s' - 16) fuel t2 hb (by omega)
        (by simp only [List.length_append, List.length_cons] at hfuel ⊢; omega)
      rw [hfp] at a1 a2
      dsimp only at a1 a3
      rw [hnoop, hm1s, if_neg (by omega), sub_header_mod _ (by omega) (by omega), a1] at hc
      dsimp only at hc
      have hc' := Option.some.inj hc
      have c1 := (Prod.mk.inj hc').1
      have c2 := (Prod.mk.inj (Prod.mk.inj hc').2).1
      have c3 := (Prod.mk.inj (Prod.mk.inj (Prod.mk.inj hc').2).2).1
      have c4 := (Prod.mk.inj (Prod.mk.inj (Prod.mk.inj hc').2).2).2
      obtain ⟨h', _, _, q1, _⟩ := REALLOC_relocate_repr h pre fs rest blk s' fuel inv.repr hb e3 hs0
        hroom r2 r3 (by omega) hfuel
      rw [c1] at q1
      have hb3 := a2.brk_eq
      rw [a3] at hb3
      obtain ⟨nb, n1, n2, n3⟩ := alloc_new_block (footprint s') h.first_block
        (pre ++ ⟨blk.size + total fs, 1⟩ :: rest)
      have hrange := mem_layout_range _ _ _ n1
      dsimp only at hrange
      have hsrc : h.first_block + total pre + 16 + s' ≤ h3.brk := by
        rcases alloc_cases (footprint s') (pre ++ ⟨blk.size + total fs, 1⟩ :: rest) with
          ⟨pre', blk', suf', k1, _, k3, k4, k5, _⟩ | ⟨_, k2, _⟩
        · have ht : total (allocL (footprint s') (pre ++ ⟨blk.size + total fs, 1⟩ :: rest)) =
              total pre + (blk.size + total fs + total rest) := by
            rw [k5]
            simp only [total_append, total_splitBlk]
            have := congrArg total k1
            simp only [total_append, total] at this
            omega
          rcases hin with hin | hin
          · omega
          · exfalso
            have hmem : blk' ∈ pre ++ (⟨blk.size + total fs, 1⟩ : Blk) :: rest := by
              rw [k1]; simp
            rw [List.mem_append, List.mem_cons] at hmem
            rcases hmem with hm | hm | hm
            · exact hin blk' (by simp [hm]) ⟨k3, k4⟩
            · rw [hm] at k3
              exact absurd k3 (by simp)
            · exact hin blk' (by simp [hm]) ⟨k3, k4⟩
        · have ht : total (allocL (footprint s') (pre ++ ⟨blk.size + total fs, 1⟩ :: rest)) =
              total pre + (blk.size + total fs + total rest) + footprint s' := by
            rw [k2]
            simp only [total_append, total]
            omega
          omega
      obtain ⟨o1, o2⟩ := alloc_used_persist (footprint s') h.first_block _ t2.valid
        (h.first_block + total pre, ⟨blk.size + total fs, 1⟩) (mem_layout_mid _ pre rest _)
        (by simp)
      dsimp only at o2
      have hdis : h.first_block + total pre + 16 + s ≤ dst ∨
          dst + n ≤ h.first_block + total pre + 16 := by
        rcases layout_disjoint _ a2.valid h.first_block _ _ o1 n1 with hd | hd | hd
        · have := congrArg Prod.fst hd
          dsimp only at this
          exact absurd this o2
        · dsimp only at hd
          left; omega
        · dsimp only at hd
          right; omega
      refine ⟨c2.symm, c3.symm, ?_, ?_, hdis, h', q1⟩
      · rw [← c2, ← c3, ← c4]; exact hsrc
      · rw [← c1, ← c3, ← c4]; omega

theorem exE_repr : Repr exE [⟨64, 1⟩] :=
  (Reachable_repr_of_walk exE _ exE_reachable 5000 (by decide!) _ (by decide!)).repr

/-- C8 (amended): in a reachable state with chain `bs`, for a live allocation `p`
requested with size `s` and a new size `s' > 0` that does not wrap (the break
plus `s' + 24` stays within `2 ^ 63`) and whose relocation copy stays inside the
heap (the `s'` bytes behind `p` end below the break, or no free block fits the
new footprint, so that the heap grows for the new block), `REALLOC(p, s')` returns
a pointer `q` such that the bytes `q[0 .. min(s, s'))` after the call equal the
bytes `p[0 .. min(s, s'))` before it, whichever of the three paths is taken;
when the call copies, it copies `s'` bytes from `p` to `q`, both the bytes read
and the bytes written lie below the break at the time of the copy, and the
`min(s, s')` bytes of the claim lie outside the destination of the copy. -/
theorem C8_realloc_preserves_data (h : Heap) (L : List (Nat × Nat)) (bs : List Blk)
    (p s s' fuel : Nat) (hr : Reachable h L) (hrep : Repr h bs) (hp : (p, s) ∈ L)
    (hs0 : 0 < s') (hroom : h.brk + s' + 24 ≤ 2 ^ 63) (hf : h.brk ≤ fuel)
    (hin : p + s' ≤ h.brk ∨ ∀ b ∈ bs, ¬ (b.used = 0 ∧ footprint s' ≤ b.size)) :
    ∃ q h', REALLOC fuel p s' h = some (q, h') ∧
      (∀ i, i < min s s' → h'.mem (q + i) = h.mem (p + i)) ∧
      ∀ dst src n b, REALLOC_copy fuel p s' h = some (dst, src, n, b) →
        dst = q ∧ src = p ∧ n = s' ∧ src + n ≤ b ∧ dst + n ≤ b ∧
        (src + min s s' ≤ dst ∨ dst + n ≤ src) := by
  obtain ⟨bs0, inv⟩ := reachable_inv h L hr
  have hbs := Repr_unique h bs0 bs inv.repr hrep inv.bound
  subst hbs
  obtain ⟨q, h', bs', e1, _, _, e4, _⟩ := REALLOC_inv h L bs0 fuel p s s' inv hf hp hs0 hroom
  refine ⟨q, h', e1, fun i hi => e4 i (by omega) (by omega), ?_⟩
  intro dst src n b hc
  obtain ⟨c1, c2, c3, c4, c6, h'', c5⟩ := REALLOC_copy_inv h L bs0 fuel p s s' inv hf hp hs0 hroom
    hin dst src n b hc
  rw [e1] at c5
  refine ⟨((Prod.mk.inj (Option.some.inj c5)).1).symm, c1, c2, c3, c4, ?_⟩
  rw [c1]
  rcases c6 with c6 | c6
  · left; omega
  · right; exact c6

/-- Witness for C8 (amended): growing the allocation of `exE` from 48 to 100 bytes.
The chain has no free block, the heap grows, and the copy of 100 bytes from
`4112` to `4176` is made with the break at `4296`. -/
theorem C8_realloc_preserves_data_witness :
    (REALLOC_copy 5000 4112 100 exE).isSome = true ∧
    ((REALLOC_copy 5000 4112 100 exE).getD (0, 0, 0, 0)).1 = 4176 ∧
    ((REALLOC_copy 5000 4112 100 exE).getD (0, 0, 0, 0)).2.2.2 = 4296 ∧
    ∃ q h', REALLOC 5000 4112 100 exE = some (q, h') ∧
      (∀ i, i < min 48 100 → h'.mem (q + i) = exE.mem (4112 + i)) ∧
      ∀ dst src n b, REALLOC_copy 5000 4112 100 exE = some (dst, src, n, b) →
        dst = q ∧ src = 4112 ∧ n = 100 ∧ src + n ≤ b ∧ dst + n ≤ b ∧
        (src + min 48 100 ≤ dst ∨ dst + n ≤ src) :=
  ⟨by decide!, by decide!, by decide!, C8_realloc_preserves_data exE _ [⟨64, 1⟩] 4112 48 100 5000 exE_reachable exE_repr
    (by simp) (by decide) (by decide!) (by decide!) (Or.inr (by simp))⟩

theorem exB_repr : Repr exB [⟨120, 1⟩, ⟨24, 1⟩] :=
  (Reachable_repr_of_walk exB _ exB_reachable 5000 (by decide!) _ (by decide!)).repr

/-- C9 (amended): in a reachable state with chain `bs` and for a live allocation `p`
with requested size `s`, a following `MALLOC`, `CALLOC` of at least one element,
`FREE` or `REALLOC`, with a size that does not wrap and applied to other live
pointers, returns and leaves every byte of `[p, p + s)` unchanged.  For `REALLOC`
of another pointer `q` to `s2` bytes the relocation copy is required to stay
inside the heap (`q + s2` is at most the break, or no free block fits the new
footprint, so that the heap grows); the bytes it reads and writes then lie
below the break at the time of the copy. -/
theorem C9_payload_frame (h : Heap) (L : List (Nat × Nat)) (bs : List Blk) (p s i : Nat)
    (hr : Reachable h L) (hrep : Repr h bs) (hp : (p, s) ∈ L) (hi : i < s) :
    (∀ fuel s2, h.brk ≤ fuel → h.brk + s2 + 24 ≤ 2 ^ 63 →
      ∃ q h', MALLOC fuel s2 h = some (q, h') ∧ h'.mem (p + i) = h.mem (p + i)) ∧
    (∀ fuel n w, h.brk ≤ fuel → 0 < n → h.brk + n * w + 24 ≤ 2 ^ 63 →
      ∃ q h', CALLOC fuel n w h = some (q, h') ∧ h'.mem (p + i) = h.mem (p + i)) ∧
    (∀ fuel q sq, h.brk ≤ fuel → (q, sq) ∈ L → q ≠ p →
      ∃ h', FREE fuel q h = some h' ∧ h'.mem (p + i) = h.mem (p + i)) ∧
    (∀ fuel q sq s2, h.brk ≤ fuel → (q, sq) ∈ L → q ≠ p → 0 < s2 →
      h.brk + s2 + 24 ≤ 2 ^ 63 →
      (q + s2 ≤ h.brk ∨ ∀ b ∈ bs, ¬ (b.used = 0 ∧ footprint s2 ≤ b.size)) →
      ∃ q' h', REALLOC fuel q s2 h = some (q', h') ∧ h'.mem (p + i) = h.mem (p + i) ∧
        ∀ dst src n b, REALLOC_copy fuel q s2 h = some (dst, src, n, b) →
          dst = q' ∧ src = q ∧ n = s2 ∧ src + n ≤ b ∧ dst + n ≤ b) := by
  obtain ⟨bs0, inv⟩ := reachable_inv h L hr
  have hbs := Repr_unique h bs0 bs inv.repr hrep inv.bound
  subst hbs
  have hown := LiveOK_own _ _ _ inv.live (p, s) hp i hi
  dsimp only at hown
  refine ⟨?_, ?_, ?_, ?_⟩
  · intro fuel s2 hf hroom
    obtain ⟨h', e1, _, _, e4⟩ := MALLOC_inv h L bs0 fuel s2 inv hf hroom
    exact ⟨_, h', e1, e4 _ hown⟩
  · intro fuel n w hf hn hroom
    obtain ⟨q, h', e1, e2, _⟩ := CALLOC_frame h L bs0 fuel n w inv hf hn hroom
    exact ⟨q, h', e1, e2 (p, s) hp i hi⟩
  · intro fuel q sq hf hq _
    obtain ⟨h', _, e1, _, _, e4⟩ := FREE_inv h L bs0 fuel q sq inv hf hq
    exact ⟨h', e1, e4 _ hown⟩
  · intro fuel q sq s2 hf hq hne hs0 hroom hin
    obtain ⟨q', h', _, e1, _, _, _, e5⟩ := REALLOC_inv h L bs0 fuel q sq s2 inv hf hq hs0 hroom
    refine ⟨q', h', e1, e5 (p, s) hp (fun hc => hne hc.symm) i hi, ?_⟩
    intro dst src n b hc
    obtain ⟨c1, c2, c3, c4, _, h'', c5⟩ := REALLOC_copy_inv h L bs0 fuel q sq s2 inv hf hq hs0
      hroom hin dst src n b hc
    rw [e1] at c5
    exact ⟨((Prod.mk.inj (Option.some.inj c5)).1).symm, c1, c2, c3, c4⟩

/-- Witness for C9 (amended) at the reachable state `exB` with two live
allocations: the first byte of the allocation at `4232`. -/
theorem C9_payload_frame_witness :
    (∀ fuel s2, exB.brk ≤ fuel → exB.brk + s2 + 24 ≤ 2 ^ 63 →
      ∃ q h', MALLOC fuel s2 exB = some (q, h') ∧ h'.mem (4232 + 0) = exB.mem (4232 + 0)) ∧
    (∀ fuel n w, exB.brk ≤ fuel → 0 < n → exB.brk + n * w + 24 ≤ 2 ^ 63 →
      ∃ q h', CALLOC fuel n w exB = some (q, h') ∧ h'.mem (4232 + 0) = exB.mem (4232 + 0)) ∧
    (∀ fuel q sq, exB.brk ≤ fuel → (q, sq) ∈ [(4232, 8), (4112, 100)] → q ≠ 4232 →
      ∃ h', FREE fuel q exB = some h' ∧ h'.mem (4232 + 0) = exB.mem (4232 + 0)) ∧
    (∀ fuel q sq s2, exB.brk ≤ fuel → (q, sq) ∈ [(4232, 8), (4112, 100)] → q ≠ 4232 →
      0 < s2 → exB.brk + s2 + 24 ≤ 2 ^ 63 →
      (q + s2 ≤ exB.brk ∨
        ∀ b ∈ [(⟨120, 1⟩ : Blk), ⟨24, 1⟩], ¬ (b.used = 0 ∧ footprint s2 ≤ b.size)) →
      ∃ q' h', REALLOC fuel q s2 exB = some (q', h') ∧
        h'.mem (4232 + 0) = exB.mem (4232 + 0) ∧
        ∀ dst src n b, REALLOC_copy fuel q s2 exB = some (dst, src, n, b) →
          dst = q' ∧ src = q ∧ n = s2 ∧ src + n ≤ b ∧ dst + n ≤ b) :=
  C9_payload_frame exB _ [⟨120, 1⟩, ⟨24, 1⟩] 4232 8 0 exB_reachable exB_repr (by simp)
    (by decide)

/-- C13 (amended): in a reachable state, the block `B` of a live allocation `p`
(header at `p - 16`) has a size of at least 16.  When `B.size > 16`, `REALLOC` of
`p` with the current payload size `B.size - 16` returns `p` and leaves the chain
(the walk from `first_block`: addresses, sizes and flags), the base and the
break unchanged.  When `B.size = 16` (a block handed out by `MALLOC(0)`), the
current payload size is `0` and `REALLOC(p, 0)` does what `FREE(p)` does and
returns `NULL`: the allocation is released. -/
theorem C13_realloc_same_size (h : Heap) (L : List (Nat × Nat)) (p s fuel : Nat)
    (hr : Reachable h L) (hp : (p, s) ∈ L) (hf : h.brk ≤ fuel) :
    16 ≤ get_size h.mem (p - 16) ∧
    (16 < get_size h.mem (p - 16) →
      ∃ h', REALLOC fuel p (get_size h.mem (p - 16) - 16) h = some (p, h') ∧
        h'.brk = h.brk ∧ h'.first_block = h.first_block ∧
        (chain_walk fuel h.mem h.first_block).isSome = true ∧
        chain_walk fuel h'.mem h'.first_block = chain_walk fuel h.mem h.first_block) ∧
    (get_size h.mem (p - 16) = 16 →
      ∃ h', REALLOC fuel p (get_size h.mem (p - 16) - 16) h = some (0, h') ∧
        FREE fuel p h = some h' ∧ get_is_used h.mem (p - 16) = 1 ∧
        Reachable h' (L.filter (fun r => r.1 ≠ p))) := by
  obtain ⟨bs, inv⟩ := reachable_inv h L hr
  obtain ⟨l1, blk, l2, l3, _⟩ := inv.live (p, s) hp
  dsimp only at l1 l2
  obtain ⟨pre, suf, e1, e2⟩ := mem_layout_split bs _ _ l2
  dsimp only at e1 e2
  subst e1
  have hg := inv.repr.seg _ l2
  dsimp only at hg
  have hv := inv.repr.valid blk (by simp)
  rw [hg.1]
  refine ⟨hv.1, ?_, ?_⟩
  · intro hsz
    have hp2 : p = h.first_block + total pre + 16 := by omega
    obtain ⟨h', a1, _, a3, a4, a5, a6⟩ := REALLOC_same_size_repr h L pre suf blk fuel inv hsz hf
    rw [← hp2] at a1
    exact ⟨h', a1, a3, a4, by rw [a6]; rfl, by rw [a5, a6]⟩
  · intro hsz
    obtain ⟨h', _, a1, _, _, _⟩ := FREE_inv h L _ fuel p s inv hf hp
    refine ⟨h', ?_, a1, by rw [hg.2, l3], Reachable.free h L fuel p s h' hr hf hp a1⟩
    rw [hsz, REALLOC_zero fuel p h (by omega), a1]

/-- Witness for C13 (amended): the 120-byte block of `exB`, resized to its
payload size 104, and the 16-byte block of `exZ`, resized to 0. -/
theorem C13_realloc_same_size_witness :
    (∃ h', REALLOC 5000 4112 (get_size exB.mem (4112 - 16) - 16) exB = some (4112, h') ∧
      h'.brk = exB.brk ∧ h'.first_block = exB.first_block ∧
      (chain_walk 5000 exB.mem exB.first_block).isSome = true ∧
      chain_walk 5000 h'.mem h'.first_block = chain_walk 5000 exB.mem exB.first_block) ∧
    (∃ h', REALLOC 5000 4112 (get_size exZ.mem (4112 - 16) - 16) exZ = some (0, h') ∧
      FREE 5000 4112 exZ = some h' ∧ get_is_used exZ.mem (4112 - 16) = 1 ∧
      Reachable h' ([(4112, 0)].filter (fun r => r.1 ≠ 4112))) :=
  ⟨(C13_realloc_same_size exB _ 4112 100 5000 exB_reachable (by simp) (by decide!)).2.1
      (by decide!),
   (C13_realloc_same_size exZ _ 4112 0 5000 exZ_reachable (by simp) (by decide!)).2.2
      (by decide!)⟩

end HeapManager
